import Mathlib

/-!
# MyVector::vector<T> (Src/MyVector.cpp)

A model of the growable array of `Src/MyVector.cpp` over an explicit free store.

* The free store (`Heap`) maps an address to the block allocated there. A block is a
  list of slots, one per element; a slot is `none` while it is raw memory and `some x`
  while it holds a constructed element `x`.
* A `vector` is the record of the four data members of the class. `T* block` is a
  `Ptr`: `none` is `nullptr`, `some a` the address of a block.
* A member function is a function on `State`: the free store together with `*this`.
* `size_t` values are natural numbers and `sizeof(T)` is the parameter `sz`. The
  additions `blockSize + blockSize / 2`, `oldCap + 1`, `elementCount + 1`, the loop
  indices below `elementCount + 1` and the products `capacity * sizeof(T)` are taken
  without wrap-around; `grownCapacity64` and `reserve64` give the new capacity of
  `grow_if_needed` and the function `reserve` with the arithmetic taken modulo `2^64`.
* A parameter of reference type is a `Ref`: an object outside the blocks of the free
  store, or an element of a block, which is read when the function uses it.
* A request to `::operator new` always succeeds and returns an address that was never
  used; a released address is never handed out again. `nullptr` is `none`. A request for
  fewer bytes than one element takes gives a block of zero slots.
* Several containers live in one free store (`World`); a member function sees the free
  store and its own object only, an assignment sees both objects. Copy assignment is
  `swap` with the block pointers exchanged: line 35 as written does not compile.
* Constructing `T` from a slot (`T(other.block[i])`, `T(std::move(block[i]))`) gives
  the new element the value the source slot holds; the source keeps its value until
  it is destructed.
* Placement-new, destructor calls and element accesses are recorded in a log with a
  flag telling whether the slot was in the state the operation needs. The log is
  never read by an operation.
-/

set_option autoImplicit false

namespace MyVector

/-- Slots of one allocated block: `none` is raw memory, `some x` a constructed element. -/
abbrev Block (α : Type) := List (Option α)

/-- Values of `T*`: `none` is `nullptr`, `some a` points to the block at address `a`. -/
abbrev Ptr := Option Nat

/-- Lifetime events on slots and blocks. `valid` tells whether the target was in the state
the operation requires: raw for a construction, constructed for a destruction or an
access, allocated (or `nullptr`) for a release. -/
inductive Event where
  | construct (p : Ptr) (slot : Nat) (valid : Bool)
  | destroy (p : Ptr) (slot : Nat) (valid : Bool)
  | access (p : Ptr) (slot : Nat) (valid : Bool)
  | release (p : Ptr) (valid : Bool)
  deriving DecidableEq, Repr

/-- The free store. Cell `a` is `some b` while a block with slots `b` is allocated at
address `a`, and `none` once it has been released. -/
structure Heap (α : Type) where
  cells : List (Option (Block α))
  log : List Event
  deriving DecidableEq, Repr

/-- The four data members of `MyVector::vector<T>`. -/
structure vector where
  totalMemoryInUse : Nat
  blockSize : Nat
  elementCount : Nat
  block : Ptr
  deriving DecidableEq, Repr

/-- The free store together with the object a member function is called on. -/
structure State (α : Type) where
  heap : Heap α
  self : vector
  deriving DecidableEq, Repr

/-- What a reference parameter (`const T&`, `T&&`, a forwarded argument) designates, in a
program whose blocks hold elements of type `α`: an object of type `β` that lives outside
the blocks of the free store (a local, a temporary) and holds `x`, or the element in slot
`i` of the block at `p`, of which the reference designates the part `view` (the element
itself when `view` is the identity, as in `c.push_back(c[i])`). -/
inductive Ref (α β : Type) where
  | object (x : β)
  | element (p : Ptr) (i : Nat) (view : α → β)

section primitives

variable {α : Type}

/-- The free store before any allocation. -/
def Heap.empty : Heap α := { cells := [], log := [] }

/-- The block a pointer refers to, if it is allocated. -/
def load (h : Heap α) : Ptr → Option (Block α)
  | none => none
  | some a => (h.cells[a]?).join

/-- The content of slot `p[i]`: `some x` when the slot holds a constructed `x`. -/
def slot (h : Heap α) (p : Ptr) (i : Nat) : Option α :=
  match load h p with
  | some b => (b[i]?).join
  | none => none

/-- Whether `p[i]` is a slot of an allocated block that holds no element. -/
def isRaw (h : Heap α) (p : Ptr) (i : Nat) : Bool :=
  match load h p with
  | some b =>
    match b[i]? with
    | some none => true
    | _ => false
  | none => false

/-- Appends an event to the log. -/
def record (h : Heap α) (e : Event) : Heap α := { h with log := h.log ++ [e] }

/-- Applies `f` to the block `p` points to; nothing changes when there is no such block. -/
def modify (h : Heap α) (p : Ptr) (f : Block α → Block α) : Heap α :=
  match p with
  | none => h
  | some a =>
    match h.cells[a]? with
    | some (some b) => { h with cells := h.cells.set a (some (f b)) }
    | _ => h

/-- `static_cast<T*>(::operator new(n * sizeof(T)))`: a fresh block of `n` raw slots. -/
def alloc (h : Heap α) (n : Nat) : Heap α × Ptr :=
  ({ h with cells := h.cells ++ [some (List.replicate n none)] }, some h.cells.length)

/-- `::operator delete(static_cast<void*>(p))`. -/
def dealloc (h : Heap α) (p : Ptr) : Heap α :=
  match p with
  | none => record h (Event.release none true)
  | some a =>
    record { h with cells := h.cells.set a none } (Event.release p (load h p).isSome)

/-- `new (static_cast<void*>(p + i)) T(x)`. -/
def construct_at (h : Heap α) (p : Ptr) (i : Nat) (x : α) : Heap α :=
  record (modify h p (fun b => b.set i (some x))) (Event.construct p i (isRaw h p i))

/-- `p[i].~T()`. -/
def destroy_at (h : Heap α) (p : Ptr) (i : Nat) : Heap α :=
  record (modify h p (fun b => b.set i none)) (Event.destroy p i (slot h p i).isSome)

/-- `new (static_cast<void*>(dst + i)) T(src[j])`, also with `std::move(src[j])`: the new
element takes the value held in `src[j]`. Nothing is constructed from a raw source. -/
def construct_from (h : Heap α) (dst : Ptr) (i : Nat) (src : Ptr) (j : Nat) : Heap α :=
  match slot h src j with
  | some x => construct_at (record h (Event.access src j true)) dst i x
  | none => record h (Event.access src j false)

/-- `new (static_cast<void*>(p + i)) T(args)` with reference arguments, also with
`std::move` or `std::forward`: the object the reference designates is read when the
element is constructed, and `T(args)` is `mk` of what it holds. Nothing is constructed
when the reference designates a slot that holds no element. -/
def construct_ref {β : Type} (h : Heap α) (p : Ptr) (i : Nat) (mk : β → α) :
    Ref α β → Heap α
  | Ref.object x => construct_at h p i (mk x)
  | Ref.element src j view =>
    match slot h src j with
    | some y => construct_at (record h (Event.access src j true)) p i (mk (view y))
    | none => record h (Event.access src j false)

/-- `std::swap(p[i], p[j])` on two constructed elements. -/
def swap_slots (h : Heap α) (p : Ptr) (i j : Nat) : Heap α :=
  match slot h p i, slot h p j with
  | some x, some y =>
    record (record (modify h p (fun b => (b.set i (some y)).set j (some x)))
      (Event.access p i true)) (Event.access p j true)
  | a, b => record (record h (Event.access p i a.isSome)) (Event.access p j b.isSome)

/-- `p[i] = x` through the reference returned by `operator[]` or `at`. -/
def assign_at (h : Heap α) (p : Ptr) (i : Nat) (x : α) : Heap α :=
  match slot h p i with
  | some _ => record (modify h p (fun b => b.set i (some x))) (Event.access p i true)
  | none => record h (Event.access p i false)

/-- `for (size_t i = lo; i < lo + n; ++i) body(i)`: the body runs `n` times, for
`i = lo, lo + 1, ...`. -/
def forLoop {σ : Type} (body : Nat → σ → σ) : Nat → Nat → σ → σ
  | 0, _, s => s
  | n + 1, i, s => forLoop body n (i + 1) (body i s)

end primitives

section members

variable {α : Type}

/-- The loop of `reserve` (lines 142-146) and of `shrink_to_fit` (lines 126-130):
`new (newStorage + i) T(std::move(block[i])); block[i].~T();` for `i < n`. -/
def relocate (block newStorage : Ptr) (n : Nat) (h : Heap α) : Heap α :=
  forLoop (fun i h => destroy_at (construct_from h newStorage i block i) block i) n 0 h

/-- `vector::reserve(size_t newCapacity)`, lines 137-151, for a request whose byte count
`newCapacity * sizeof(T)` is representable in `size_t`; `reserve64` is the function with
the products of lines 141 and 150 taken modulo `2^64`. -/
def reserve (sz : Nat) (newCapacity : Nat) (s : State α) : State α :=
  if newCapacity ≤ s.self.blockSize then s
  else
    let newCapacity :=
      if newCapacity < s.self.elementCount then s.self.elementCount else newCapacity
    let a := alloc s.heap newCapacity
    let h := relocate s.self.block a.2 s.self.elementCount a.1
    let h := dealloc h s.self.block
    { heap := h
      self := { s.self with
        block := a.2, blockSize := newCapacity, totalMemoryInUse := newCapacity * sz } }

/-- `vector::grow_if_needed()`, lines 17-28. -/
def grow_if_needed (sz : Nat) (s : State α) : State α :=
  if s.self.elementCount ≥ s.self.blockSize then
    let oldCap := s.self.blockSize
    let newCap := if s.self.blockSize ≠ 0 then s.self.blockSize + s.self.blockSize / 2 else 1
    let newCap := if newCap = oldCap then oldCap + 1 else newCap
    reserve sz newCap s
  else s

/-- `vector::vector()`, lines 39-45, run on the default member initialisers of
lines 12-15. -/
def default_ctor (sz : Nat) (h : Heap α) : State α :=
  let a := alloc h 4
  { heap := a.1
    self := { totalMemoryInUse := 0 + 4 * sz, blockSize := 4, elementCount := 0, block := a.2 } }

/-- `vector::size()`, lines 102-105. -/
def size (s : State α) : Nat := s.self.elementCount

/-- `vector::total_memory()`, lines 108-111. -/
def total_memory (s : State α) : Nat := s.self.totalMemoryInUse

/-- `vector::empty()`, lines 275-278. -/
def empty (s : State α) : Bool := s.self.elementCount == 0

/-- `vector::shrink_to_fit()`, lines 114-135. -/
def shrink_to_fit (sz : Nat) (s : State α) : State α :=
  if s.self.elementCount = 0 then
    { heap := dealloc s.heap s.self.block
      self := { s.self with block := none, blockSize := 0, totalMemoryInUse := 0 } }
  else
    let a := alloc s.heap s.self.elementCount
    let h := relocate s.self.block a.2 s.self.elementCount a.1
    let h := dealloc h s.self.block
    { heap := h
      self := { s.self with
        block := a.2, blockSize := s.self.elementCount,
        totalMemoryInUse := s.self.elementCount * sz } }

/-- `vector::push_back(const T& data)`, lines 153-158. `data` is a reference: what it
designates is read on line 156, after `grow_if_needed()` has run. -/
def push_back (sz : Nat) (data : Ref α α) (s : State α) : State α :=
  let s := grow_if_needed sz s
  { heap := construct_ref s.heap s.self.block s.self.elementCount (fun x => x) data
    self := { s.self with elementCount := s.self.elementCount + 1 } }

/-- `vector::push_back(T&& data)`, lines 160-165. `data` is a reference: what it
designates is read on line 163, after `grow_if_needed()` has run. -/
def push_back_move (sz : Nat) (data : Ref α α) (s : State α) : State α :=
  let s := grow_if_needed sz s
  { heap := construct_ref s.heap s.self.block s.self.elementCount (fun x => x) data
    self := { s.self with elementCount := s.self.elementCount + 1 } }

/-- `vector::emplace_back(Args&&... args)`, lines 167-173: `T(args...)` is `mk` of what
the forwarded references designate when line 171 runs, after `grow_if_needed()`. -/
def emplace_back {β : Type} (sz : Nat) (mk : β → α) (args : Ref α β) (s : State α) :
    State α :=
  let s := grow_if_needed sz s
  { heap := construct_ref s.heap s.self.block s.self.elementCount mk args
    self := { s.self with elementCount := s.self.elementCount + 1 } }

/-- `vector::pop_back()`, lines 175-180. -/
def pop_back (s : State α) : State α :=
  if s.self.elementCount = 0 then s
  else
    { heap := destroy_at s.heap s.self.block (s.self.elementCount - 1)
      self := { s.self with elementCount := s.self.elementCount - 1 } }

/-- `vector::erase(size_t index)`, lines 182-196. The loop runs for
`i = index, ..., elementCount - 2`. -/
def erase (index : Nat) (s : State α) : State α :=
  let p := s.self.block
  let h := destroy_at s.heap p index
  let h := forLoop (fun i h => destroy_at (construct_from h p i p (i + 1)) p (i + 1))
    (s.self.elementCount - 1 - index) index h
  { heap := h, self := { s.self with elementCount := s.self.elementCount - 1 } }

/-- `vector::erase(size_t start, size_t end)`, lines 198-222. -/
def erase_range (start end_ : Nat) (s : State α) : State α :=
  let p := s.self.block
  let count := end_ - start
  let tail := s.self.elementCount - end_
  let h :=
    if tail > 0 then
      forLoop (fun i h =>
        destroy_at (construct_from (destroy_at h p (start + i)) p (start + i) p (end_ + i))
          p (end_ + i)) tail 0 s.heap
    else
      forLoop (fun i h => destroy_at h p i) (s.self.elementCount - start) start s.heap
  { heap := h, self := { s.self with elementCount := s.self.elementCount - count } }

/-- `vector::shuffle()`, lines 224-234. `rng i` is the value `dist(rng)` returns in the
iteration for index `i`, where `dist` is `uniform_int_distribution<size_t>(0, i)`; the
loop runs for `i = elementCount - 1` down to `1`. -/
def shuffle (rng : Nat → Nat) (s : State α) : State α :=
  if s.self.elementCount ≤ 1 then s
  else
    { s with
      heap := forLoop (fun k h =>
          let i := s.self.elementCount - 1 - k
          swap_slots h s.self.block i (rng i % (i + 1)))
        (s.self.elementCount - 1) 0 s.heap }

/-- The loop of `reverse`, lines 239-243; `fuel` bounds the number of iterations. -/
def reverse_loop (p : Ptr) : Nat → Nat → Nat → Heap α → Heap α
  | 0, _, _, h => h
  | fuel + 1, left, right, h =>
    if left < right then reverse_loop p fuel (left + 1) (right - 1) (swap_slots h p left right)
    else h

/-- `vector::reverse()`, lines 236-244. -/
def reverse (s : State α) : State α :=
  if s.self.elementCount ≤ 1 then s
  else
    { s with
      heap := reverse_loop s.self.block s.self.elementCount 0 (s.self.elementCount - 1) s.heap }

/-- `vector::operator[](size_t index)`, lines 246-254: the element the returned
reference designates, `none` when there is no constructed element there. -/
def index (s : State α) (i : Nat) : Option α := slot s.heap s.self.block i

/-- `vector::at(size_t index)`, lines 256-264 (`at` is a reserved word here). -/
def at_ (s : State α) (i : Nat) : Option α := slot s.heap s.self.block i

/-- `container[i] = x`: a write through the reference `operator[]` returns. -/
def write (i : Nat) (x : α) (s : State α) : State α :=
  { s with heap := assign_at s.heap s.self.block i x }

/-- `vector::clear()`, lines 266-273. -/
def clear (s : State α) : State α :=
  let h := forLoop (fun i h => destroy_at h s.self.block i) s.self.elementCount 0 s.heap
  let h := dealloc h s.self.block
  { heap := h, self := { s.self with block := none, elementCount := 0, blockSize := 0 } }

/-- `vector::vector(vector&& other)`, lines 56-63: the new object and `other` afterwards.
The free store is not touched. -/
def move_ctor (other : vector) : vector × vector :=
  ({ totalMemoryInUse := other.totalMemoryInUse, blockSize := other.blockSize,
     elementCount := other.elementCount, block := other.block },
   { totalMemoryInUse := 0, blockSize := 0, elementCount := 0, block := none })

/-- The loop of the copy constructor, line 87, started at index `i` with `n` elements
left: `throwsAt i` tells whether `T(other.block[i])` throws. Returns the free store, the
value of `i` when the loop is left, and whether it was left by an exception. -/
def copy_loop (throwsAt : Nat → Bool) (src dst : Ptr) :
    Nat → Nat → Heap α → Heap α × Nat × Bool
  | 0, i, h => (h, i, false)
  | n + 1, i, h =>
    if throwsAt i then (h, i, true)
    else copy_loop throwsAt src dst n (i + 1) (construct_from h dst i src i)

/-- `vector::vector(const vector& other)`, lines 80-99. The result is `none` when the
exception of an element copy leaves the constructor. -/
def copy_ctor (throwsAt : Nat → Bool) (sz : Nat) (h : Heap α) (other : vector) :
    Heap α × Option vector :=
  if other.blockSize = 0 then
    (h, some { totalMemoryInUse := 0, blockSize := 0, elementCount := 0, block := none })
  else
    let a := alloc h other.blockSize
    let r := copy_loop throwsAt other.block a.2 other.elementCount 0 a.1
    if r.2.2 then
      let h := forLoop (fun j h => destroy_at h a.2 j) r.2.1 0 r.1
      (dealloc h a.2, none)
    else
      (r.1, some { totalMemoryInUse := other.blockSize * sz, blockSize := other.blockSize,
                   elementCount := other.elementCount, block := a.2 })

/-- `vector::swap(vector& other)`, lines 30-36, as lines 32-34 spell it out: the exchange
of the members of `*this` and `other`. Line 35 as written, `swap(block, other.block)`,
names the one-parameter member `swap` itself and is ill-formed, so the member function
cannot be instantiated; here the block pointers are exchanged like the other three
members, which is `std::swap(block, other.block)`. No statement about the program as
written rests on this definition: it only lets copy assignments count among the steps of
`Step`. -/
def swap (self other : vector) : vector × vector :=
  ({ totalMemoryInUse := other.totalMemoryInUse, blockSize := other.blockSize,
     elementCount := other.elementCount, block := other.block },
   { totalMemoryInUse := self.totalMemoryInUse, blockSize := self.blockSize,
     elementCount := self.elementCount, block := self.block })

end members

/-- Several containers living in one free store; a container is named by its position
in `objs`. -/
structure World (α : Type) where
  heap : Heap α
  objs : List vector
  deriving DecidableEq, Repr

section world

variable {α : Type}

/-- `vector& vector::operator=(vector&& other)`, lines 65-78, called on object `k` with
object `j` as `other`; `this == &other` is `k = j`. -/
def move_assign (k j : Nat) (w : World α) : World α :=
  match w.objs[k]?, w.objs[j]? with
  | some self, some other =>
    if k = j then w
    else
      let s := clear { heap := w.heap, self := self }
      let self := { s.self with
        totalMemoryInUse := other.totalMemoryInUse, blockSize := other.blockSize,
        elementCount := other.elementCount, block := other.block }
      let other := { other with
        totalMemoryInUse := 0, blockSize := 0, elementCount := 0, block := none }
      { heap := s.heap, objs := (w.objs.set k self).set j other }
  | _, _ => w

/-- `vector& vector::operator=(const vector& other)`, lines 48-54, called on object `k`
with object `j` as `other`, with `swap` exchanging the block pointers too (line 35 as
written is ill-formed and the operator cannot be instantiated). When the copy throws,
the exception leaves the operator before `*this` is touched; otherwise `tmp` is
destroyed (`clear`, line 46) on return. -/
def copy_assign (throwsAt : Nat → Bool) (sz : Nat) (k j : Nat) (w : World α) : World α :=
  match w.objs[k]?, w.objs[j]? with
  | some self, some other =>
    if k = j then w
    else
      let c := copy_ctor throwsAt sz w.heap other
      match c.2 with
      | none => { w with heap := c.1 }
      | some tmp =>
        let r := swap self tmp
        let s := clear { heap := c.1, self := r.2 }
        { heap := s.heap, objs := w.objs.set k r.1 }
  | _, _ => w

/-- The public member functions that act on one container. The argument `x` of an
insertion is an object outside the blocks of the free store that holds `x`;
`emplace_back x` stands for `emplace_back(args...)` with `T(args...)` equal to `x`, and
`write i x` for `container[i] = x`. -/
inductive Op (α : Type) where
  | push_back (x : α)
  | push_back_move (x : α)
  | emplace_back (x : α)
  | pop_back
  | erase (index : Nat)
  | erase_range (start end_ : Nat)
  | reserve (newCapacity : Nat)
  | shrink_to_fit
  | shuffle (rng : Nat → Nat)
  | reverse
  | clear
  | write (i : Nat) (x : α)

/-- The effect of a member function call. -/
def Op.run (sz : Nat) : Op α → State α → State α
  | Op.push_back x => MyVector.push_back sz (Ref.object x)
  | Op.push_back_move x => MyVector.push_back_move sz (Ref.object x)
  | Op.emplace_back x => MyVector.emplace_back sz (fun y : α => y) (Ref.object x)
  | Op.pop_back => MyVector.pop_back
  | Op.erase i => MyVector.erase i
  | Op.erase_range a b => MyVector.erase_range a b
  | Op.reserve n => MyVector.reserve sz n
  | Op.shrink_to_fit => MyVector.shrink_to_fit sz
  | Op.shuffle rng => MyVector.shuffle rng
  | Op.reverse => MyVector.reverse
  | Op.clear => MyVector.clear
  | Op.write i x => MyVector.write i x

/-- The arguments of the call are in range for the container it is made on: an index
below the size for `erase(index)` and for an element write, `start < end <= size` for
`erase(start, end)`. -/
def Op.inRange : Op α → vector → Prop
  | Op.erase i, v => i < v.elementCount
  | Op.erase_range a b, v => a < b ∧ b ≤ v.elementCount
  | Op.write i _, v => i < v.elementCount
  | _, _ => True

/-- One action of a program on its containers: a construction (default, copy, move), a
member function call with in-range arguments on one of them, or an assignment between
two of them. -/
inductive Step (sz : Nat) : World α → World α → Prop where
  | default_ctor (w : World α) :
    Step sz w
      { heap := (MyVector.default_ctor sz w.heap).heap
        objs := w.objs ++ [(MyVector.default_ctor sz w.heap).self] }
  | copy_ctor (w : World α) (throwsAt : Nat → Bool) (j : Nat) (other c : vector) :
    w.objs[j]? = some other →
    (MyVector.copy_ctor throwsAt sz w.heap other).2 = some c →
    Step sz w
      { heap := (MyVector.copy_ctor throwsAt sz w.heap other).1, objs := w.objs ++ [c] }
  | copy_ctor_throws (w : World α) (throwsAt : Nat → Bool) (j : Nat) (other : vector) :
    w.objs[j]? = some other →
    (MyVector.copy_ctor throwsAt sz w.heap other).2 = none →
    Step sz w { heap := (MyVector.copy_ctor throwsAt sz w.heap other).1, objs := w.objs }
  | move_ctor (w : World α) (j : Nat) (other : vector) :
    w.objs[j]? = some other →
    Step sz w
      { heap := w.heap
        objs := w.objs.set j (MyVector.move_ctor other).2 ++ [(MyVector.move_ctor other).1] }
  | call (w : World α) (k : Nat) (self : vector) (o : Op α) :
    w.objs[k]? = some self →
    o.inRange self →
    Step sz w
      { heap := (o.run sz { heap := w.heap, self := self }).heap
        objs := w.objs.set k (o.run sz { heap := w.heap, self := self }).self }
  | copy_assign (w : World α) (throwsAt : Nat → Bool) (k j : Nat) :
    Step sz w (MyVector.copy_assign throwsAt sz k j w)
  | move_assign (w : World α) (k j : Nat) :
    Step sz w (MyVector.move_assign k j w)

/-- The worlds a program can reach from the empty free store with no container. -/
inductive Reachable (sz : Nat) : World α → Prop where
  | init : Reachable sz { heap := Heap.empty, objs := [] }
  | step (w w2 : World α) : Reachable sz w → Step sz w w2 → Reachable sz w2

end world

section representation

variable {α : Type}

/-- The slots of the container's block; no slot for `nullptr`. -/
def contents (s : State α) : Block α := (load s.heap s.self.block).getD []

/-- The element sequence of the container: slots `[0, size)` of its block. -/
def elements (s : State α) : List (Option α) := (contents s).take s.self.elementCount

/-- The block pointer is `nullptr` with capacity 0, or points to an allocated block of
`blockSize` slots. -/
def Owns (s : State α) : Prop :=
  match s.self.block with
  | none => s.self.blockSize = 0
  | some a => (load s.heap (some a)).map List.length = some s.self.blockSize

/-- A container with `size <= capacity`. -/
def Container (s : State α) : Prop := Owns s ∧ s.self.elementCount ≤ s.self.blockSize

/-- The value of `newCap` after lines 22-23 of `grow_if_needed` when `blockSize` is `c`. -/
def grownCapacity (c : Nat) : Nat :=
  if (if c ≠ 0 then c + c / 2 else 1) = c then c + 1 else (if c ≠ 0 then c + c / 2 else 1)

/-- What `new (block + i) T(std::move(block[j]))` does to the slots of `block`. -/
def blockFrom (b : Block α) (i j : Nat) : Block α :=
  match (b[j]?).join with
  | some x => b.set i (some x)
  | none => b

/-- What `std::swap(block[i], block[j])` does to the slots of `block`. -/
def blockSwap (b : Block α) (i j : Nat) : Block α :=
  match (b[i]?).join, (b[j]?).join with
  | some x, some y => (b.set i (some y)).set j (some x)
  | _, _ => b

/-- What the loop of `reverse` (lines 239-243) does to the slots of `block`. -/
def blockReverse : Nat → Nat → Nat → Block α → Block α
  | 0, _, _, b => b
  | fuel + 1, left, right, b =>
    if left < right then blockReverse fuel (left + 1) (right - 1) (blockSwap b left right)
    else b

/-- What the loop of `shuffle` (lines 228-233) does to the slots of `block` from index `i`
down to index 1. -/
def blockShuffle (rng : Nat → Nat) : Nat → Block α → Block α
  | 0, b => b
  | i + 1, b => blockShuffle rng i (blockSwap b (i + 1) (rng (i + 1) % (i + 1 + 1)))

/-- What `block[i] = x` does to the slots of `block`. -/
def blockAssign (b : Block α) (i : Nat) (x : α) : Block α :=
  match (b[i]?).join with
  | some _ => b.set i (some x)
  | none => b

/-- `r` is `s` with `x` appended: one element more, the elements of `s` at their indices,
and `x` at index `size s`, read through `at` and through `operator[]`. -/
def Appends (s r : State α) (x : α) : Prop :=
  size r = size s + 1 ∧
  (∀ i, i < size s → at_ r i = at_ s i ∧ index r i = index s i) ∧
  at_ r (size s) = some x ∧ index r (size s) = some x

/-- The capacity the growth policy prescribes for an insertion into a container of
capacity `c` holding `n` elements. -/
def policyCapacity (n c : Nat) : Nat :=
  if n < c then c else if c = 0 then 1 else if c = 1 then 2 else c + c / 2

/-- A sequence of member function calls on one container, first call first. -/
def runOps (sz : Nat) : List (Op α) → State α → State α
  | [], s => s
  | o :: os, s => runOps sz os (o.run sz s)

/-- Each call of the sequence has in-range arguments when it is made. -/
def opsInRange (sz : Nat) : List (Op α) → State α → Prop
  | [], _ => True
  | o :: os, s => o.inRange s.self ∧ opsInRange sz os (o.run sz s)

/-- The block pointer of the container is `nullptr` or an address the free store has
handed out. -/
def Below (s : State α) : Prop := ∀ a, s.self.block = some a → a < s.heap.cells.length

/-- From `h` to `h2` no block was allocated and no block other than the one of `p` was
changed. -/
def Within (p : Ptr) (h h2 : Heap α) : Prop :=
  h2.cells.length = h.cells.length ∧ ∀ r, r ≠ p → load h2 r = load h r

/-- From `s` to `s2` every block that was allocated to another owner is unchanged, and
the block pointer is the old one, `nullptr`, or a newly allocated address. -/
def Frame (s s2 : State α) : Prop :=
  s.heap.cells.length ≤ s2.heap.cells.length ∧
  (∀ a, a < s.heap.cells.length → some a ≠ s.self.block →
    load s2.heap (some a) = load s.heap (some a)) ∧
  (∀ a, s2.self.block = some a → s.self.block = some a ∨ s.heap.cells.length ≤ a)

/-- Slots `[0, size)` of the block are constructed and slots `[size, capacity)` are raw. -/
def SlotInv (s : State α) : Prop :=
  ∀ i, i < s.self.blockSize →
    (isRaw s.heap s.self.block i = true ↔ s.self.elementCount ≤ i) ∧
    ((slot s.heap s.self.block i).isSome = true ↔ i < s.self.elementCount)

end representation

section demo

/-- The element type `data` of `main`, lines 282-289. -/
structure data where
  var1 : Nat
  var2 : String
  var3 : Int
  var4 : Int
  var5 : Int
  deriving DecidableEq, Repr

/-- The container of `main` after the loop of line 300 has run `n` times. -/
def filled (sz : Nat) (n : Nat) : State data :=
  forLoop (fun i s =>
      emplace_back sz (fun a : Nat => data.mk a "hello" 420 69 666) (Ref.object i) s)
    n 0 (default_ctor sz Heap.empty)

/-- A container of numbers: default construction, then `push_back` of each element of
`xs` in order. -/
def sample (sz : Nat) (xs : List Nat) : State Nat :=
  xs.foldl (fun s x => push_back sz (Ref.object x) s) (default_ctor sz Heap.empty)

/-- The loop of line 303: `pop_back()` called `n` times. -/
def popped (n : Nat) (s : State data) : State data :=
  forLoop (fun _ s => pop_back s) n 0 s

/-- The world that holds the one container `s`. -/
def world_of (s : State Nat) : World Nat := { heap := s.heap, objs := [s.self] }

/-- A program run: a container is default-constructed, `7` and `9` are pushed, and the
element at index 0 is erased. -/
def demo_world (sz : Nat) : World Nat :=
  world_of (erase 0 (push_back sz (Ref.object 9)
    (push_back sz (Ref.object 7) (default_ctor sz Heap.empty))))

/-- A program run: a container is default-constructed and `clear()` is called on it. -/
def cleared_world (sz : Nat) : World Nat :=
  world_of (clear (default_ctor sz Heap.empty))

end demo

section later_definitions

variable {α : Type}

/-- Slots `[0, size)` of the block hold constructed elements. -/
def Constructed (s : State α) : Prop :=
  ∀ i, i < s.self.elementCount → (slot s.heap s.self.block i).isSome = true

/-- Container `a` has no block, or a block other than the one of `b`. -/
def Separate (a b : vector) : Prop := a.block = none ∨ a.block ≠ b.block

/-- Container `b` in free store `h2` has the size, capacity, `total_memory()` and elements
that container `a` has in free store `h`. -/
def SameAs (h2 : Heap α) (b : vector) (h : Heap α) (a : vector) : Prop :=
  size { heap := h2, self := b } = size { heap := h, self := a } ∧
  b.blockSize = a.blockSize ∧
  total_memory { heap := h2, self := b } = total_memory { heap := h, self := a } ∧
  elements { heap := h2, self := b } = elements { heap := h, self := a }

/-- The moved-from state: size 0, capacity 0, no storage, `total_memory()` 0. -/
def Emptied (v : vector) : Prop :=
  v.elementCount = 0 ∧ v.blockSize = 0 ∧ v.block = none ∧ v.totalMemoryInUse = 0

/-- The number of reallocations (calls that change the capacity) among `n` consecutive
`push_back` calls on `s`, which push `x i`, `x (i + 1)`, ... -/
def reallocations (sz : Nat) (x : Nat → α) : Nat → Nat → State α → Nat
  | 0, _, _ => 0
  | n + 1, i, s =>
    (if (push_back sz (Ref.object (x i)) s).self.blockSize ≠ s.self.blockSize then 1 else 0) +
      reallocations sz x n (i + 1) (push_back sz (Ref.object (x i)) s)

/-- What `r` reallocations say about a container of `n` elements and capacity `c` that
grew from the default capacity 4: the capacity grew by at least the factor 3/2 each
time, and right after a reallocation it is at most 3/2 of the size. -/
def GrowthInv (r n c : Nat) : Prop :=
  4 ≤ c ∧ n ≤ c ∧ 3 ^ (r + 1) ≤ 2 ^ r * (c - 1) ∧ (r = 0 ∨ 2 * c ≤ 3 * n)

/-- The events of a copy construction from block `src` into the new block `dst` in which
the copy of element `i` throws: elements `0, ..., i - 1` are read and constructed in
order, then each of them is destructed, then the new block is released. Every event is
valid. -/
def copyFailureEvents (src dst : Ptr) (i : Nat) : List Event :=
  (List.range i).flatMap (fun k =>
      [Event.access src k true, Event.construct dst k true]) ++
    (List.range i).map (fun k => Event.destroy dst k true) ++
    [Event.release dst true]

/-- Two containers in one free store: object 0 holds `[9]`, object 1 holds `[1, 2, 3]`. -/
def pair_world (sz : Nat) : World Nat :=
  { heap := (push_back sz (Ref.object 9) (default_ctor sz (sample sz [1, 2, 3]).heap)).heap
    objs := [(push_back sz (Ref.object 9) (default_ctor sz (sample sz [1, 2, 3]).heap)).self,
             (sample sz [1, 2, 3]).self] }

/-- The value of `newCap` after lines 22-23 of `grow_if_needed` in 64-bit `size_t`
arithmetic, when `blockSize` is `c`. -/
def grownCapacity64 (c : Nat) : Nat :=
  if (if c ≠ 0 then (c + c / 2) % 2 ^ 64 else 1) = c then (c + 1) % 2 ^ 64
  else (if c ≠ 0 then (c + c / 2) % 2 ^ 64 else 1)

/-- `vector::reserve(size_t newCapacity)`, lines 137-151, with the products
`newCapacity * sizeof(T)` of lines 141 and 150 taken in 64-bit `size_t` arithmetic: the
block that `::operator new` returns has room for
`(newCapacity * sizeof(T) mod 2^64) / sizeof(T)` elements. -/
def reserve64 (sz : Nat) (newCapacity : Nat) (s : State α) : State α :=
  if newCapacity ≤ s.self.blockSize then s
  else
    let newCapacity :=
      if newCapacity < s.self.elementCount then s.self.elementCount else newCapacity
    let a := alloc s.heap (newCapacity * sz % 2 ^ 64 / sz)
    let h := relocate s.self.block a.2 s.self.elementCount a.1
    let h := dealloc h s.self.block
    { heap := h
      self := { s.self with
        block := a.2, blockSize := newCapacity,
        totalMemoryInUse := newCapacity * sz % 2 ^ 64 } }

/-- The container has capacity `c` in its storage: the member `blockSize` is `c`, and the
block pointer is `nullptr` with `c = 0` or points to an allocated block of `c` slots. -/
def HasCapacity (s : State α) (c : Nat) : Prop :=
  Owns s ∧ s.self.blockSize = c ∧ (contents s).length = c

/-- The block that container `v` pointed to is not allocated in free store `h`. -/
def Released (h : Heap α) (v : vector) : Prop :=
  ∀ a, v.block = some a → load h (some a) = none

/-- The block of container `c` is a block that was not allocated in free store `h`. -/
def FreshBlock (h : Heap α) (c : vector) : Prop :=
  ∀ a, c.block = some a → load h (some a) = none ∧ h.cells.length ≤ a

end later_definitions

section shuffle_definitions

variable {α : Type}

/-- The first `m` slots of the block exist, are constructed, and hold pairwise distinct
elements. -/
def ShuffleReady (m : Nat) (b : Block α) : Prop :=
  m ≤ b.length ∧ (∀ k, k < m → ((b[k]?).join).isSome = true) ∧ (b.take m).Nodup

/-- The draws as `shuffle` receives them: `d i` is the draw for index `i`, a value in
`[0, i]`. -/
def drawsOf (n : Nat) (d : (i : Fin n) → Fin (i.val + 1)) : Nat → Nat :=
  fun i => if h : i < n then (d ⟨i, h⟩).val else 0

end shuffle_definitions

section ownership_definitions

variable {α : Type}

/-- Every container of the world points to no block or to an address the free store has
handed out, and no two containers point to the same block. -/
def Exclusive (w : World α) : Prop :=
  (∀ (k : Nat) (v : vector) (a : Nat),
    w.objs[k]? = some v → v.block = some a → a < w.heap.cells.length) ∧
  (∀ (k j : Nat) (vk vj : vector) (a : Nat), k ≠ j →
    w.objs[k]? = some vk → w.objs[j]? = some vj → vk.block = some a → vj.block ≠ some a)

end ownership_definitions

/-! ## The free store seen through `load` -/

section heap_lemmas

variable {α : Type}

@[simp] theorem load_none (h : Heap α) : load h none = none := rfl

@[simp] theorem load_record (h : Heap α) (e : Event) (r : Ptr) :
    load (record h e) r = load h r := by
  cases r <;> rfl

@[simp] theorem cells_record (h : Heap α) (e : Event) : (record h e).cells = h.cells := rfl

theorem load_lt (h : Heap α) (a : Nat) (b : Block α) (hb : load h (some a) = some b) :
    a < h.cells.length := by
  by_contra hlt
  have : h.cells[a]? = none := List.getElem?_eq_none (by omega)
  simp [load, this] at hb

theorem load_modify (h : Heap α) (p r : Ptr) (f : Block α → Block α) :
    load (modify h p f) r = if r = p then (load h p).map f else load h r := by
  cases p with
  | none => cases r <;> simp [modify]
  | some a =>
    cases hc : h.cells[a]? with
    | none =>
      cases r with
      | none => simp [modify, hc]
      | some c =>
        by_cases hca : c = a
        · subst hca; simp [modify, hc, load]
        · simp [modify, hc, hca]
    | some ob =>
      cases ob with
      | none =>
        cases r with
        | none => simp [modify, hc]
        | some c =>
          by_cases hca : c = a
          · subst hca; simp [modify, hc, load]
          · simp [modify, hc, hca]
      | some b =>
        have hlt : a < h.cells.length := by
          by_contra hlt
          have : h.cells[a]? = none := List.getElem?_eq_none (by omega)
          simp [this] at hc
        cases r with
        | none => simp [modify, hc]
        | some c =>
          by_cases hca : c = a
          · subst hca; simp [modify, hc, load, List.getElem?_set, hlt]
          · have hac : ¬ a = c := fun e => hca e.symm
            simp [modify, hc, load, List.getElem?_set, hca, hac]

@[simp] theorem cells_length_modify (h : Heap α) (p : Ptr) (f : Block α → Block α) :
    (modify h p f).cells.length = h.cells.length := by
  cases p with
  | none => rfl
  | some a =>
    simp only [modify]
    split <;> simp

@[simp] theorem alloc_snd (h : Heap α) (n : Nat) : (alloc h n).2 = some h.cells.length := rfl

@[simp] theorem cells_length_alloc (h : Heap α) (n : Nat) :
    (alloc h n).1.cells.length = h.cells.length + 1 := by
  simp [alloc]

theorem load_alloc (h : Heap α) (n : Nat) (r : Ptr) :
    load (alloc h n).1 r =
      if r = some h.cells.length then some (List.replicate n none) else load h r := by
  cases r with
  | none => simp
  | some c =>
    by_cases hc : c = h.cells.length
    · subst hc; simp [alloc, load]
    · simp only [alloc, load, Option.some.injEq, hc, if_false]
      by_cases hlt : c < h.cells.length
      · rw [List.getElem?_append_left hlt]
      · rw [List.getElem?_eq_none (l := h.cells) (by omega),
          List.getElem?_eq_none (by simp; omega)]

@[simp] theorem cells_length_dealloc (h : Heap α) (p : Ptr) :
    (dealloc h p).cells.length = h.cells.length := by
  cases p <;> simp [dealloc]

theorem load_dealloc (h : Heap α) (p r : Ptr) :
    load (dealloc h p) r = if r = p then none else load h r := by
  cases p with
  | none => cases r <;> simp [dealloc]
  | some a =>
    cases r with
    | none => simp [dealloc]
    | some c =>
      by_cases hca : c = a
      · subst hca
        simp only [dealloc, load_record, if_true]
        simp only [load, List.getElem?_set]
        split_ifs <;> simp
      · have hac : ¬ a = c := fun e => hca e.symm
        simp [dealloc, load, List.getElem?_set, hca, hac]

theorem slot_of_load (h : Heap α) (p : Ptr) (i : Nat) (b : Block α)
    (hb : load h p = some b) : slot h p i = (b[i]?).join := by
  simp [slot, hb]

theorem slot_of_load_none (h : Heap α) (p : Ptr) (i : Nat)
    (hb : load h p = none) : slot h p i = none := by
  simp [slot, hb]

theorem slot_congr (h h2 : Heap α) (p q : Ptr) (i : Nat) (hl : load h p = load h2 q) :
    slot h p i = slot h2 q i := by
  simp [slot, hl]

@[simp] theorem cells_length_construct_at (h : Heap α) (p : Ptr) (i : Nat) (x : α) :
    (construct_at h p i x).cells.length = h.cells.length := by
  simp [construct_at]

@[simp] theorem cells_length_destroy_at (h : Heap α) (p : Ptr) (i : Nat) :
    (destroy_at h p i).cells.length = h.cells.length := by
  simp [destroy_at]

@[simp] theorem cells_length_construct_from (h : Heap α) (q : Ptr) (i : Nat) (p : Ptr)
    (j : Nat) : (construct_from h q i p j).cells.length = h.cells.length := by
  unfold construct_from
  split <;> simp

@[simp] theorem cells_length_swap_slots (h : Heap α) (p : Ptr) (i j : Nat) :
    (swap_slots h p i j).cells.length = h.cells.length := by
  unfold swap_slots
  split <;> simp

@[simp] theorem cells_length_assign_at (h : Heap α) (p : Ptr) (i : Nat) (x : α) :
    (assign_at h p i x).cells.length = h.cells.length := by
  unfold assign_at
  split <;> simp

theorem load_construct_at (h : Heap α) (p r : Ptr) (i : Nat) (x : α) :
    load (construct_at h p i x) r =
      if r = p then (load h p).map (fun b => b.set i (some x)) else load h r := by
  simp [construct_at, load_modify]

theorem load_destroy_at (h : Heap α) (p r : Ptr) (i : Nat) :
    load (destroy_at h p i) r =
      if r = p then (load h p).map (fun b => b.set i none) else load h r := by
  simp [destroy_at, load_modify]

theorem load_construct_from (h : Heap α) (q p r : Ptr) (i j : Nat) :
    load (construct_from h q i p j) r =
      if r = q then
        (load h q).map (fun bd =>
          match slot h p j with
          | some x => bd.set i (some x)
          | none => bd)
      else load h r := by
  unfold construct_from
  cases hs : slot h p j with
  | none =>
    simp only [load_record]
    split_ifs with hr
    · subst hr; cases load h r <;> rfl
    · rfl
  | some x => simp [load_construct_at]

@[simp] theorem cells_length_construct_ref {β : Type} (h : Heap α) (p : Ptr) (i : Nat)
    (mk : β → α) (d : Ref α β) : (construct_ref h p i mk d).cells.length = h.cells.length := by
  cases d with
  | object x => simp [construct_ref]
  | element src j view =>
    simp only [construct_ref]
    split <;> simp

/-- A construction from a reference changes the block it constructs in and no other. -/
theorem load_construct_ref {β : Type} (h : Heap α) (p r : Ptr) (i : Nat) (mk : β → α)
    (d : Ref α β) (hr : r ≠ p) : load (construct_ref h p i mk d) r = load h r := by
  cases d with
  | object x => simp [construct_ref, load_construct_at, hr]
  | element src j view =>
    simp only [construct_ref]
    split <;> simp [load_construct_at, hr]

/-- A construction from a reference keeps every block allocated, with its number of
slots. -/
theorem length_load_construct_ref {β : Type} (h : Heap α) (p r : Ptr) (i : Nat)
    (mk : β → α) (d : Ref α β) :
    (load (construct_ref h p i mk d) r).map List.length = (load h r).map List.length := by
  by_cases hr : r = p
  · subst hr
    cases d with
    | object x =>
      simp only [construct_ref, load_construct_at, if_true]
      cases load h r <;> simp
    | element src j view =>
      simp only [construct_ref]
      split
      · simp only [load_construct_at, if_true, load_record]
        cases load h r <;> simp
      · simp
  · rw [load_construct_ref h p r i mk d hr]

theorem load_construct_from_self (h : Heap α) (p r : Ptr) (i j : Nat) :
    load (construct_from h p i p j) r =
      if r = p then (load h p).map (fun b => blockFrom b i j) else load h r := by
  rw [load_construct_from]
  by_cases hr : r = p
  · subst hr
    cases hb : load h r with
    | none => simp
    | some b => simp [slot_of_load h r j b hb, blockFrom]
  · simp [hr]

theorem load_swap_slots (h : Heap α) (p r : Ptr) (i j : Nat) :
    load (swap_slots h p i j) r =
      if r = p then (load h p).map (fun b => blockSwap b i j) else load h r := by
  by_cases hr : r = p
  · subst hr
    cases hb : load h r with
    | none => simp [swap_slots, slot, hb]
    | some b =>
      simp only [swap_slots, slot_of_load h r _ b hb, blockSwap, if_true, Option.map_some']
      split <;> simp_all [load_modify]
  · unfold swap_slots
    split <;> simp [load_modify, hr]

theorem load_assign_at (h : Heap α) (p r : Ptr) (i : Nat) (x : α) :
    load (assign_at h p i x) r =
      if r = p then (load h p).map (fun b => blockAssign b i x) else load h r := by
  by_cases hr : r = p
  · subst hr
    cases hb : load h r with
    | none => simp [assign_at, slot, hb]
    | some b =>
      simp only [assign_at, slot_of_load h r _ b hb, blockAssign, if_true, Option.map_some']
      split <;> simp_all [load_modify]
  · unfold assign_at
    split <;> simp [load_modify, hr]

/-- A loop whose body only rewrites the block of `p` rewrites that block by the loop of
the block-level bodies, and leaves every other block alone. -/
theorem load_forLoop_block (p : Ptr) (body : Nat → Heap α → Heap α)
    (g : Nat → Block α → Block α)
    (hbody : ∀ i h r, load (body i h) r = if r = p then (load h p).map (g i) else load h r) :
    ∀ n i h r, load (forLoop body n i h) r =
      if r = p then (load h p).map (forLoop g n i) else load h r := by
  intro n
  induction n with
  | zero =>
    intro i h r
    by_cases hr : r = p
    · subst hr; cases hl : load h r <;> simp [forLoop, hl]
    · simp [forLoop, hr]
  | succ n ih =>
    intro i h r
    simp only [forLoop]
    rw [ih]
    by_cases hr : r = p
    · subst hr
      simp only [if_true]
      rw [hbody]
      cases load h r <;> simp [forLoop]
    · simp only [hr, if_false]
      rw [hbody]
      simp [hr]

theorem cells_length_forLoop (body : Nat → Heap α → Heap α)
    (hbody : ∀ i h, (body i h).cells.length = h.cells.length) :
    ∀ n i h, (forLoop body n i h).cells.length = h.cells.length := by
  intro n
  induction n with
  | zero => intro i h; rfl
  | succ n ih => intro i h; simp only [forLoop]; rw [ih, hbody]

theorem forLoop_congr {σ : Type} (f g : Nat → σ → σ) :
    ∀ n i s, (∀ k s, i ≤ k → k < i + n → f k s = g k s) →
      forLoop f n i s = forLoop g n i s := by
  intro n
  induction n with
  | zero => intro i s _; rfl
  | succ n ih =>
    intro i s hfg
    simp only [forLoop]
    rw [hfg i s (le_refl _) (by omega)]
    exact ih (i + 1) (g i s) (fun k s hk hk2 => hfg k s (by omega) (by omega))

end heap_lemmas

/-! ## Loops on the slots of one block -/

section block_lemmas

variable {α : Type}

theorem length_forLoop {σ : Type} (len : σ → Nat) (g : Nat → σ → σ)
    (hg : ∀ i b, len (g i b) = len b) :
    ∀ n i b, len (forLoop g n i b) = len b := by
  intro n
  induction n with
  | zero => intro i b; rfl
  | succ n ih => intro i b; simp only [forLoop]; rw [ih, hg]

@[simp] theorem length_blockFrom (b : Block α) (i j : Nat) :
    (blockFrom b i j).length = b.length := by
  unfold blockFrom
  split <;> simp

@[simp] theorem length_blockSwap (b : Block α) (i j : Nat) :
    (blockSwap b i j).length = b.length := by
  unfold blockSwap
  split <;> simp

@[simp] theorem length_blockAssign (b : Block α) (i : Nat) (x : α) :
    (blockAssign b i x).length = b.length := by
  unfold blockAssign
  split <;> simp

/-- Destructing the slots `i, ..., i + n - 1` in index order. -/
theorem getElem?_forLoop_clear :
    ∀ (n i : Nat) (b : Block α) (k : Nat),
      (forLoop (fun k b => b.set k none) n i b)[k]? =
        if i ≤ k ∧ k < i + n ∧ k < b.length then some none else b[k]? := by
  intro n
  induction n with
  | zero =>
    intro i b k
    have h0 : ¬ (i ≤ k ∧ k < i + 0 ∧ k < b.length) := by omega
    simp only [forLoop]
    rw [if_neg h0]
  | succ n ih =>
    intro i b k
    simp only [forLoop]
    rw [ih]
    simp only [List.length_set, List.getElem?_set]
    by_cases h1 : i = k
    · subst h1
      by_cases h2 : i < b.length
      · simp [h2]
      · simp [h2]
        omega
    · by_cases h3 : i + 1 ≤ k ∧ k < i + 1 + n ∧ k < b.length
      · have h4 : i ≤ k ∧ k < i + (n + 1) ∧ k < b.length := by omega
        simp [h3, h4]
      · have h4 : ¬ (i ≤ k ∧ k < i + (n + 1) ∧ k < b.length) := by omega
        simp [h3, h4, h1]

/-- Constructing the slots `i, ..., i + n - 1` from the values `f k`, where there is one. -/
theorem getElem?_forLoop_fill (f : Nat → Option α) :
    ∀ (n i : Nat) (b : Block α) (k : Nat),
      (forLoop (fun k b =>
          match f k with
          | some x => b.set k (some x)
          | none => b) n i b)[k]? =
        if i ≤ k ∧ k < i + n ∧ k < b.length ∧ (f k).isSome = true then some (f k)
        else b[k]? := by
  intro n
  induction n with
  | zero =>
    intro i b k
    have h0 : ¬ (i ≤ k ∧ k < i + 0 ∧ k < b.length ∧ (f k).isSome = true) := by omega
    simp only [forLoop]
    rw [if_neg h0]
  | succ n ih =>
    intro i b k
    simp only [forLoop]
    rw [ih]
    have hlen : (match f i with
        | some x => b.set i (some x)
        | none => b).length = b.length := by
      split <;> simp
    rw [hlen]
    by_cases h1 : i = k
    · subst h1
      have h5 : ¬ (i + 1 ≤ i ∧ i < i + 1 + n ∧ i < b.length ∧ (f i).isSome = true) := by omega
      rw [if_neg h5]
      cases hf : f i with
      | none => simp
      | some x =>
        by_cases h2 : i < b.length
        · simp [h2, List.getElem?_set]
        · have h6 : b.length ≤ i := by omega
          simp [h2, List.getElem?_set, List.getElem?_eq_none h6]
    · have hset : (match f i with
          | some x => b.set i (some x)
          | none => b)[k]? = b[k]? := by
        split
        · simp [List.getElem?_set, h1]
        · rfl
      rw [hset]
      by_cases h3 : i + 1 ≤ k ∧ k < i + 1 + n ∧ k < b.length ∧ (f k).isSome = true
      · have h4 : i ≤ k ∧ k < i + (n + 1) ∧ k < b.length ∧ (f k).isSome = true :=
          ⟨by omega, by omega, h3.2.2.1, h3.2.2.2⟩
        rw [if_pos h3, if_pos h4]
      · have h4 : ¬ (i ≤ k ∧ k < i + (n + 1) ∧ k < b.length ∧ (f k).isSome = true) := by
          intro h
          exact h3 ⟨by omega, by omega, h.2.2.1, h.2.2.2⟩
        rw [if_neg h3, if_neg h4]

end block_lemmas

/-! ## Relocation into a new block (`reserve`, `shrink_to_fit`) -/

section relocate_lemmas

variable {α : Type}

theorem load_relocate_step (p q : Ptr) (hpq : p ≠ q) (i : Nat) (h : Heap α) (r : Ptr) :
    load (destroy_at (construct_from h q i p i) p i) r =
      if r = p then (load h p).map (fun b => b.set i none)
      else if r = q then
        (load h q).map (fun bd =>
          match slot h p i with
          | some x => bd.set i (some x)
          | none => bd)
      else load h r := by
  rw [load_destroy_at]
  by_cases hr : r = p
  · subst hr
    simp only [if_true]
    rw [load_construct_from, if_neg hpq]
  · simp only [hr, if_false]
    rw [load_construct_from]

theorem load_relocate_loop (p q : Ptr) (hpq : p ≠ q) :
    ∀ (n i : Nat) (h : Heap α) (r : Ptr),
      load (forLoop (fun i h => destroy_at (construct_from h q i p i) p i) n i h) r =
        if r = p then (load h p).map (forLoop (fun k b => b.set k none) n i)
        else if r = q then
          (load h q).map (forLoop (fun k bd =>
            match slot h p k with
            | some x => bd.set k (some x)
            | none => bd) n i)
        else load h r := by
  intro n
  induction n with
  | zero =>
    intro i h r
    simp only [forLoop]
    split_ifs with h1 h2
    · subst h1; cases load h r <;> rfl
    · subst h2; cases load h r <;> rfl
    · rfl
  | succ n ih =>
    intro i h r
    simp only [forLoop]
    rw [ih]
    by_cases hr : r = p
    · subst hr
      simp only [if_true]
      rw [load_relocate_step r q hpq, if_pos rfl]
      cases load h r <;> simp
    · simp only [hr, if_false]
      by_cases hq : r = q
      · subst hq
        simp only [if_true]
        rw [load_relocate_step p r hpq, if_neg hr, if_pos rfl]
        have hcongr : forLoop (fun k (bd : Block α) =>
              match slot (destroy_at (construct_from h r i p i) p i) p k with
              | some x => bd.set k (some x)
              | none => bd) n (i + 1) =
            forLoop (fun k (bd : Block α) =>
              match slot h p k with
              | some x => bd.set k (some x)
              | none => bd) n (i + 1) := by
          funext bd
          apply forLoop_congr
          intro k s hk _
          have hs : slot (destroy_at (construct_from h r i p i) p i) p k = slot h p k := by
            unfold slot
            rw [load_relocate_step p r hpq, if_pos rfl]
            cases load h p with
            | none => rfl
            | some b =>
              have hik : ¬ i = k := by omega
              simp [List.getElem?_set, hik]
          rw [hs]
        rw [hcongr]
        cases load h r <;> simp
      · simp only [hq, if_false]
        rw [load_relocate_step p q hpq, if_neg hr, if_neg hq]

theorem cells_length_relocate (p q : Ptr) (n : Nat) (h : Heap α) :
    (relocate p q n h).cells.length = h.cells.length := by
  unfold relocate
  exact cells_length_forLoop _ (fun i h => by simp) n 0 h

/-- The new block after relocating `n` elements into `m` raw slots: slot `k` holds what
slot `k` of the old block held, slots from `n` on are raw. -/
theorem relocate_fresh (p : Ptr) (h : Heap α) (n m : Nat)
    (hp : p ≠ some h.cells.length) :
    ∃ b, load (relocate p (alloc h m).2 n (alloc h m).1) (some h.cells.length) = some b ∧
      b.length = m ∧
      (∀ k, k < n → k < m → b[k]? = some (slot h p k)) ∧
      (∀ k, n ≤ k → k < m → b[k]? = some none) := by
  have hslot : ∀ k, slot (alloc h m).1 p k = slot h p k := by
    intro k
    apply slot_congr
    rw [load_alloc, if_neg hp]
  refine ⟨forLoop (fun k bd =>
      match slot (alloc h m).1 p k with
      | some x => bd.set k (some x)
      | none => bd) n 0 (List.replicate m none), ?_, ?_, ?_, ?_⟩
  · unfold relocate
    rw [load_relocate_loop p (alloc h m).2 (by simpa using hp)]
    rw [if_neg (fun e => hp e.symm)]
    simp [load_alloc]
  · rw [length_forLoop List.length]
    · simp
    · intro i b; split <;> simp
  · intro k hkn hkm
    rw [getElem?_forLoop_fill (fun k => slot (alloc h m).1 p k)]
    simp only [List.length_replicate, hslot]
    by_cases hs : (slot h p k).isSome = true
    · rw [if_pos ⟨by omega, by omega, hkm, hs⟩]
    · rw [if_neg (fun hh => hs hh.2.2.2)]
      simp only [Bool.not_eq_true, Option.not_isSome, Option.isNone_iff_eq_none] at hs
      simp [hs, List.getElem?_replicate, hkm]
  · intro k hkn hkm
    rw [getElem?_forLoop_fill (fun k => slot (alloc h m).1 p k)]
    rw [if_neg (by omega)]
    simp [List.getElem?_replicate, hkm]

end relocate_lemmas

/-! ## `reserve`, `grow_if_needed` and the insertions -/

section insertion_lemmas

variable {α : Type}

theorem owns_ne_fresh (s : State α) (ho : Owns s) :
    s.self.block ≠ some s.heap.cells.length := by
  intro e
  unfold Owns at ho
  rw [e] at ho
  simp only at ho
  cases hl : load s.heap (some s.heap.cells.length) with
  | none => simp [hl] at ho
  | some b => exact absurd (load_lt _ _ _ hl) (lt_irrefl _)

theorem owns_load_eq (s : State α) (ho : Owns s) (hpos : 0 < s.self.blockSize) :
    ∃ b, load s.heap s.self.block = some b ∧ b.length = s.self.blockSize := by
  unfold Owns at ho
  cases hp : s.self.block with
  | none => rw [hp] at ho; simp only at ho; omega
  | some a =>
    rw [hp] at ho
    simp only at ho
    cases hl : load s.heap (some a) with
    | none => simp [hl] at ho
    | some b => exact ⟨b, rfl, by simpa [hl] using ho⟩

theorem owns_length_contents (s : State α) (ho : Owns s) :
    (contents s).length = s.self.blockSize := by
  unfold Owns at ho
  unfold contents
  cases hp : s.self.block with
  | none => rw [hp] at ho; simp only at ho; simp [ho]
  | some a =>
    rw [hp] at ho
    simp only at ho
    cases hl : load s.heap (some a) with
    | none => simp [hl] at ho
    | some b => simpa [hl] using ho

theorem slot_eq_contents (s : State α) (i : Nat) :
    slot s.heap s.self.block i = ((contents s)[i]?).join := by
  unfold contents slot
  cases load s.heap s.self.block <;> simp

/-- What `reserve(n)` does when it reallocates. -/
theorem reserve_grows (sz n : Nat) (s : State α) (hc : Container s)
    (hn : s.self.blockSize < n) :
    (reserve sz n s).self.blockSize = n ∧
    (reserve sz n s).self.elementCount = s.self.elementCount ∧
    (reserve sz n s).self.totalMemoryInUse = n * sz ∧
    (reserve sz n s).self.block = some s.heap.cells.length ∧
    (reserve sz n s).heap.cells.length = s.heap.cells.length + 1 ∧
    (∀ r, r ≠ s.self.block → r ≠ some s.heap.cells.length →
      load (reserve sz n s).heap r = load s.heap r) ∧
    ∃ b, load (reserve sz n s).heap (some s.heap.cells.length) = some b ∧
      b.length = n ∧
      (∀ k, k < s.self.elementCount → b[k]? = (contents s)[k]?) ∧
      (∀ k, s.self.elementCount ≤ k → k < n → b[k]? = some none) := by
  obtain ⟨ho, hle⟩ := hc
  have hfresh := owns_ne_fresh s ho
  have h1 : ¬ n ≤ s.self.blockSize := by omega
  have h2 : ¬ n < s.self.elementCount := by omega
  obtain ⟨b, hb, hlen, hlow, hhigh⟩ :=
    relocate_fresh s.self.block s.heap s.self.elementCount n hfresh
  simp only [reserve, if_neg h1, if_neg h2, alloc_snd, cells_length_dealloc,
    cells_length_relocate, cells_length_alloc, true_and]
  refine ⟨?_, ?_⟩
  · intro r hr1 hr2
    rw [load_dealloc, if_neg hr1]
    unfold relocate
    rw [load_relocate_loop s.self.block (some s.heap.cells.length) hfresh,
      if_neg hr1, if_neg hr2, load_alloc, if_neg hr2]
  · refine ⟨b, ?_, hlen, ?_, hhigh⟩
    · rw [load_dealloc, if_neg (fun e => hfresh e.symm)]
      simpa using hb
    · intro k hk
      rw [hlow k hk (by omega), slot_eq_contents]
      have hlt : k < (contents s).length := by
        rw [owns_length_contents s ho]; omega
      rw [List.getElem?_eq_getElem hlt]
      rfl

theorem reserve_noop (sz n : Nat) (s : State α) (hn : n ≤ s.self.blockSize) :
    reserve sz n s = s := by
  simp [reserve, hn]

theorem owns_of_load (s : State α) (b : Block α) (a : Nat) (hp : s.self.block = some a)
    (hb : load s.heap (some a) = some b) (hlen : b.length = s.self.blockSize) : Owns s := by
  unfold Owns
  rw [hp]
  simp [hb, hlen]

theorem contents_of_load (s : State α) (b : Block α)
    (hb : load s.heap s.self.block = some b) : contents s = b := by
  simp [contents, hb]

/-- The new capacity `grow_if_needed` asks `reserve` for. -/
theorem grownCapacity_gt (c : Nat) : c < grownCapacity c := by
  unfold grownCapacity
  split_ifs <;> omega

theorem grow_if_needed_full (sz : Nat) (s : State α)
    (hfull : s.self.elementCount ≥ s.self.blockSize) :
    grow_if_needed sz s = reserve sz (grownCapacity s.self.blockSize) s := by
  simp only [grow_if_needed, if_pos hfull, grownCapacity]

theorem grow_if_needed_room (sz : Nat) (s : State α)
    (hroom : s.self.elementCount < s.self.blockSize) :
    grow_if_needed sz s = s := by
  have h : ¬ s.self.elementCount ≥ s.self.blockSize := by omega
  simp only [grow_if_needed, if_neg h]

/-- After `grow_if_needed` there is room for one more element, and the elements are the
same. -/
theorem grow_if_needed_spec (sz : Nat) (s : State α) (hc : Container s) :
    Owns (grow_if_needed sz s) ∧
    (grow_if_needed sz s).self.elementCount = s.self.elementCount ∧
    s.self.elementCount < (grow_if_needed sz s).self.blockSize ∧
    (∀ k, k < s.self.elementCount →
      (contents (grow_if_needed sz s))[k]? = (contents s)[k]?) ∧
    (contents (grow_if_needed sz s)).length = (grow_if_needed sz s).self.blockSize := by
  by_cases hfull : s.self.elementCount ≥ s.self.blockSize
  · have hgt := grownCapacity_gt s.self.blockSize
    obtain ⟨h1, h2, _, h4, _, _, b, hb, hlen, hlow, _⟩ :=
      reserve_grows sz (grownCapacity s.self.blockSize) s hc hgt
    rw [grow_if_needed_full sz s hfull]
    have hload : load (reserve sz (grownCapacity s.self.blockSize) s).heap
        (reserve sz (grownCapacity s.self.blockSize) s).self.block = some b := by
      rw [h4]; exact hb
    have hcont := contents_of_load _ b hload
    refine ⟨owns_of_load _ b _ h4 hb (by rw [hlen, h1]), h2, ?_, ?_, ?_⟩
    · rw [h1]; have := hc.2; omega
    · intro k hk; rw [hcont]; exact hlow k hk
    · rw [hcont, hlen, h1]
  · rw [grow_if_needed_room sz s (by omega)]
    exact ⟨hc.1, rfl, by omega, fun _ _ => rfl, owns_length_contents s hc.1⟩

theorem contents_construct_at (s : State α) (i : Nat) (x : α) (n : Nat) :
    contents { heap := construct_at s.heap s.self.block i x,
               self := { s.self with elementCount := n } } = (contents s).set i (some x) := by
  unfold contents
  simp only [load_construct_at, if_true]
  cases load s.heap s.self.block <;> simp

/-- The state after `push_back(x)` of an object outside the blocks, in terms of the slots
of the block. -/
theorem push_back_contents (sz : Nat) (x : α) (s : State α) (hc : Container s) :
    (push_back sz (Ref.object x) s).self.elementCount = s.self.elementCount + 1 ∧
    (∀ k, k < s.self.elementCount →
      (contents (push_back sz (Ref.object x) s))[k]? = (contents s)[k]?) ∧
    (contents (push_back sz (Ref.object x) s))[s.self.elementCount]? = some (some x) := by
  obtain ⟨_, h2, h3, h4, h5⟩ := grow_if_needed_spec sz s hc
  have hcont : contents (push_back sz (Ref.object x) s) =
      (contents (grow_if_needed sz s)).set (grow_if_needed sz s).self.elementCount
        (some x) := by
    unfold push_back
    exact contents_construct_at _ _ _ _
  refine ⟨by simp [push_back, h2], ?_, ?_⟩
  · intro k hk
    rw [hcont, h2, List.getElem?_set, if_neg (by omega)]
    exact h4 k hk
  · have hlt : s.self.elementCount < (contents (grow_if_needed sz s)).length := by
      rw [h5]; exact h3
    rw [hcont, h2, List.getElem?_set, if_pos rfl, if_pos hlt]

theorem push_back_move_eq (sz : Nat) (x : Ref α α) (s : State α) :
    push_back_move sz x s = push_back sz x s := rfl

theorem emplace_back_eq {β : Type} (sz : Nat) (mk : β → α) (args : β) (s : State α) :
    emplace_back sz mk (Ref.object args) s = push_back sz (Ref.object (mk args)) s := rfl

/-- The counters after `emplace_back` are those after `push_back`, whatever the
references designate. -/
theorem emplace_back_self {β : Type} (sz : Nat) (mk : β → α) (args : Ref α β)
    (x : Ref α α) (s : State α) :
    (emplace_back sz mk args s).self = (push_back sz x s).self := rfl

theorem push_back_appends (sz : Nat) (x : α) (s : State α) (hc : Container s) :
    Appends s (push_back sz (Ref.object x) s) x := by
  obtain ⟨h1, h2, h3⟩ := push_back_contents sz x s hc
  have hat : ∀ i, at_ (push_back sz (Ref.object x) s) i =
      ((contents (push_back sz (Ref.object x) s))[i]?).join :=
    fun i => slot_eq_contents _ i
  have hat0 : ∀ i, at_ s i = ((contents s)[i]?).join := fun i => slot_eq_contents _ i
  refine ⟨h1, ?_, ?_, ?_⟩
  · intro i hi
    have e : at_ (push_back sz (Ref.object x) s) i = at_ s i := by rw [hat, hat0, h2 i hi]
    exact ⟨e, e⟩
  · show at_ (push_back sz (Ref.object x) s) s.self.elementCount = some x
    rw [hat, h3]; rfl
  · show at_ (push_back sz (Ref.object x) s) s.self.elementCount = some x
    rw [hat, h3]; rfl

theorem push_back_blockSize (sz : Nat) (x : Ref α α) (s : State α)
    (hle : s.self.elementCount ≤ s.self.blockSize) :
    (push_back sz x s).self.blockSize =
      policyCapacity s.self.elementCount s.self.blockSize := by
  by_cases hfull : s.self.elementCount ≥ s.self.blockSize
  · have h1 : ¬ grownCapacity s.self.blockSize ≤ s.self.blockSize := by
      have := grownCapacity_gt s.self.blockSize; omega
    have h2 : ¬ grownCapacity s.self.blockSize < s.self.elementCount := by
      have := grownCapacity_gt s.self.blockSize; omega
    have h3 : ¬ s.self.elementCount < s.self.blockSize := by omega
    have h4 : (push_back sz x s).self.blockSize = grownCapacity s.self.blockSize := by
      simp only [push_back, grow_if_needed_full sz s hfull, reserve, if_neg h1, if_neg h2]
    rw [h4]
    simp only [policyCapacity, if_neg h3, grownCapacity]
    split_ifs <;> omega
  · have h3 : s.self.elementCount < s.self.blockSize := by omega
    simp only [push_back, grow_if_needed_room sz s h3, policyCapacity, if_pos h3]

theorem emplace_back_blockSize {β : Type} (sz : Nat) (mk : β → α) (x : Ref α β)
    (s : State α)
    (hle : s.self.elementCount ≤ s.self.blockSize) :
    (emplace_back sz mk x s).self.blockSize =
      policyCapacity s.self.elementCount s.self.blockSize := by
  by_cases hfull : s.self.elementCount ≥ s.self.blockSize
  · have h1 : ¬ grownCapacity s.self.blockSize ≤ s.self.blockSize := by
      have := grownCapacity_gt s.self.blockSize; omega
    have h2 : ¬ grownCapacity s.self.blockSize < s.self.elementCount := by
      have := grownCapacity_gt s.self.blockSize; omega
    have h3 : ¬ s.self.elementCount < s.self.blockSize := by omega
    have h4 : (emplace_back sz mk x s).self.blockSize = grownCapacity s.self.blockSize := by
      simp only [emplace_back, grow_if_needed_full sz s hfull, reserve, if_neg h1, if_neg h2]
    rw [h4]
    simp only [policyCapacity, if_neg h3, grownCapacity]
    split_ifs <;> omega
  · have h3 : s.self.elementCount < s.self.blockSize := by omega
    simp only [emplace_back, grow_if_needed_room sz s h3, policyCapacity, if_pos h3]

theorem elements_reserve (sz n : Nat) (s : State α) (hc : Container s) :
    elements (reserve sz n s) = elements s := by
  by_cases hn : n ≤ s.self.blockSize
  · rw [reserve_noop sz n s hn]
  · obtain ⟨_, h2, _, h4, _, _, b, hb, _, hlow, _⟩ := reserve_grows sz n s hc (by omega)
    have hcont : contents (reserve sz n s) = b :=
      contents_of_load _ b (by rw [h4]; exact hb)
    unfold elements
    rw [hcont, h2]
    apply List.ext_getElem?
    intro k
    simp only [List.getElem?_take]
    split_ifs with hk
    · exact hlow k hk
    · rfl

end insertion_lemmas

/-! ## `erase(index)` -/

section erase_lemmas

variable {α : Type}

theorem getElem?_blockFrom_hole (b : Block α) (i j k : Nat) (hi : b[i]? = some none)
    (hj : j < b.length) :
    (blockFrom b i j)[k]? = if k = i then b[j]? else b[k]? := by
  have hil : i < b.length := by
    by_contra hlt
    rw [List.getElem?_eq_none (by omega)] at hi
    exact absurd hi (by simp)
  unfold blockFrom
  cases hbj : b[j]? with
  | none => rw [List.getElem?_eq_getElem hj] at hbj; exact absurd hbj (by simp)
  | some v =>
    cases v with
    | none =>
      simp only [Option.join]
      split_ifs with hk
      · subst hk; exact hi
      · rfl
    | some x =>
      simp only [Option.join, List.getElem?_set]
      by_cases hk : k = i
      · subst hk; simp [hil]
      · have hik : ¬ i = k := fun e => hk e.symm
        simp [hk, hik]

/-- The shifting loop of `erase(index)` on the slots of the block, started with the hole
at `i`: the `n` following slots move one place down and the hole ends at `i + n`. -/
theorem getElem?_forLoop_shift :
    ∀ (n i : Nat) (b : Block α), i + n < b.length → b[i]? = some none → ∀ k,
      (forLoop (fun i b => (blockFrom b i (i + 1)).set (i + 1) none) n i b)[k]? =
        if k < i then b[k]?
        else if k < i + n then b[k + 1]?
        else if k = i + n then some none
        else b[k]? := by
  intro n
  induction n with
  | zero =>
    intro i b _ hi k
    simp only [forLoop]
    split_ifs with h1 h2 h3
    · rfl
    · omega
    · rw [h3]; exact hi
    · rfl
  | succ n ih =>
    intro i b hlen hi k
    simp only [forLoop]
    have hlen1 : ((blockFrom b i (i + 1)).set (i + 1) none).length = b.length := by simp
    have hstep : ∀ m, ((blockFrom b i (i + 1)).set (i + 1) none)[m]? =
        if m = i + 1 then some none else if m = i then b[i + 1]? else b[m]? := by
      intro m
      rw [List.getElem?_set, length_blockFrom]
      by_cases hm : i + 1 = m
      · subst hm
        have : i + 1 < b.length := by omega
        simp [this]
      · have hm2 : ¬ m = i + 1 := fun e => hm e.symm
        rw [if_neg hm, if_neg hm2]
        exact getElem?_blockFrom_hole b i (i + 1) m hi (by omega)
    rw [ih (i + 1) _ (by rw [hlen1]; omega) (by rw [hstep]; simp) k]
    simp only [hstep]
    split_ifs <;> first | rfl | omega | simp_all

theorem load_erase (index : Nat) (s : State α) (r : Ptr) :
    load (erase index s).heap r =
      if r = s.self.block then
        (load s.heap s.self.block).map (fun b =>
          forLoop (fun i b => (blockFrom b i (i + 1)).set (i + 1) none)
            (s.self.elementCount - 1 - index) index (b.set index none))
      else load s.heap r := by
  unfold erase
  simp only
  rw [load_forLoop_block s.self.block _
    (fun i b => (blockFrom b i (i + 1)).set (i + 1) none)]
  · by_cases hr : r = s.self.block
    · simp only [hr, if_true, load_destroy_at]
      cases load s.heap s.self.block <;> simp
    · simp only [hr, if_false, load_destroy_at]
  · intro i h r
    rw [load_destroy_at]
    by_cases hr : r = s.self.block
    · simp only [hr, if_true, load_construct_from_self]
      cases load h s.self.block <;> simp
    · simp only [hr, if_false, load_construct_from_self]

theorem elements_erase (index : Nat) (s : State α) (hc : Container s)
    (hi : index < s.self.elementCount) :
    elements (erase index s) = (elements s).eraseIdx index := by
  obtain ⟨b, hb, hlen⟩ := owns_load_eq s hc.1 (by have := hc.2; omega)
  have hle := hc.2
  have hcont : contents (erase index s) =
      forLoop (fun i b => (blockFrom b i (i + 1)).set (i + 1) none)
        (s.self.elementCount - 1 - index) index (b.set index none) := by
    unfold contents
    rw [load_erase, if_pos (by rfl), hb]
    rfl
  have hcont0 : contents s = b := contents_of_load s b hb
  unfold elements
  rw [hcont, hcont0]
  have hsz : (erase index s).self.elementCount = s.self.elementCount - 1 := rfl
  rw [hsz]
  apply List.ext_getElem?
  intro k
  rw [List.getElem?_take, List.getElem?_eraseIdx, List.getElem?_take, List.getElem?_take]
  rw [getElem?_forLoop_shift _ _ _ (by simp; omega) (by simp [List.getElem?_set]; omega)]
  simp only [List.getElem?_set]
  split_ifs <;> first | rfl | omega

end erase_lemmas

/-! ## `erase(start, end)` -/

section erase_range_lemmas

variable {α : Type}

/-- One iteration of the relocation loop of `erase(start, end)` on the slots of the
block: slot `d` is destructed and rebuilt from slot `e`, which is then destructed. -/
theorem getElem?_close_step (b : Block α) (d e m : Nat) (hde : d < e) (he : e < b.length) :
    ((blockFrom (b.set d none) d e).set e none)[m]? =
      if m = e then some none else if m = d then b[e]? else b[m]? := by
  have hd : d < b.length := by omega
  have hne : ¬ d = e := by omega
  rw [List.getElem?_set, length_blockFrom, List.length_set]
  by_cases hm : e = m
  · subst hm; simp [he]
  · have hm2 : ¬ m = e := fun h => hm h.symm
    rw [if_neg hm, if_neg hm2]
    rw [getElem?_blockFrom_hole (b.set d none) d e m
      (by simp [List.getElem?_set, hd]) (by simpa using he)]
    simp only [List.getElem?_set]
    by_cases hmd : m = d
    · subst hmd; simp [hne]
    · have hdm : ¬ d = m := fun h => hmd h.symm
      simp [hmd, hdm]

/-- The relocation loop of `erase(start, end)` on the slots of the block, from iteration
`i` on, `n` iterations. -/
theorem getElem?_forLoop_close (start end_ : Nat) (hse : start < end_) :
    ∀ (n i : Nat) (b : Block α), end_ + i + n ≤ b.length → ∀ k,
      (forLoop (fun i b =>
          (blockFrom (b.set (start + i) none) (start + i) (end_ + i)).set (end_ + i) none)
        n i b)[k]? =
        if start + i ≤ k ∧ k < start + i + n then b[k + (end_ - start)]?
        else if end_ + i ≤ k ∧ k < end_ + i + n then some none
        else b[k]? := by
  intro n
  induction n with
  | zero =>
    intro i b _ k
    simp only [forLoop]
    rw [if_neg (by omega), if_neg (by omega)]
  | succ n ih =>
    intro i b hlen k
    simp only [forLoop]
    have hlen1 : ((blockFrom (b.set (start + i) none) (start + i) (end_ + i)).set
        (end_ + i) none).length = b.length := by simp
    rw [ih (i + 1) _ (by rw [hlen1]; omega) k]
    simp only [getElem?_close_step b (start + i) (end_ + i) _ (by omega) (by omega)]
    split_ifs <;> first | rfl | omega | (congr 1; omega)

theorem load_erase_range (start end_ : Nat) (s : State α) (r : Ptr) :
    load (erase_range start end_ s).heap r =
      if r = s.self.block then
        (load s.heap s.self.block).map (fun b =>
          if s.self.elementCount - end_ > 0 then
            forLoop (fun i b =>
                (blockFrom (b.set (start + i) none) (start + i) (end_ + i)).set
                  (end_ + i) none)
              (s.self.elementCount - end_) 0 b
          else forLoop (fun k b => b.set k none) (s.self.elementCount - start) start b)
      else load s.heap r := by
  unfold erase_range
  simp only
  by_cases ht : s.self.elementCount - end_ > 0
  · simp only [if_pos ht]
    rw [load_forLoop_block s.self.block _ (fun i b =>
      (blockFrom (b.set (start + i) none) (start + i) (end_ + i)).set (end_ + i) none)]
    intro i h r
    rw [load_destroy_at]
    by_cases hr : r = s.self.block
    · simp only [hr, if_true, load_construct_from_self, load_destroy_at]
      cases load h s.self.block <;> simp
    · simp only [hr, if_false, load_construct_from_self, load_destroy_at]
  · simp only [if_neg ht]
    rw [load_forLoop_block s.self.block _ (fun k b => b.set k none)]
    intro i h r
    rw [load_destroy_at]

theorem elements_erase_range (start end_ : Nat) (s : State α) (hc : Container s)
    (hse : start < end_) (hes : end_ ≤ s.self.elementCount) :
    elements (erase_range start end_ s) =
      (elements s).take start ++ (elements s).drop end_ := by
  obtain ⟨b, hb, hlen⟩ := owns_load_eq s hc.1 (by have := hc.2; omega)
  have hle := hc.2
  have hcont0 : contents s = b := contents_of_load s b hb
  have hsz : (erase_range start end_ s).self.elementCount =
      s.self.elementCount - (end_ - start) := rfl
  unfold elements
  rw [hsz, hcont0]
  apply List.ext_getElem?
  intro k
  have hrhs : (List.take start (List.take s.self.elementCount b) ++
      List.drop end_ (List.take s.self.elementCount b))[k]? =
      if k < start then b[k]?
      else if k + (end_ - start) < s.self.elementCount then b[k + (end_ - start)]?
      else none := by
    rw [List.getElem?_append, List.length_take, List.length_take, List.getElem?_take,
      List.getElem?_take, List.getElem?_drop, List.getElem?_take]
    have hmin : min start (min s.self.elementCount b.length) = start := by omega
    rw [hmin]
    by_cases h1 : k < start
    · rw [if_pos h1, if_pos h1, if_pos (by omega), if_pos h1]
    · rw [if_neg h1, if_neg h1]
      by_cases h2 : k + (end_ - start) < s.self.elementCount
      · rw [if_pos h2, if_pos (by omega)]
        congr 1
        omega
      · rw [if_neg h2, if_neg (by omega)]
  rw [hrhs, List.getElem?_take]
  by_cases ht : s.self.elementCount - end_ > 0
  · have hcont : contents (erase_range start end_ s) =
        forLoop (fun i b =>
            (blockFrom (b.set (start + i) none) (start + i) (end_ + i)).set (end_ + i) none)
          (s.self.elementCount - end_) 0 b := by
      unfold contents
      rw [load_erase_range, if_pos (by rfl), hb]
      simp only [Option.map_some', if_pos ht]
      rfl
    rw [hcont, getElem?_forLoop_close start end_ hse _ _ _ (by omega)]
    by_cases h1 : k < start
    · rw [if_pos (by omega), if_neg (by omega), if_neg (by omega), if_pos h1]
    · rw [if_neg h1]
      by_cases h2 : k + (end_ - start) < s.self.elementCount
      · rw [if_pos (by omega), if_pos (by omega), if_pos h2]
      · rw [if_neg (by omega), if_neg h2]
  · have hcont : contents (erase_range start end_ s) =
        forLoop (fun k b => b.set k none) (s.self.elementCount - start) start b := by
      unfold contents
      rw [load_erase_range, if_pos (by rfl), hb]
      simp only [Option.map_some', if_neg ht]
      rfl
    rw [hcont, getElem?_forLoop_clear]
    by_cases h1 : k < start
    · rw [if_pos (by omega), if_neg (by omega), if_pos h1]
    · rw [if_neg (by omega), if_neg h1, if_neg (by omega)]

end erase_range_lemmas

/-! ## `shrink_to_fit` -/

section shrink_lemmas

variable {α : Type}

theorem shrink_to_fit_spec (sz : Nat) (s : State α) (hc : Container s) :
    Owns (shrink_to_fit sz s) ∧
    (shrink_to_fit sz s).self.blockSize = s.self.elementCount ∧
    (shrink_to_fit sz s).self.elementCount = s.self.elementCount ∧
    (shrink_to_fit sz s).self.totalMemoryInUse = s.self.elementCount * sz ∧
    (contents (shrink_to_fit sz s)).length = s.self.elementCount ∧
    (∀ k, k < s.self.elementCount →
      (contents (shrink_to_fit sz s))[k]? = (contents s)[k]?) := by
  by_cases h0 : s.self.elementCount = 0
  · have hr : shrink_to_fit sz s =
        { heap := dealloc s.heap s.self.block
          self := { s.self with block := none, blockSize := 0, totalMemoryInUse := 0 } } := by
      simp only [shrink_to_fit, if_pos h0]
    rw [hr, h0]
    refine ⟨rfl, rfl, rfl, by simp, by simp [contents], ?_⟩
    intro k hk
    omega
  · have hfresh := owns_ne_fresh s hc.1
    obtain ⟨b, hb, hlen, hlow, _⟩ :=
      relocate_fresh s.self.block s.heap s.self.elementCount s.self.elementCount hfresh
    have hr : shrink_to_fit sz s =
        { heap := dealloc (relocate s.self.block (alloc s.heap s.self.elementCount).2
            s.self.elementCount (alloc s.heap s.self.elementCount).1) s.self.block
          self := { s.self with
            block := (alloc s.heap s.self.elementCount).2,
            blockSize := s.self.elementCount,
            totalMemoryInUse := s.self.elementCount * sz } } := by
      simp only [shrink_to_fit, if_neg h0]
    have hload : load (shrink_to_fit sz s).heap (some s.heap.cells.length) = some b := by
      rw [hr]
      simp only
      rw [load_dealloc, if_neg (fun e => hfresh e.symm)]
      simpa using hb
    have hblock : (shrink_to_fit sz s).self.block = some s.heap.cells.length := by
      rw [hr]; rfl
    have hbs : (shrink_to_fit sz s).self.blockSize = s.self.elementCount := by rw [hr]
    have hcont : contents (shrink_to_fit sz s) = b :=
      contents_of_load _ b (by rw [hblock]; exact hload)
    refine ⟨owns_of_load _ b _ hblock hload (by rw [hlen, hbs]), hbs, by rw [hr],
      by rw [hr], by rw [hcont, hlen], ?_⟩
    intro k hk
    rw [hcont, hlow k hk hk, slot_eq_contents]
    have hlt : k < (contents s).length := by
      rw [owns_length_contents s hc.1]; have := hc.2; omega
    rw [List.getElem?_eq_getElem hlt]
    rfl

theorem elements_shrink_to_fit (sz : Nat) (s : State α) (hc : Container s) :
    elements (shrink_to_fit sz s) = elements s := by
  obtain ⟨_, _, h3, _, _, h6⟩ := shrink_to_fit_spec sz s hc
  unfold elements
  rw [h3]
  apply List.ext_getElem?
  intro k
  simp only [List.getElem?_take]
  split_ifs with hk
  · exact h6 k hk
  · rfl

/-- A second `shrink_to_fit` gives the same members and the same slots again (in a new
block). -/
theorem shrink_to_fit_twice (sz : Nat) (s : State α) (hc : Container s) :
    (shrink_to_fit sz (shrink_to_fit sz s)).self.blockSize =
      (shrink_to_fit sz s).self.blockSize ∧
    (shrink_to_fit sz (shrink_to_fit sz s)).self.elementCount =
      (shrink_to_fit sz s).self.elementCount ∧
    (shrink_to_fit sz (shrink_to_fit sz s)).self.totalMemoryInUse =
      (shrink_to_fit sz s).self.totalMemoryInUse ∧
    contents (shrink_to_fit sz (shrink_to_fit sz s)) = contents (shrink_to_fit sz s) := by
  obtain ⟨h1, h2, h3, h4, h5, _⟩ := shrink_to_fit_spec sz s hc
  have hc2 : Container (shrink_to_fit sz s) := ⟨h1, by rw [h2, h3]⟩
  obtain ⟨_, g2, g3, g4, g5, g6⟩ := shrink_to_fit_spec sz (shrink_to_fit sz s) hc2
  refine ⟨by rw [g2, h2, h3], g3, by rw [g4, h4, h3], ?_⟩
  apply List.ext_getElem?
  intro k
  by_cases hk : k < (shrink_to_fit sz s).self.elementCount
  · exact g6 k hk
  · rw [List.getElem?_eq_none (by rw [g5]; omega), List.getElem?_eq_none (by rw [h5]; omega)]

end shrink_lemmas

/-! ## The scenario of `main` -/

section scenario_lemmas

variable {α : Type}

theorem default_ctor_container (sz : Nat) (h : Heap α) : Container (default_ctor sz h) := by
  refine ⟨?_, Nat.zero_le _⟩
  exact owns_of_load _ (List.replicate 4 none) h.cells.length rfl
    (by simp [default_ctor, load_alloc]) (by simp [default_ctor])

theorem emplace_back_container {β : Type} (sz : Nat) (mk : β → α) (x : Ref α β)
    (s : State α) (hc : Container s) : Container (emplace_back sz mk x s) := by
  obtain ⟨h1, h2, h3, _, _⟩ := grow_if_needed_spec sz s hc
  refine ⟨?_, ?_⟩
  · have hb : (emplace_back sz mk x s).self.block = (grow_if_needed sz s).self.block := rfl
    have hbs : (emplace_back sz mk x s).self.blockSize =
        (grow_if_needed sz s).self.blockSize := rfl
    have hl : ∀ a, (load (emplace_back sz mk x s).heap (some a)).map List.length =
        (load (grow_if_needed sz s).heap (some a)).map List.length :=
      fun a => length_load_construct_ref _ _ _ _ _ _
    unfold Owns at h1 ⊢
    rw [hb, hbs]
    cases hp : (grow_if_needed sz s).self.block with
    | none => rw [hp] at h1; exact h1
    | some a =>
      rw [hp] at h1
      simp only at h1 ⊢
      rw [hl a]
      exact h1
  · show (grow_if_needed sz s).self.elementCount + 1 ≤ (grow_if_needed sz s).self.blockSize
    omega

theorem push_back_container (sz : Nat) (x : Ref α α) (s : State α) (hc : Container s) :
    Container (push_back sz x s) :=
  emplace_back_container sz (fun y => y) x s hc

theorem pop_back_container (s : State α) (hc : Container s) : Container (pop_back s) := by
  by_cases h0 : s.self.elementCount = 0
  · have : pop_back s = s := by simp only [pop_back, if_pos h0]
    rw [this]; exact hc
  · have hr : pop_back s =
        { heap := destroy_at s.heap s.self.block (s.self.elementCount - 1)
          self := { s.self with elementCount := s.self.elementCount - 1 } } := by
      simp only [pop_back, if_neg h0]
    rw [hr]
    refine ⟨?_, ?_⟩
    · have ho := hc.1
      unfold Owns at ho ⊢
      cases hp : s.self.block with
      | none => rw [hp] at ho; simpa [hp] using ho
      | some a =>
        rw [hp] at ho
        simp only [hp, load_destroy_at, if_true] at ho ⊢
        cases hl : load s.heap (some a) with
        | none => simp [hl] at ho
        | some b => simpa [hl] using ho
    · show s.self.elementCount - 1 ≤ s.self.blockSize
      have := hc.2
      omega

theorem filled_from (sz : Nat) :
    ∀ (n i : Nat) (s : State data), Container s →
      Container (forLoop (fun i s =>
        emplace_back sz (fun a : Nat => data.mk a "hello" 420 69 666) (Ref.object i) s)
          n i s) ∧
      size (forLoop (fun i s =>
        emplace_back sz (fun a : Nat => data.mk a "hello" 420 69 666) (Ref.object i) s)
          n i s) =
        size s + n := by
  intro n
  induction n with
  | zero => intro i s hc; exact ⟨hc, rfl⟩
  | succ n ih =>
    intro i s hc
    simp only [forLoop]
    obtain ⟨h1, h2⟩ := ih (i + 1)
      (emplace_back sz (fun a : Nat => data.mk a "hello" 420 69 666) (Ref.object i) s)
      (push_back_container sz (Ref.object (data.mk i "hello" 420 69 666)) s hc)
    refine ⟨h1, ?_⟩
    rw [h2]
    have h3 := (push_back_contents sz (data.mk i "hello" 420 69 666) s hc).1
    show (push_back sz (Ref.object (data.mk i "hello" 420 69 666)) s).self.elementCount + n =
      s.self.elementCount + (n + 1)
    omega

theorem popped_from :
    ∀ (n i : Nat) (s : State data), Container s →
      Container (forLoop (fun _ s => pop_back s) n i s) ∧
      size (forLoop (fun _ s => pop_back s) n i s) = size s - n := by
  intro n
  induction n with
  | zero => intro i s hc; exact ⟨hc, rfl⟩
  | succ n ih =>
    intro i s hc
    simp only [forLoop]
    obtain ⟨h1, h2⟩ := ih (i + 1) (pop_back s) (pop_back_container s hc)
    refine ⟨h1, ?_⟩
    rw [h2]
    have h3 : size (pop_back s) = size s - 1 := by
      unfold pop_back size
      split_ifs with h0
      · omega
      · rfl
    omega

theorem scenario_container (sz : Nat) :
    Container (popped 5 (filled sz 13)) ∧ size (popped 5 (filled sz 13)) = 8 := by
  obtain ⟨h1, h2⟩ := filled_from sz 13 0 (default_ctor sz Heap.empty)
    (default_ctor_container sz Heap.empty)
  obtain ⟨g1, g2⟩ := popped_from 5 0 (filled sz 13) h1
  refine ⟨g1, ?_⟩
  unfold popped
  rw [g2]
  unfold filled
  rw [h2]
  rfl

end scenario_lemmas

/-! ## `size <= capacity` in every reachable world -/

section size_le_capacity

variable {α : Type}

theorem reserve_le (sz n : Nat) (s : State α)
    (hle : s.self.elementCount ≤ s.self.blockSize) :
    (reserve sz n s).self.elementCount ≤ (reserve sz n s).self.blockSize := by
  unfold reserve
  split_ifs
  · exact hle
  · exact le_refl _
  · show s.self.elementCount ≤ n
    omega

theorem grow_if_needed_lt (sz : Nat) (s : State α)
    (hle : s.self.elementCount ≤ s.self.blockSize) :
    (grow_if_needed sz s).self.elementCount < (grow_if_needed sz s).self.blockSize := by
  by_cases hfull : s.self.elementCount ≥ s.self.blockSize
  · have hgt := grownCapacity_gt s.self.blockSize
    rw [grow_if_needed_full sz s hfull]
    unfold reserve
    split_ifs
    · omega
    · omega
    · show s.self.elementCount < grownCapacity s.self.blockSize
      omega
  · rw [grow_if_needed_room sz s (by omega)]
    omega

theorem push_back_le (sz : Nat) (x : Ref α α) (s : State α)
    (hle : s.self.elementCount ≤ s.self.blockSize) :
    (push_back sz x s).self.elementCount ≤ (push_back sz x s).self.blockSize := by
  have := grow_if_needed_lt sz s hle
  show (grow_if_needed sz s).self.elementCount + 1 ≤ (grow_if_needed sz s).self.blockSize
  omega

theorem shrink_to_fit_le (sz : Nat) (s : State α) :
    (shrink_to_fit sz s).self.elementCount ≤ (shrink_to_fit sz s).self.blockSize := by
  unfold shrink_to_fit
  split_ifs with h
  · show s.self.elementCount ≤ 0
    omega
  · exact le_refl _

theorem run_le (sz : Nat) (o : Op α) (s : State α)
    (hle : s.self.elementCount ≤ s.self.blockSize) :
    (o.run sz s).self.elementCount ≤ (o.run sz s).self.blockSize := by
  cases o with
  | push_back x => exact push_back_le sz (Ref.object x) s hle
  | push_back_move x => exact push_back_le sz (Ref.object x) s hle
  | emplace_back x => exact push_back_le sz (Ref.object x) s hle
  | pop_back =>
    simp only [Op.run, MyVector.pop_back]
    split_ifs
    · exact hle
    · show s.self.elementCount - 1 ≤ s.self.blockSize
      omega
  | erase i =>
    show s.self.elementCount - 1 ≤ s.self.blockSize
    omega
  | erase_range a b =>
    show s.self.elementCount - (b - a) ≤ s.self.blockSize
    omega
  | reserve n => exact reserve_le sz n s hle
  | shrink_to_fit => exact shrink_to_fit_le sz s
  | shuffle rng =>
    simp only [Op.run, MyVector.shuffle]
    split_ifs <;> exact hle
  | reverse =>
    simp only [Op.run, MyVector.reverse]
    split_ifs <;> exact hle
  | clear => exact le_refl 0
  | write i x => exact hle

theorem copy_ctor_le (throwsAt : Nat → Bool) (sz : Nat) (h : Heap α) (other c : vector)
    (hle : other.elementCount ≤ other.blockSize)
    (hc : (copy_ctor throwsAt sz h other).2 = some c) :
    c.elementCount ≤ c.blockSize := by
  by_cases h0 : other.blockSize = 0
  · simp only [copy_ctor, if_pos h0, Option.some.injEq] at hc
    rw [← hc]
  · simp only [copy_ctor, if_neg h0] at hc
    split_ifs at hc with h1
    simp only [alloc_snd, Option.some.injEq] at hc
    rw [← hc]
    exact hle

theorem step_le (sz : Nat) (w w2 : World α) (hstep : Step sz w w2)
    (hw : ∀ v ∈ w.objs, v.elementCount ≤ v.blockSize) :
    ∀ v ∈ w2.objs, v.elementCount ≤ v.blockSize := by
  cases hstep with
  | default_ctor =>
    intro v hv
    simp only [List.mem_append, List.mem_singleton] at hv
    rcases hv with hv | hv
    · exact hw v hv
    · subst hv; simp [default_ctor]
  | copy_ctor throwsAt j other c hj hc =>
    intro v hv
    simp only [List.mem_append, List.mem_singleton] at hv
    rcases hv with hv | hv
    · exact hw v hv
    · subst hv
      exact copy_ctor_le throwsAt sz w.heap other v
        (hw other (List.getElem?_mem hj)) hc
  | copy_ctor_throws throwsAt j other hj hc => exact hw
  | move_ctor j other hj =>
    intro v hv
    simp only [List.mem_append, List.mem_singleton] at hv
    rcases hv with hv | hv
    · rcases List.mem_or_eq_of_mem_set hv with hv | hv
      · exact hw v hv
      · subst hv; simp [move_ctor]
    · subst hv
      exact hw other (List.getElem?_mem hj)
  | call k self o hk hr =>
    intro v hv
    rcases List.mem_or_eq_of_mem_set hv with hv | hv
    · exact hw v hv
    · subst hv
      exact run_le sz o _ (hw self (List.getElem?_mem hk))
  | copy_assign throwsAt k j =>
    intro v hv
    unfold copy_assign at hv
    split at hv
    · rename_i self other hk hj
      split_ifs at hv with hkj
      · exact hw v hv
      · simp only at hv
        split at hv
        · exact hw v hv
        · rename_i tmp htmp
          rcases List.mem_or_eq_of_mem_set hv with hv | hv
          · exact hw v hv
          · subst hv
            exact copy_ctor_le throwsAt sz w.heap other tmp
              (hw other (List.getElem?_mem hj)) htmp
    · exact hw v hv
  | move_assign k j =>
    intro v hv
    unfold move_assign at hv
    split at hv
    · rename_i self other hk hj
      split_ifs at hv with hkj
      · exact hw v hv
      · rcases List.mem_or_eq_of_mem_set hv with hv | hv
        · rcases List.mem_or_eq_of_mem_set hv with hv | hv
          · exact hw v hv
          · subst hv
            exact hw other (List.getElem?_mem hj)
        · subst hv; simp
    · exact hw v hv

theorem reachable_le (sz : Nat) (w : World α) (hr : Reachable sz w) :
    ∀ v ∈ w.objs, v.elementCount ≤ v.blockSize := by
  induction hr with
  | init => intro v hv; simp at hv
  | step w w2 _ hstep ih => exact step_le sz w w2 hstep ih

theorem world_of_default_reachable (sz : Nat) :
    Reachable sz (world_of (default_ctor sz Heap.empty)) :=
  Reachable.step { heap := Heap.empty, objs := [] } (world_of (default_ctor sz Heap.empty))
    Reachable.init (Step.default_ctor { heap := Heap.empty, objs := [] })

theorem world_of_call_reachable (sz : Nat) (s : State Nat) (o : Op Nat)
    (hs : Reachable sz (world_of s)) (hr : o.inRange s.self) :
    Reachable sz (world_of (o.run sz s)) :=
  Reachable.step (world_of s) (world_of (o.run sz s)) hs
    (Step.call (world_of s) 0 s.self o rfl hr)

theorem demo_world_reachable (sz : Nat) : Reachable sz (demo_world sz) :=
  world_of_call_reachable sz _ (Op.erase 0)
    (world_of_call_reachable sz _ (Op.push_back 9)
      (world_of_call_reachable sz _ (Op.push_back 7)
        (world_of_default_reachable sz) trivial) trivial)
    (Nat.succ_pos _)

theorem cleared_world_reachable (sz : Nat) : Reachable sz (cleared_world sz) :=
  world_of_call_reachable sz _ Op.clear (world_of_default_reachable sz) trivial

end size_le_capacity

/-! ## What a call on one container leaves alone -/

section frame_lemmas

variable {α : Type}

theorem within_refl (p : Ptr) (h : Heap α) : Within p h h := ⟨rfl, fun _ _ => rfl⟩

theorem within_trans (p : Ptr) (h1 h2 h3 : Heap α) (h12 : Within p h1 h2)
    (h23 : Within p h2 h3) : Within p h1 h3 :=
  ⟨h23.1.trans h12.1, fun r hr => (h23.2 r hr).trans (h12.2 r hr)⟩

theorem within_destroy_at (p : Ptr) (i : Nat) (h : Heap α) : Within p h (destroy_at h p i) :=
  ⟨by simp, fun r hr => by rw [load_destroy_at, if_neg hr]⟩

theorem within_construct_at (p : Ptr) (i : Nat) (x : α) (h : Heap α) :
    Within p h (construct_at h p i x) :=
  ⟨by simp, fun r hr => by rw [load_construct_at, if_neg hr]⟩

theorem within_construct_ref {β : Type} (p : Ptr) (i : Nat) (mk : β → α) (d : Ref α β)
    (h : Heap α) : Within p h (construct_ref h p i mk d) :=
  ⟨by simp, fun r hr => load_construct_ref h p r i mk d hr⟩

theorem within_construct_from (p : Ptr) (i : Nat) (q : Ptr) (j : Nat) (h : Heap α) :
    Within p h (construct_from h p i q j) :=
  ⟨by simp, fun r hr => by rw [load_construct_from, if_neg hr]⟩

theorem within_swap_slots (p : Ptr) (i j : Nat) (h : Heap α) :
    Within p h (swap_slots h p i j) :=
  ⟨by simp, fun r hr => by rw [load_swap_slots, if_neg hr]⟩

theorem within_assign_at (p : Ptr) (i : Nat) (x : α) (h : Heap α) :
    Within p h (assign_at h p i x) :=
  ⟨by simp, fun r hr => by rw [load_assign_at, if_neg hr]⟩

theorem within_dealloc (p : Ptr) (h : Heap α) : Within p h (dealloc h p) :=
  ⟨by simp, fun r hr => by rw [load_dealloc, if_neg hr]⟩

theorem within_forLoop (p : Ptr) (body : Nat → Heap α → Heap α)
    (hbody : ∀ i h, Within p h (body i h)) :
    ∀ n i h, Within p h (forLoop body n i h) := by
  intro n
  induction n with
  | zero => intro i h; exact within_refl p h
  | succ n ih =>
    intro i h
    simp only [forLoop]
    exact within_trans p _ _ _ (hbody i h) (ih (i + 1) (body i h))

theorem within_reverse_loop (p : Ptr) :
    ∀ (fuel left right : Nat) (h : Heap α), Within p h (reverse_loop p fuel left right h) := by
  intro fuel
  induction fuel with
  | zero => intro left right h; exact within_refl p h
  | succ fuel ih =>
    intro left right h
    simp only [reverse_loop]
    split_ifs
    · exact within_trans p _ _ _ (within_swap_slots p left right h) (ih _ _ _)
    · exact within_refl p h

/-- A call that keeps the block pointer, or resets it to `nullptr`, and works within the
block. -/
theorem frame_of_within (s s2 : State α) (hw : Within s.self.block s.heap s2.heap)
    (hb : s2.self.block = s.self.block ∨ s2.self.block = none) : Frame s s2 := by
  refine ⟨by rw [hw.1], fun a _ ha => hw.2 (some a) ha, ?_⟩
  intro a ha
  rcases hb with hb | hb
  · left; rw [← hb]; exact ha
  · rw [hb] at ha; exact absurd ha (by simp)

theorem below_of_within (s s2 : State α) (hbelow : Below s)
    (hw : Within s.self.block s.heap s2.heap)
    (hb : s2.self.block = s.self.block ∨ s2.self.block = none) : Below s2 := by
  intro a ha
  rw [hw.1]
  rcases hb with hb | hb
  · exact hbelow a (by rw [← hb]; exact ha)
  · rw [hb] at ha; exact absurd ha (by simp)

/-- What a reallocation to `m` slots (lines 141-148 and 125-132) leaves alone. -/
theorem frame_realloc (s : State α) (hbelow : Below s) (n m : Nat) (v : vector)
    (hv : v.block = (alloc s.heap m).2) :
    Frame s { heap := dealloc (relocate s.self.block (alloc s.heap m).2 n (alloc s.heap m).1)
                s.self.block
              self := v } ∧
    Below { heap := dealloc (relocate s.self.block (alloc s.heap m).2 n (alloc s.heap m).1)
              s.self.block
            self := v } := by
  have hfresh : s.self.block ≠ some s.heap.cells.length := by
    intro e
    exact absurd (hbelow _ e) (lt_irrefl _)
  refine ⟨⟨?_, ?_, ?_⟩, ?_⟩
  · simp [cells_length_relocate]
  · intro a ha hne
    have hne2 : some a ≠ some s.heap.cells.length := by
      intro e
      simp only [Option.some.injEq] at e
      omega
    simp only
    rw [load_dealloc, if_neg hne]
    unfold relocate
    rw [alloc_snd, load_relocate_loop s.self.block (some s.heap.cells.length) hfresh,
      if_neg hne, if_neg hne2, load_alloc, if_neg hne2]
  · intro a ha
    right
    simp only [hv, alloc_snd, Option.some.injEq] at ha
    omega
  · intro a ha
    simp only [hv, alloc_snd, Option.some.injEq] at ha
    simp [cells_length_relocate]
    omega

theorem reserve_frame (sz n : Nat) (s : State α) (hbelow : Below s) :
    Frame s (reserve sz n s) ∧ Below (reserve sz n s) := by
  by_cases hn : n ≤ s.self.blockSize
  · rw [reserve_noop sz n s hn]
    exact ⟨frame_of_within s s (within_refl _ _) (Or.inl rfl), hbelow⟩
  · simp only [reserve, if_neg hn]
    exact frame_realloc s hbelow _ _ _ rfl

theorem shrink_to_fit_frame (sz : Nat) (s : State α) (hbelow : Below s) :
    Frame s (shrink_to_fit sz s) ∧ Below (shrink_to_fit sz s) := by
  by_cases h0 : s.self.elementCount = 0
  · simp only [shrink_to_fit, if_pos h0]
    exact ⟨frame_of_within s _ (within_dealloc _ _) (Or.inr rfl),
      below_of_within s _ hbelow (within_dealloc _ _) (Or.inr rfl)⟩
  · simp only [shrink_to_fit, if_neg h0]
    exact frame_realloc s hbelow _ _ _ rfl

theorem frame_trans (s1 s2 s3 : State α) (h12 : Frame s1 s2) (h23 : Frame s2 s3) :
    Frame s1 s3 := by
  obtain ⟨a1, a2, a3⟩ := h12
  obtain ⟨b1, b2, b3⟩ := h23
  refine ⟨le_trans a1 b1, ?_, ?_⟩
  · intro a ha hne
    rw [b2 a (by omega), a2 a ha hne]
    intro e
    rcases a3 a e.symm with h | h
    · exact hne h.symm
    · omega
  · intro a ha
    rcases b3 a ha with h | h
    · exact a3 a h
    · right; omega

theorem push_back_frame (sz : Nat) (x : Ref α α) (s : State α) (hbelow : Below s) :
    Frame s (push_back sz x s) ∧ Below (push_back sz x s) := by
  have hg : Frame s (grow_if_needed sz s) ∧ Below (grow_if_needed sz s) := by
    by_cases hfull : s.self.elementCount ≥ s.self.blockSize
    · rw [grow_if_needed_full sz s hfull]
      exact reserve_frame sz _ s hbelow
    · rw [grow_if_needed_room sz s (by omega)]
      exact ⟨frame_of_within s s (within_refl _ _) (Or.inl rfl), hbelow⟩
  have hw : Within (grow_if_needed sz s).self.block (grow_if_needed sz s).heap
      (push_back sz x s).heap := within_construct_ref _ _ _ _ _
  exact ⟨frame_trans s _ _ hg.1 (frame_of_within _ _ hw (Or.inl rfl)),
    below_of_within _ _ hg.2 hw (Or.inl rfl)⟩

theorem run_within (sz : Nat) (o : Op α) (s : State α) (hbelow : Below s) :
    Frame s (o.run sz s) ∧ Below (o.run sz s) := by
  have key : ∀ s2 : State α, Within s.self.block s.heap s2.heap →
      (s2.self.block = s.self.block ∨ s2.self.block = none) → Frame s s2 ∧ Below s2 :=
    fun s2 hw hb => ⟨frame_of_within s s2 hw hb, below_of_within s s2 hbelow hw hb⟩
  cases o with
  | push_back x => exact push_back_frame sz (Ref.object x) s hbelow
  | push_back_move x => exact push_back_frame sz (Ref.object x) s hbelow
  | emplace_back x => exact push_back_frame sz (Ref.object x) s hbelow
  | pop_back =>
    simp only [Op.run, MyVector.pop_back]
    split_ifs
    · exact key s (within_refl _ _) (Or.inl rfl)
    · exact key _ (within_destroy_at _ _ _) (Or.inl rfl)
  | erase i =>
    refine key _ ?_ (Or.inl rfl)
    exact within_trans _ _ _ _ (within_destroy_at _ _ _)
      (within_forLoop _ _ (fun i h => within_trans _ _ _ _
        (within_construct_from _ _ _ _ _) (within_destroy_at _ _ _)) _ _ _)
  | erase_range a b =>
    refine key _ ?_ (Or.inl rfl)
    simp only [Op.run, MyVector.erase_range]
    split_ifs
    · exact within_forLoop _ _ (fun i h => within_trans _ _ _ _
        (within_trans _ _ _ _ (within_destroy_at _ _ _) (within_construct_from _ _ _ _ _))
        (within_destroy_at _ _ _)) _ _ _
    · exact within_forLoop _ _ (fun i h => within_destroy_at _ _ _) _ _ _
  | reserve n => exact reserve_frame sz n s hbelow
  | shrink_to_fit => exact shrink_to_fit_frame sz s hbelow
  | shuffle rng =>
    simp only [Op.run, MyVector.shuffle]
    split_ifs
    · exact key s (within_refl _ _) (Or.inl rfl)
    · exact key _ (within_forLoop _ _ (fun i h => within_swap_slots _ _ _ _) _ _ _)
        (Or.inl rfl)
  | reverse =>
    simp only [Op.run, MyVector.reverse]
    split_ifs
    · exact key s (within_refl _ _) (Or.inl rfl)
    · exact key _ (within_reverse_loop _ _ _ _ _) (Or.inl rfl)
  | clear =>
    refine key _ ?_ (Or.inr rfl)
    exact within_trans _ _ _ _
      (within_forLoop _ _ (fun i h => within_destroy_at _ _ _) _ _ _) (within_dealloc _ _)
  | write i x => exact key _ (within_assign_at _ _ _ _) (Or.inl rfl)

end frame_lemmas

/-! ## Copy construction -/

section copy_lemmas

variable {α : Type}

/-- When no element copy throws, the loop of the copy constructor runs to its end. -/
theorem copy_loop_ok (throwsAt : Nat → Bool) (src dst : Ptr) :
    ∀ (n i : Nat) (h : Heap α), (∀ k, i ≤ k → k < i + n → throwsAt k = false) →
      copy_loop throwsAt src dst n i h =
        (forLoop (fun k h => construct_from h dst k src k) n i h, i + n, false) := by
  intro n
  induction n with
  | zero => intro i h _; rfl
  | succ n ih =>
    intro i h hok
    simp only [copy_loop, hok i (le_refl _) (by omega), forLoop]
    rw [ih (i + 1) _ (fun k hk hk2 => hok k (by omega) (by omega))]
    simp only [Bool.false_eq_true, if_false, Prod.mk.injEq, and_true, true_and]
    omega

theorem load_copy_loop (src dst : Ptr) (hne : src ≠ dst) :
    ∀ (n i : Nat) (h : Heap α) (r : Ptr),
      load (forLoop (fun k h => construct_from h dst k src k) n i h) r =
        if r = dst then
          (load h dst).map (forLoop (fun k bd =>
            match slot h src k with
            | some x => bd.set k (some x)
            | none => bd) n i)
        else load h r := by
  intro n
  induction n with
  | zero =>
    intro i h r
    simp only [forLoop]
    split_ifs with h1
    · subst h1; cases load h r <;> rfl
    · rfl
  | succ n ih =>
    intro i h r
    simp only [forLoop]
    rw [ih]
    have hsrc : ∀ k, slot (construct_from h dst i src i) src k = slot h src k := by
      intro k
      apply slot_congr
      rw [load_construct_from, if_neg hne]
    simp only [hsrc]
    by_cases hr : r = dst
    · subst hr
      simp only [if_true]
      rw [load_construct_from, if_pos rfl]
      cases load h r <;> simp
    · simp only [hr, if_false]
      rw [load_construct_from, if_neg hr]

/-- The copy constructor when no element copy throws and the source has a block. -/
theorem copy_ctor_ok (throwsAt : Nat → Bool) (sz : Nat) (h : Heap α) (other : vector)
    (hc : Container { heap := h, self := other })
    (hok : ∀ i, i < other.elementCount → throwsAt i = false)
    (hbs : other.blockSize ≠ 0) :
    (copy_ctor throwsAt sz h other).2 =
      some { totalMemoryInUse := other.blockSize * sz, blockSize := other.blockSize,
             elementCount := other.elementCount, block := some h.cells.length } ∧
    (copy_ctor throwsAt sz h other).1.cells.length = h.cells.length + 1 ∧
    (∀ r, r ≠ some h.cells.length → load (copy_ctor throwsAt sz h other).1 r = load h r) ∧
    ∃ b, load (copy_ctor throwsAt sz h other).1 (some h.cells.length) = some b ∧
      b.length = other.blockSize ∧
      ∀ k, k < other.elementCount → b[k]? = some (slot h other.block k) := by
  have hfresh : other.block ≠ some h.cells.length :=
    owns_ne_fresh { heap := h, self := other } hc.1
  have hle : other.elementCount ≤ other.blockSize := hc.2
  have hloop := copy_loop_ok throwsAt other.block (some h.cells.length)
    other.elementCount 0 (alloc h other.blockSize).1
    (fun k _ hk => hok k (by omega))
  have hres : copy_ctor throwsAt sz h other =
      (forLoop (fun k g => construct_from g (some h.cells.length) k other.block k)
          other.elementCount 0 (alloc h other.blockSize).1,
        some { totalMemoryInUse := other.blockSize * sz, blockSize := other.blockSize,
               elementCount := other.elementCount, block := some h.cells.length }) := by
    simp only [copy_ctor, if_neg hbs, alloc_snd, hloop, Bool.false_eq_true, if_false]
  rw [hres]
  have hslot : ∀ k, slot (alloc h other.blockSize).1 other.block k = slot h other.block k := by
    intro k
    apply slot_congr
    rw [load_alloc, if_neg hfresh]
  refine ⟨rfl, ?_, ?_, ?_⟩
  · simp only
    rw [cells_length_forLoop _ (fun i h => by simp), cells_length_alloc]
  · intro r hr
    simp only
    rw [load_copy_loop other.block (some h.cells.length) hfresh, if_neg hr, load_alloc,
      if_neg hr]
  · refine ⟨forLoop (fun k bd =>
        match slot (alloc h other.blockSize).1 other.block k with
        | some x => bd.set k (some x)
        | none => bd) other.elementCount 0 (List.replicate other.blockSize none), ?_, ?_, ?_⟩
    · simp only
      rw [load_copy_loop other.block (some h.cells.length) hfresh, if_pos rfl, load_alloc,
        if_pos rfl]
      rfl
    · rw [length_forLoop List.length]
      · simp
      · intro i b; split <;> simp
    · intro k hk
      rw [getElem?_forLoop_fill (fun k => slot (alloc h other.blockSize).1 other.block k)]
      simp only [List.length_replicate, hslot]
      by_cases hs : (slot h other.block k).isSome = true
      · rw [if_pos ⟨by omega, by omega, by omega, hs⟩]
      · rw [if_neg (fun hh => hs hh.2.2.2)]
        simp only [Bool.not_eq_true, Option.not_isSome, Option.isNone_iff_eq_none] at hs
        have hkb : k < other.blockSize := by omega
        simp [hs, List.getElem?_replicate, hkb]

/-- Calls on a container leave alone every allocated block that the container does not
point to. -/
theorem runOps_frame (sz : Nat) (a : Nat) :
    ∀ (os : List (Op α)) (s : State α), Below s → some a ≠ s.self.block →
      a < s.heap.cells.length →
      load (runOps sz os s).heap (some a) = load s.heap (some a) := by
  intro os
  induction os with
  | nil => intro s _ _ _; rfl
  | cons o os ih =>
    intro s hb hne hlt
    obtain ⟨⟨f1, f2, f3⟩, hb2⟩ := run_within sz o s hb
    simp only [runOps]
    rw [ih (o.run sz s) hb2 ?_ (by omega), f2 a hlt hne]
    intro e
    rcases f3 a e.symm with h1 | h1
    · exact hne h1.symm
    · omega

theorem elements_of_load (h h2 : Heap α) (v : vector) (hl : load h2 v.block = load h v.block) :
    elements { heap := h2, self := v } = elements { heap := h, self := v } := by
  simp only [elements, contents, hl]

theorem owns_block_lt (s : State α) (ho : Owns s) (a : Nat) (ha : s.self.block = some a) :
    a < s.heap.cells.length := by
  unfold Owns at ho
  rw [ha] at ho
  simp only at ho
  cases hl : load s.heap (some a) with
  | none => simp [hl] at ho
  | some b => exact load_lt _ _ _ hl

/-- Copy construction when no element copy throws. -/
theorem copy_ctor_spec (throwsAt : Nat → Bool) (sz : Nat) (h : Heap α) (other : vector)
    (hc : Container { heap := h, self := other })
    (hok : ∀ i, i < other.elementCount → throwsAt i = false) :
    ∃ c, (copy_ctor throwsAt sz h other).2 = some c ∧
      c.elementCount = other.elementCount ∧ c.blockSize = other.blockSize ∧
      (∀ i, i < other.elementCount →
        slot (copy_ctor throwsAt sz h other).1 c.block i = slot h other.block i) ∧
      (∀ r, (∃ b, load h r = some b) → load (copy_ctor throwsAt sz h other).1 r = load h r) ∧
      h.cells.length ≤ (copy_ctor throwsAt sz h other).1.cells.length ∧
      Below { heap := (copy_ctor throwsAt sz h other).1, self := c } ∧
      (∀ a, c.block = some a → h.cells.length ≤ a) := by
  by_cases hbs : other.blockSize = 0
  · have hres : copy_ctor throwsAt sz h other =
        (h, some { totalMemoryInUse := 0, blockSize := 0, elementCount := 0,
                   block := none }) := by
      simp only [copy_ctor, if_pos hbs]
    have hec : other.elementCount = 0 := by
      have : other.elementCount ≤ other.blockSize := hc.2
      omega
    rw [hres]
    refine ⟨_, rfl, hec.symm, hbs.symm, ?_, fun _ _ => rfl, le_refl _, ?_, ?_⟩
    · intro i hi; omega
    · intro a ha; exact absurd ha (by simp)
    · intro a ha; exact absurd ha (by simp)
  · obtain ⟨h1, h2, h3, b, hb, _, hlow⟩ := copy_ctor_ok throwsAt sz h other hc hok hbs
    refine ⟨_, h1, rfl, rfl, ?_, ?_, by omega, ?_, ?_⟩
    · intro i hi
      rw [slot_of_load _ _ i b hb, hlow i hi]
      rfl
    · intro r hr
      apply h3
      intro e
      obtain ⟨b2, hb2⟩ := hr
      rw [e] at hb2
      exact absurd (load_lt _ _ _ hb2) (lt_irrefl _)
    · intro a ha
      simp only [Option.some.injEq] at ha
      simp only [h2]
      omega
    · intro a ha
      simp only [Option.some.injEq] at ha
      omega

end copy_lemmas

/-! ## `pop_back` -/

section pop_back_lemmas

variable {α : Type}

theorem pop_back_empty (s : State α) (h0 : s.self.elementCount = 0) : pop_back s = s := by
  simp only [pop_back, if_pos h0]

theorem contents_pop_back (s : State α) (h0 : s.self.elementCount ≠ 0) :
    contents (pop_back s) = (contents s).set (s.self.elementCount - 1) none := by
  simp only [pop_back, if_neg h0, contents, load_destroy_at, if_true]
  cases load s.heap s.self.block <;> simp

theorem elements_pop_back (s : State α) (hc : Container s) (h0 : s.self.elementCount ≠ 0) :
    elements (pop_back s) = (elements s).dropLast := by
  have hlen := owns_length_contents s hc.1
  have hle := hc.2
  have hec : (pop_back s).self.elementCount = s.self.elementCount - 1 := by
    simp only [pop_back, if_neg h0]
  unfold elements
  rw [hec, contents_pop_back s h0, List.dropLast_eq_take, List.length_take]
  apply List.ext_getElem?
  intro k
  simp only [List.getElem?_take, List.getElem?_set]
  split_ifs <;> first | rfl | omega

end pop_back_lemmas

/-! ## `grow_if_needed` in `size_t` arithmetic -/

section grow_lemmas

variable {α : Type}

theorem grownCapacity64_eq (c : Nat) (hno : c + c / 2 < 2 ^ 64) :
    grownCapacity64 c = grownCapacity c := by
  unfold grownCapacity64 grownCapacity
  rw [Nat.mod_eq_of_lt hno]
  by_cases h1 : (if c ≠ 0 then c + c / 2 else 1) = c
  · rw [if_pos h1, if_pos h1]
    apply Nat.mod_eq_of_lt
    split_ifs at h1 <;> omega
  · rw [if_neg h1, if_neg h1]

end grow_lemmas

/-! ## Move construction and move assignment -/

section move_lemmas

variable {α : Type}

theorem load_clear (s : State α) (r : Ptr) (hr : r = none ∨ r ≠ s.self.block) :
    load (clear s).heap r = load s.heap r := by
  rcases hr with hr | hr
  · rw [hr]; rfl
  · have hw : Within s.self.block s.heap (clear s).heap :=
      within_trans _ _ _ _
        (within_forLoop _ _ (fun i h => within_destroy_at _ _ _) _ _ _) (within_dealloc _ _)
    exact hw.2 r hr

theorem move_assign_spec (k j : Nat) (w : World α) (b a : vector)
    (hk : w.objs[k]? = some b) (hj : w.objs[j]? = some a) (hkj : k ≠ j)
    (hsep : Separate a b) :
    (move_assign k j w).objs[k]? = some a ∧
    (move_assign k j w).objs[j]? =
      some { totalMemoryInUse := 0, blockSize := 0, elementCount := 0, block := none } ∧
    load (move_assign k j w).heap a.block = load w.heap a.block := by
  have hklt : k < w.objs.length := by
    by_contra hlt
    rw [List.getElem?_eq_none (by omega)] at hk
    exact absurd hk (by simp)
  have hjlt : j < w.objs.length := by
    by_contra hlt
    rw [List.getElem?_eq_none (by omega)] at hj
    exact absurd hj (by simp)
  have hjk : ¬ j = k := fun e => hkj e.symm
  simp only [move_assign, hk, hj, if_neg hkj]
  refine ⟨?_, ?_, ?_⟩
  · simp [List.getElem?_set, hjk, hklt]
  · simp [List.getElem?_set, hjlt]
  · exact load_clear { heap := w.heap, self := b } a.block hsep

end move_lemmas

/-! ## The event log -/

section log_lemmas

variable {α : Type}

@[simp] theorem log_record (h : Heap α) (e : Event) : (record h e).log = h.log ++ [e] := rfl

@[simp] theorem log_modify (h : Heap α) (p : Ptr) (f : Block α → Block α) :
    (modify h p f).log = h.log := by
  cases p with
  | none => rfl
  | some a =>
    simp only [modify]
    split <;> rfl

@[simp] theorem log_alloc (h : Heap α) (n : Nat) : (alloc h n).1.log = h.log := rfl

theorem isRaw_congr (h h2 : Heap α) (p q : Ptr) (i : Nat) (hl : load h p = load h2 q) :
    isRaw h p i = isRaw h2 q i := by
  simp [isRaw, hl]

theorem isRaw_of_load (h : Heap α) (p : Ptr) (i : Nat) (b : Block α)
    (hb : load h p = some b) (hi : b[i]? = some none) : isRaw h p i = true := by
  simp [isRaw, hb, hi]

theorem log_construct_at (h : Heap α) (p : Ptr) (i : Nat) (x : α) :
    (construct_at h p i x).log = h.log ++ [Event.construct p i (isRaw h p i)] := by
  simp [construct_at]

theorem log_destroy_at (h : Heap α) (p : Ptr) (i : Nat) :
    (destroy_at h p i).log = h.log ++ [Event.destroy p i (slot h p i).isSome] := by
  simp [destroy_at]

theorem log_dealloc (h : Heap α) (p : Ptr) (hp : p = none ∨ (load h p).isSome = true) :
    (dealloc h p).log = h.log ++ [Event.release p true] := by
  cases p with
  | none => rfl
  | some a =>
    rcases hp with hp | hp
    · exact absurd hp (by simp)
    · simp [dealloc, hp]

theorem log_construct_from (h : Heap α) (dst : Ptr) (i : Nat) (src : Ptr) (j : Nat)
    (hs : (slot h src j).isSome = true) :
    (construct_from h dst i src j).log =
      h.log ++ [Event.access src j true, Event.construct dst i (isRaw h dst i)] := by
  unfold construct_from
  cases hx : slot h src j with
  | none => rw [hx] at hs; exact absurd hs (by simp)
  | some x =>
    simp only [log_construct_at, log_record, List.append_assoc, List.singleton_append]
    rw [isRaw_congr (record h (Event.access src j true)) h dst dst i (load_record _ _ _)]

/-- The events of a copying loop that constructs slots `k0, ..., k0 + n - 1` of `dst`
from constructed slots of another block `src` into raw slots. -/
theorem log_copy_loop (src dst : Ptr) (hne : src ≠ dst) :
    ∀ (n k0 : Nat) (g : Heap α),
      (∀ k, k0 ≤ k → k < k0 + n → (slot g src k).isSome = true) →
      (∀ k, k0 ≤ k → k < k0 + n → isRaw g dst k = true) →
      (forLoop (fun k h => construct_from h dst k src k) n k0 g).log =
        g.log ++ (List.range' k0 n).flatMap (fun k =>
          [Event.access src k true, Event.construct dst k true]) := by
  intro n
  induction n with
  | zero => intro k0 g _ _; simp [forLoop]
  | succ n ih =>
    intro k0 g hs hr
    simp only [forLoop]
    have hsrc : ∀ k, slot (construct_from g dst k0 src k0) src k = slot g src k := by
      intro k
      apply slot_congr
      rw [load_construct_from, if_neg hne]
    have hdst : ∀ k, k0 + 1 ≤ k →
        isRaw (construct_from g dst k0 src k0) dst k = isRaw g dst k := by
      intro k hk
      unfold isRaw
      rw [load_construct_from, if_pos rfl]
      cases load g dst with
      | none => rfl
      | some b =>
        have hk0 : ¬ k0 = k := by omega
        have hget : (match slot g src k0 with
            | some x => b.set k0 (some x)
            | none => b)[k]? = b[k]? := by
          cases slot g src k0 <;> simp [List.getElem?_set, hk0]
        simp only [Option.map_some']
        rw [hget]
    rw [ih (k0 + 1) _ (fun k hk hk2 => by rw [hsrc]; exact hs k (by omega) (by omega))
      (fun k hk hk2 => by rw [hdst k hk]; exact hr k (by omega) (by omega))]
    rw [log_construct_from g dst k0 src k0 (hs k0 (le_refl _) (by omega)),
      hr k0 (le_refl _) (by omega)]
    simp [List.range'_succ, List.flatMap_cons]

/-- The events of a loop that destructs the constructed slots `k0, ..., k0 + n - 1`. -/
theorem log_destroy_loop (p : Ptr) :
    ∀ (n k0 : Nat) (g : Heap α),
      (∀ k, k0 ≤ k → k < k0 + n → (slot g p k).isSome = true) →
      (forLoop (fun j h => destroy_at h p j) n k0 g).log =
        g.log ++ (List.range' k0 n).map (fun k => Event.destroy p k true) := by
  intro n
  induction n with
  | zero => intro k0 g _; simp [forLoop]
  | succ n ih =>
    intro k0 g hs
    simp only [forLoop]
    have hnext : ∀ k, k0 + 1 ≤ k → slot (destroy_at g p k0) p k = slot g p k := by
      intro k hk
      unfold slot
      rw [load_destroy_at, if_pos rfl]
      cases load g p with
      | none => rfl
      | some b =>
        have hk0 : ¬ k0 = k := by omega
        simp [List.getElem?_set, hk0]
    rw [ih (k0 + 1) _ (fun k hk hk2 => by rw [hnext k hk]; exact hs k (by omega) (by omega))]
    rw [log_destroy_at, hs k0 (le_refl _) (by omega)]
    simp [List.range'_succ]

end log_lemmas

/-! ## Copy construction with a throwing element copy -/

section copy_failure_lemmas

variable {α : Type}

/-- When the copy of element `i` is the first to throw, the loop of the copy constructor
is left at `i` by the exception. -/
theorem copy_loop_fail (throwsAt : Nat → Bool) (src dst : Ptr) (i : Nat)
    (hthrow : throwsAt i = true) :
    ∀ (n k0 : Nat) (g : Heap α), (∀ k, k0 ≤ k → k < i → throwsAt k = false) →
      k0 ≤ i → i < k0 + n →
      copy_loop throwsAt src dst n k0 g =
        (forLoop (fun k h => construct_from h dst k src k) (i - k0) k0 g, i, true) := by
  intro n
  induction n with
  | zero => intro k0 g _ h1 h2; omega
  | succ n ih =>
    intro k0 g hok h1 h2
    by_cases hk : k0 = i
    · subst hk
      simp [copy_loop, hthrow, forLoop]
    · have hlt : k0 < i := by omega
      have hsub : i - k0 = (i - (k0 + 1)) + 1 := by omega
      simp only [copy_loop, hok k0 (le_refl _) hlt, Bool.false_eq_true, if_false]
      rw [ih (k0 + 1) _ (fun k hk1 hk2 => hok k (by omega) hk2) (by omega) (by omega), hsub]
      simp only [forLoop]

theorem copy_ctor_fails (throwsAt : Nat → Bool) (sz : Nat) (h : Heap α) (other : vector)
    (hc : Container { heap := h, self := other })
    (hlive : Constructed { heap := h, self := other })
    (i : Nat) (hi : i < other.elementCount) (hthrow : throwsAt i = true)
    (hok : ∀ k, k < i → throwsAt k = false) :
    (copy_ctor throwsAt sz h other).2 = none ∧
    (copy_ctor throwsAt sz h other).1.log =
      h.log ++ copyFailureEvents other.block (some h.cells.length) i ∧
    load (copy_ctor throwsAt sz h other).1 (some h.cells.length) = none ∧
    (∀ r, r ≠ some h.cells.length → load (copy_ctor throwsAt sz h other).1 r = load h r) := by
  have hfresh : other.block ≠ some h.cells.length :=
    owns_ne_fresh { heap := h, self := other } hc.1
  have hle : other.elementCount ≤ other.blockSize := hc.2
  have hbs : other.blockSize ≠ 0 := by omega
  have hloop := copy_loop_fail throwsAt other.block (some h.cells.length) i hthrow
    other.elementCount 0 (alloc h other.blockSize).1 (fun k _ hk => hok k hk)
    (Nat.zero_le _) (by omega)
  have hres : copy_ctor throwsAt sz h other =
      (dealloc (forLoop (fun j g => destroy_at g (some h.cells.length) j) i 0
          (forLoop (fun k g => construct_from g (some h.cells.length) k other.block k)
            i 0 (alloc h other.blockSize).1)) (some h.cells.length), none) := by
    simp only [copy_ctor, if_neg hbs, alloc_snd, hloop, if_true, Nat.sub_zero]
  rw [hres]
  have hslot : ∀ k, slot (alloc h other.blockSize).1 other.block k = slot h other.block k := by
    intro k
    apply slot_congr
    rw [load_alloc, if_neg hfresh]
  have hlive2 : ∀ k, k < other.elementCount → (slot h other.block k).isSome = true := hlive
  -- the new block after the copying loop
  have hnew : ∀ k, k < i →
      (slot (forLoop (fun k g => construct_from g (some h.cells.length) k other.block k)
        i 0 (alloc h other.blockSize).1) (some h.cells.length) k).isSome = true := by
    intro k hk
    unfold slot
    rw [load_copy_loop other.block (some h.cells.length) hfresh, if_pos rfl, load_alloc,
      if_pos rfl]
    simp only [Option.map_some']
    rw [getElem?_forLoop_fill (fun k => slot (alloc h other.blockSize).1 other.block k)]
    simp only [List.length_replicate, hslot]
    rw [if_pos ⟨Nat.zero_le _, by omega, by omega, hlive2 k (by omega)⟩]
    exact hlive2 k (by omega)
  have hlog1 := log_copy_loop other.block (some h.cells.length) hfresh i 0
    (alloc h other.blockSize).1
    (fun k _ hk => by rw [hslot]; exact hlive2 k (by omega))
    (fun k _ hk => isRaw_of_load _ _ k (List.replicate other.blockSize none)
      (by rw [load_alloc, if_pos rfl])
      (by rw [List.getElem?_replicate, if_pos (by omega)]))
  have hlog2 := log_destroy_loop (some h.cells.length) i 0 _ (fun k _ hk => hnew k (by omega))
  have hw : Within (some h.cells.length)
      (forLoop (fun k g => construct_from g (some h.cells.length) k other.block k)
        i 0 (alloc h other.blockSize).1)
      (forLoop (fun j g => destroy_at g (some h.cells.length) j) i 0
        (forLoop (fun k g => construct_from g (some h.cells.length) k other.block k)
          i 0 (alloc h other.blockSize).1)) :=
    within_forLoop _ _ (fun j g => within_destroy_at _ _ _) _ _ _
  have hsome : (load (forLoop (fun j g => destroy_at g (some h.cells.length) j) i 0
      (forLoop (fun k g => construct_from g (some h.cells.length) k other.block k)
        i 0 (alloc h other.blockSize).1)) (some h.cells.length)).isSome = true := by
    rw [load_forLoop_block (some h.cells.length) _ (fun j b => b.set j none)
      (fun j g r => load_destroy_at g _ r j), if_pos rfl,
      load_copy_loop other.block (some h.cells.length) hfresh, if_pos rfl, load_alloc,
      if_pos rfl]
    rfl
  refine ⟨rfl, ?_, ?_, ?_⟩
  · simp only
    rw [log_dealloc _ _ (Or.inr hsome), hlog2, hlog1, log_alloc]
    simp [copyFailureEvents, List.range_eq_range']
  · simp only
    rw [load_dealloc, if_pos rfl]
  · intro r hr
    simp only
    rw [load_dealloc, if_neg hr, hw.2 r hr,
      load_copy_loop other.block (some h.cells.length) hfresh, if_neg hr, load_alloc,
      if_neg hr]

end copy_failure_lemmas

/-! ## `reverse` -/

section reverse_lemmas

variable {α : Type}

/-- Swapping two constructed slots. -/
theorem getElem?_blockSwap (b : Block α) (i j k : Nat)
    (hi : ((b[i]?).join).isSome = true) (hj : ((b[j]?).join).isSome = true) :
    (blockSwap b i j)[k]? = if k = j then b[i]? else if k = i then b[j]? else b[k]? := by
  cases hbi : b[i]? with
  | none => rw [hbi] at hi; exact absurd hi (by simp)
  | some vi =>
    cases vi with
    | none => rw [hbi] at hi; exact absurd hi (by simp)
    | some x =>
      cases hbj : b[j]? with
      | none => rw [hbj] at hj; exact absurd hj (by simp)
      | some vj =>
        cases vj with
        | none => rw [hbj] at hj; exact absurd hj (by simp)
        | some y =>
          have hil : i < b.length := by
            by_contra hlt
            rw [List.getElem?_eq_none (by omega)] at hbi
            exact absurd hbi (by simp)
          have hjl : j < b.length := by
            by_contra hlt
            rw [List.getElem?_eq_none (by omega)] at hbj
            exact absurd hbj (by simp)
          have hb : blockSwap b i j = (b.set i (some y)).set j (some x) := by
            simp [blockSwap, hbi, hbj]
          rw [hb]
          simp only [List.getElem?_set, List.length_set]
          by_cases hkj : k = j
          · subst hkj; simp [hjl]
          · have hjk : ¬ j = k := fun e => hkj e.symm
            rw [if_neg hjk, if_neg hkj]
            by_cases hki : k = i
            · subst hki; simp [hil]
            · have hik : ¬ i = k := fun e => hki e.symm
              rw [if_neg hik, if_neg hki]

theorem load_reverse_loop (p : Ptr) :
    ∀ (fuel left right : Nat) (h : Heap α) (r : Ptr),
      load (reverse_loop p fuel left right h) r =
        if r = p then (load h p).map (blockReverse fuel left right) else load h r := by
  intro fuel
  induction fuel with
  | zero =>
    intro left right h r
    simp only [reverse_loop, blockReverse]
    split_ifs with hr
    · subst hr; cases load h r <;> rfl
    · rfl
  | succ fuel ih =>
    intro left right h r
    simp only [reverse_loop, blockReverse]
    by_cases hlr : left < right
    · simp only [if_pos hlr]
      rw [ih]
      by_cases hr : r = p
      · subst hr
        simp only [if_true, load_swap_slots]
        cases load h r <;> simp
      · simp only [hr, if_false, load_swap_slots]
    · simp only [if_neg hlr]
      split_ifs with hr
      · subst hr; cases load h r <;> simp
      · rfl

/-- The loop of `reverse` on constructed slots `left, ..., right`, with enough fuel. -/
theorem getElem?_blockReverse :
    ∀ (fuel left right : Nat) (b : Block α),
      (∀ k, left ≤ k → k ≤ right → ((b[k]?).join).isSome = true) →
      right + 1 ≤ left + 2 * fuel → ∀ k,
      (blockReverse fuel left right b)[k]? =
        if left ≤ k ∧ k ≤ right then b[left + right - k]? else b[k]? := by
  intro fuel
  induction fuel with
  | zero =>
    intro left right b _ hfuel k
    simp only [blockReverse]
    rw [if_neg (by omega)]
  | succ fuel ih =>
    intro left right b hlive hfuel k
    simp only [blockReverse]
    by_cases hlr : left < right
    · simp only [if_pos hlr]
      have hsw : ∀ m, (blockSwap b left right)[m]? =
          if m = right then b[left]? else if m = left then b[right]? else b[m]? :=
        fun m => getElem?_blockSwap b left right m (hlive left (le_refl _) (by omega))
          (hlive right (by omega) (le_refl _))
      rw [ih (left + 1) (right - 1) _ ?_ (by omega) k]
      · simp only [hsw]
        split_ifs <;> first | rfl | omega | (congr 1; omega)
      · intro m hm1 hm2
        rw [hsw, if_neg (by omega), if_neg (by omega)]
        exact hlive m (by omega) (by omega)
    · simp only [if_neg hlr]
      split_ifs with hk
      · congr 1; omega
      · rfl

theorem constructed_contents (s : State α) (hlive : Constructed s) (k : Nat)
    (hk : k < s.self.elementCount) : (((contents s)[k]?).join).isSome = true := by
  rw [← slot_eq_contents]
  exact hlive k hk

theorem contents_reverse (s : State α) (hc : Container s)
    (h1 : ¬ s.self.elementCount ≤ 1) :
    contents (reverse s) =
      blockReverse s.self.elementCount 0 (s.self.elementCount - 1) (contents s) := by
  obtain ⟨b, hb, _⟩ := owns_load_eq s hc.1 (by have := hc.2; omega)
  simp only [reverse, if_neg h1, contents, load_reverse_loop, if_true, hb]
  rfl

theorem elements_reverse (s : State α) (hc : Container s) (hlive : Constructed s) :
    elements (reverse s) = (elements s).reverse := by
  by_cases h1 : s.self.elementCount ≤ 1
  · have hr : reverse s = s := by simp only [reverse, if_pos h1]
    rw [hr]
    have hlen : (elements s).length ≤ 1 := by
      unfold elements
      rw [List.length_take]
      omega
    match hl : elements s with
    | [] => rfl
    | [_] => rfl
    | _ :: _ :: _ => rw [hl] at hlen; simp at hlen
  · have hlen := owns_length_contents s hc.1
    have hle := hc.2
    have hec : (reverse s).self.elementCount = s.self.elementCount := by
      simp only [reverse, if_neg h1]
    unfold elements
    rw [hec, contents_reverse s hc h1]
    apply List.ext_getElem?
    intro k
    by_cases hk : k < s.self.elementCount
    · rw [List.getElem?_reverse (by rw [List.length_take]; omega), List.length_take,
        List.getElem?_take, List.getElem?_take, if_pos hk, if_pos (by omega),
        getElem?_blockReverse _ _ _ _
          (fun m _ hm => constructed_contents s hlive m (by omega)) (by omega),
        if_pos ⟨Nat.zero_le _, by omega⟩]
      congr 1
      omega
    · rw [List.getElem?_take, if_neg hk, List.getElem?_eq_none]
      rw [List.length_reverse, List.length_take]
      omega

end reverse_lemmas

/-! ## Reading elements -/

section read_lemmas

variable {α : Type}

theorem at_eq_elements (s : State α) (i : Nat) (hi : i < s.self.elementCount) :
    at_ s i = ((elements s)[i]?).join := by
  unfold at_ elements
  rw [slot_eq_contents, List.getElem?_take, if_pos hi]

theorem reverse_self (s : State α) : (reverse s).self = s.self := by
  unfold reverse
  split_ifs <;> rfl

theorem shuffle_self (rng : Nat → Nat) (s : State α) : (shuffle rng s).self = s.self := by
  unfold shuffle
  split_ifs <;> rfl

end read_lemmas

/-! ## `shuffle` -/

section shuffle_lemmas

variable {α : Type}

/-- Exchanging the entries at two positions of a list permutes it. -/
theorem set_set_perm {β : Type} (l : List β) (i j : Nat) (x y : β)
    (hi : l[i]? = some x) (hj : l[j]? = some y) :
    ((l.set i y).set j x).Perm l := by
  classical
  have hil : i < l.length := by
    by_contra hlt
    rw [List.getElem?_eq_none (by omega)] at hi
    exact absurd hi (by simp)
  have hjl : j < l.length := by
    by_contra hlt
    rw [List.getElem?_eq_none (by omega)] at hj
    exact absurd hj (by simp)
  have hxi : l[i] = x := by
    rw [List.getElem?_eq_getElem hil] at hi; exact Option.some.inj hi
  have hyj : l[j] = y := by
    rw [List.getElem?_eq_getElem hjl] at hj; exact Option.some.inj hj
  rw [List.perm_iff_count]
  intro c
  have hjl2 : j < (l.set i y).length := by simpa using hjl
  rw [List.count_set _ _ _ _ hjl2, List.count_set _ _ _ _ hil]
  have hget : (l.set i y)[j] = y := by
    rw [List.getElem_set]
    split_ifs with h
    · rfl
    · exact hyj
  rw [hget, hxi]
  have hx : (if (x == c) = true then 1 else 0) ≤ List.count c l := by
    split_ifs with h
    · have : x = c := by simpa using h
      subst this
      exact List.count_pos_iff.mpr (List.getElem?_mem hi)
    · exact Nat.zero_le _
  omega

theorem blockSwap_perm (b : Block α) (i j : Nat) : (blockSwap b i j).Perm b := by
  unfold blockSwap
  split
  · rename_i x y hx hy
    have hi : b[i]? = some (some x) := by
      cases hb : b[i]? with
      | none => rw [hb] at hx; simp at hx
      | some v => rw [hb] at hx; simp at hx; rw [hx]
    have hj : b[j]? = some (some y) := by
      cases hb : b[j]? with
      | none => rw [hb] at hy; simp at hy
      | some v => rw [hb] at hy; simp at hy; rw [hy]
    exact set_set_perm b i j (some x) (some y) hi hj
  · exact List.Perm.refl _

theorem take_blockSwap (b : Block α) (n i j : Nat) (hi : i < n) (hj : j < n) :
    (blockSwap b i j).take n = blockSwap (b.take n) i j := by
  have hgi : (b.take n)[i]? = b[i]? := by rw [List.getElem?_take, if_pos hi]
  have hgj : (b.take n)[j]? = b[j]? := by rw [List.getElem?_take, if_pos hj]
  unfold blockSwap
  rw [hgi, hgj]
  split
  · apply List.ext_getElem?
    intro k
    simp only [List.getElem?_take, List.getElem?_set, List.length_set, List.length_take]
    split_ifs <;> first | rfl | omega
  · rfl

theorem take_blockShuffle_perm (rng : Nat → Nat) (n : Nat) :
    ∀ (i : Nat) (b : Block α), i < n → ((blockShuffle rng i b).take n).Perm (b.take n) := by
  intro i
  induction i with
  | zero => intro b _; exact List.Perm.refl _
  | succ i ih =>
    intro b hi
    simp only [blockShuffle]
    refine (ih _ (by omega)).trans ?_
    rw [take_blockSwap b n (i + 1) _ hi
      (lt_of_le_of_lt (Nat.lt_succ_iff.mp (Nat.mod_lt _ (Nat.succ_pos _))) hi)]
    exact blockSwap_perm _ _ _

/-- The loop of `shuffle`, written with the counter `k = elementCount - 1 - i`, is the
loop on `i` from `elementCount - 1` down to 1. -/
theorem forLoop_blockShuffle (rng : Nat → Nat) (n : Nat) :
    ∀ (cnt k : Nat) (b : Block α), k + cnt = n - 1 →
      forLoop (fun k b => blockSwap b (n - 1 - k) (rng (n - 1 - k) % (n - 1 - k + 1)))
        cnt k b = blockShuffle rng cnt b := by
  intro cnt
  induction cnt with
  | zero => intro k b _; rfl
  | succ cnt ih =>
    intro k b hk
    simp only [forLoop, blockShuffle]
    rw [ih (k + 1) _ (by omega)]
    have e : n - 1 - k = cnt + 1 := by omega
    rw [e]

theorem load_shuffle (rng : Nat → Nat) (s : State α) (h1 : ¬ s.self.elementCount ≤ 1)
    (r : Ptr) :
    load (shuffle rng s).heap r =
      if r = s.self.block then
        (load s.heap s.self.block).map (blockShuffle rng (s.self.elementCount - 1))
      else load s.heap r := by
  simp only [shuffle, if_neg h1]
  rw [load_forLoop_block s.self.block _
    (fun k b => blockSwap b (s.self.elementCount - 1 - k)
      (rng (s.self.elementCount - 1 - k) % (s.self.elementCount - 1 - k + 1)))
    (fun k h r => load_swap_slots h _ r _ _)]
  have hfun : forLoop (fun k (b : Block α) => blockSwap b (s.self.elementCount - 1 - k)
        (rng (s.self.elementCount - 1 - k) % (s.self.elementCount - 1 - k + 1)))
      (s.self.elementCount - 1) 0 = blockShuffle rng (s.self.elementCount - 1) :=
    funext (fun b => forLoop_blockShuffle rng s.self.elementCount
      (s.self.elementCount - 1) 0 b (by omega))
  rw [hfun]

theorem elements_shuffle_perm (rng : Nat → Nat) (s : State α) :
    (elements (shuffle rng s)).Perm (elements s) := by
  by_cases h1 : s.self.elementCount ≤ 1
  · have hr : shuffle rng s = s := by simp only [shuffle, if_pos h1]
    rw [hr]
  · unfold elements contents
    rw [shuffle_self, load_shuffle rng s h1, if_pos rfl]
    cases load s.heap s.self.block with
    | none => exact List.Perm.refl _
    | some b =>
      exact take_blockShuffle_perm rng s.self.elementCount _ b (by omega)

end shuffle_lemmas

/-! ## The number of reallocations -/

section growth_lemmas

variable {α : Type}

theorem pow_two_le_pow_three (L d : Nat) : 2 ^ (2 * L + d + L) ≤ 3 ^ (2 * L + d) := by
  have h1 : 2 ^ (2 * L + d + L) = 8 ^ L * 2 ^ d := by
    have : (8 : Nat) = 2 ^ 3 := by norm_num
    rw [this, ← pow_mul, ← pow_add]
    congr 1
    omega
  have h2 : 3 ^ (2 * L + d) = 9 ^ L * 3 ^ d := by
    have : (9 : Nat) = 3 ^ 2 := by norm_num
    rw [this, ← pow_mul, ← pow_add]
  rw [h1, h2]
  exact Nat.mul_le_mul (Nat.pow_le_pow_left (by norm_num) L)
    (Nat.pow_le_pow_left (by norm_num) d)

theorem growthInv_bound (R N c : Nat) (hinv : GrowthInv R N c) : R ≤ 2 * Nat.log 2 N := by
  obtain ⟨hc, _, hpow, hfill⟩ := hinv
  rcases hfill with h0 | hfill
  · omega
  · by_contra hcontra
    obtain ⟨d, hd⟩ : ∃ d, R = 2 * Nat.log 2 N + d := ⟨R - 2 * Nat.log 2 N, by omega⟩
    have hN : N < 2 ^ (Nat.log 2 N + 1) := Nat.lt_pow_succ_log_self (by norm_num) N
    have hBP : 2 ^ (R + Nat.log 2 N) ≤ 3 ^ R := by
      rw [hd]; exact pow_two_le_pow_three _ _
    have hB : 1 ≤ 2 ^ R := Nat.one_le_two_pow
    rw [pow_add] at hBP
    rw [pow_succ] at hpow hN
    generalize 2 ^ R = B at *
    generalize 3 ^ R = A at *
    generalize 2 ^ Nat.log 2 N = P at *
    have h1 : B * (c - 1) * 2 ≤ B * (3 * N - 2) := by
      rw [Nat.mul_assoc]
      exact Nat.mul_le_mul_left B (by omega)
    have h2 : B * (3 * N - 2) + 5 * B ≤ B * (6 * P) := by
      have : 3 * N - 2 + 5 ≤ 6 * P := by omega
      calc B * (3 * N - 2) + 5 * B = B * (3 * N - 2 + 5) := by ring
        _ ≤ B * (6 * P) := Nat.mul_le_mul_left B this
    nlinarith

theorem reserve_elementCount (sz n : Nat) (s : State α) :
    (reserve sz n s).self.elementCount = s.self.elementCount := by
  by_cases hn : n ≤ s.self.blockSize
  · simp only [reserve, if_pos hn]
  · simp only [reserve, if_neg hn]

theorem grow_if_needed_elementCount (sz : Nat) (s : State α) :
    (grow_if_needed sz s).self.elementCount = s.self.elementCount := by
  by_cases hfull : s.self.elementCount ≥ s.self.blockSize
  · rw [grow_if_needed_full sz s hfull, reserve_elementCount]
  · rw [grow_if_needed_room sz s (by omega)]

theorem push_back_elementCount (sz : Nat) (x : Ref α α) (s : State α) :
    (push_back sz x s).self.elementCount = s.self.elementCount + 1 := by
  show (grow_if_needed sz s).self.elementCount + 1 = s.self.elementCount + 1
  rw [grow_if_needed_elementCount]

theorem growthInv_push_back (sz : Nat) (x : Ref α α) (s : State α) (R : Nat)
    (hinv : GrowthInv R s.self.elementCount s.self.blockSize) :
    GrowthInv
      (R + if (push_back sz x s).self.blockSize ≠ s.self.blockSize then 1 else 0)
      (push_back sz x s).self.elementCount (push_back sz x s).self.blockSize := by
  obtain ⟨hc, hle, hpow, hfill⟩ := hinv
  rw [push_back_elementCount, push_back_blockSize sz x s hle]
  by_cases hroom : s.self.elementCount < s.self.blockSize
  · have hp : policyCapacity s.self.elementCount s.self.blockSize = s.self.blockSize := by
      unfold policyCapacity
      rw [if_pos hroom]
    rw [hp, if_neg (by simp), Nat.add_zero]
    refine ⟨hc, by omega, hpow, ?_⟩
    rcases hfill with h | h
    · exact Or.inl h
    · exact Or.inr (by omega)
  · have hp : policyCapacity s.self.elementCount s.self.blockSize =
        s.self.blockSize + s.self.blockSize / 2 := by
      unfold policyCapacity
      split_ifs <;> omega
    rw [hp, if_pos (by omega)]
    refine ⟨by omega, by omega, ?_, Or.inr (by omega)⟩
    have h3 : 3 * (s.self.blockSize - 1) ≤
        2 * (s.self.blockSize + s.self.blockSize / 2 - 1) := by omega
    calc 3 ^ (R + 1 + 1) = 3 ^ (R + 1) * 3 := pow_succ _ _
      _ ≤ 2 ^ R * (s.self.blockSize - 1) * 3 := Nat.mul_le_mul_right 3 hpow
      _ = 2 ^ R * (3 * (s.self.blockSize - 1)) := by ring
      _ ≤ 2 ^ R * (2 * (s.self.blockSize + s.self.blockSize / 2 - 1)) :=
        Nat.mul_le_mul_left _ h3
      _ = 2 ^ (R + 1) * (s.self.blockSize + s.self.blockSize / 2 - 1) := by ring

theorem growthInv_reallocations (sz : Nat) (x : Nat → α) :
    ∀ (n i : Nat) (s : State α) (R : Nat),
      GrowthInv R s.self.elementCount s.self.blockSize →
      ∃ c, GrowthInv (R + reallocations sz x n i s) (s.self.elementCount + n) c := by
  intro n
  induction n with
  | zero => intro i s R hinv; exact ⟨s.self.blockSize, hinv⟩
  | succ n ih =>
    intro i s R hinv
    obtain ⟨c, hc⟩ := ih (i + 1) (push_back sz (Ref.object (x i)) s) _ (growthInv_push_back sz (Ref.object (x i)) s R hinv)
    refine ⟨c, ?_⟩
    rw [push_back_elementCount] at hc
    simp only [reallocations]
    have e1 : R + ((if (push_back sz (Ref.object (x i)) s).self.blockSize ≠ s.self.blockSize then 1 else 0) +
        reallocations sz x n (i + 1) (push_back sz (Ref.object (x i)) s)) =
        R + (if (push_back sz (Ref.object (x i)) s).self.blockSize ≠ s.self.blockSize then 1 else 0) +
        reallocations sz x n (i + 1) (push_back sz (Ref.object (x i)) s) := by omega
    have e2 : s.self.elementCount + (n + 1) = s.self.elementCount + 1 + n := by omega
    rw [e1, e2]
    exact hc

theorem reallocations_log (sz : Nat) (x : Nat → α) (h : Heap α) (N : Nat) :
    reallocations sz x N 0 (default_ctor sz h) ≤ 2 * Nat.log 2 N := by
  have h0 : GrowthInv 0 (default_ctor sz h).self.elementCount
      (default_ctor sz h).self.blockSize :=
    ⟨le_refl 4, Nat.zero_le _, (by decide : 3 ^ (0 + 1) ≤ 2 ^ 0 * (4 - 1)), Or.inl rfl⟩
  obtain ⟨c, hc⟩ := growthInv_reallocations sz x N 0 (default_ctor sz h) 0 h0
  have hb := growthInv_bound _ _ c hc
  have e : (default_ctor sz h).self.elementCount + N = N := Nat.zero_add N
  rw [e] at hb
  omega

theorem reallocations_first_four (sz : Nat) (x : Nat → α) (h : Heap α) :
    reallocations sz x 4 0 (default_ctor sz h) = 0 := rfl

end growth_lemmas

/-! ## `shuffle` as a bijection from draws to orders -/

section shuffle_bijection

variable {α : Type}


theorem getElem?_blockSwap_other (b : Block α) (i j k : Nat) (hi : k ≠ i) (hj : k ≠ j) :
    (blockSwap b i j)[k]? = b[k]? := by
  unfold blockSwap
  split
  · have h1 : ¬ j = k := fun e => hj e.symm
    have h2 : ¬ i = k := fun e => hi e.symm
    simp [List.getElem?_set, h1, h2]
  · rfl

theorem getElem?_blockShuffle_above (rng : Nat → Nat) :
    ∀ (i : Nat) (b : Block α) (k : Nat), i < k → (blockShuffle rng i b)[k]? = b[k]? := by
  intro i
  induction i with
  | zero => intro b k _; rfl
  | succ i ih =>
    intro b k hk
    simp only [blockShuffle]
    rw [ih _ k (by omega)]
    have hj : rng (i + 1) % (i + 1 + 1) < i + 1 + 1 := Nat.mod_lt _ (Nat.succ_pos _)
    exact getElem?_blockSwap_other b _ _ k (by omega) (by omega)

theorem blockShuffle_congr (rng1 rng2 : Nat → Nat) :
    ∀ (i : Nat) (b : Block α),
      (∀ t, 1 ≤ t → t ≤ i → rng1 t % (t + 1) = rng2 t % (t + 1)) →
      blockShuffle rng1 i b = blockShuffle rng2 i b := by
  intro i
  induction i with
  | zero => intro b _; rfl
  | succ i ih =>
    intro b h
    simp only [blockShuffle]
    rw [h (i + 1) (by omega) (le_refl _)]
    exact ih _ (fun t h1 h2 => h t h1 (by omega))

theorem shuffleReady_swap (m : Nat) (b : Block α) (i j : Nat) (hr : ShuffleReady m b)
    (hi : i < m) (hj : j < m) : ShuffleReady m (blockSwap b i j) := by
  obtain ⟨h1, h2, h3⟩ := hr
  refine ⟨by simpa using h1, ?_, ?_⟩
  · intro k hk
    rw [getElem?_blockSwap b i j k (h2 i hi) (h2 j hj)]
    split_ifs
    · exact h2 i hi
    · exact h2 j hj
    · exact h2 k hk
  · rw [take_blockSwap b m i j hi hj]
    exact ((blockSwap_perm _ i j).nodup_iff).mpr h3

theorem shuffleReady_pred (m : Nat) (b : Block α) (hr : ShuffleReady (m + 1) b) :
    ShuffleReady m b := by
  obtain ⟨h1, h2, h3⟩ := hr
  refine ⟨by omega, fun k hk => h2 k (by omega), ?_⟩
  have : b.take m = (b.take (m + 1)).take m := by
    rw [List.take_take]; congr 1; omega
  rw [this]
  exact h3.sublist (List.take_sublist _ _)

theorem shuffleReady_inj (m : Nat) (b : Block α) (hr : ShuffleReady m b) (j1 j2 : Nat)
    (h1 : j1 < m) (h2 : j2 < m) (he : b[j1]? = b[j2]?) : j1 = j2 := by
  obtain ⟨hlen, _, hnd⟩ := hr
  have key := List.nodup_iff_getElem?_ne_getElem?.mp hnd
  have hl : (b.take m).length = m := by rw [List.length_take]; omega
  by_contra hne
  rcases Nat.lt_or_gt_of_ne hne with hlt | hlt
  · apply key j1 j2 hlt (by omega)
    rw [List.getElem?_take, List.getElem?_take, if_pos h1, if_pos h2]
    exact he
  · apply key j2 j1 hlt (by omega)
    rw [List.getElem?_take, List.getElem?_take, if_pos h1, if_pos h2]
    exact he.symm

/-- What a swap with the last position of the prefix puts there. -/
theorem getElem?_blockSwap_last (b : Block α) (m j : Nat) (hr : ShuffleReady (m + 1) b)
    (hj : j < m + 1) : (blockSwap b m j)[m]? = b[j]? := by
  rw [getElem?_blockSwap b m j m (hr.2.1 m (by omega)) (hr.2.1 j hj)]
  by_cases h : m = j
  · rw [if_pos h, h]
  · rw [if_neg h, if_pos rfl]

/-- Different draws give different orders. -/
theorem blockShuffle_injective (rng1 rng2 : Nat → Nat) :
    ∀ (i : Nat) (b : Block α), ShuffleReady (i + 1) b →
      (blockShuffle rng1 i b).take (i + 1) = (blockShuffle rng2 i b).take (i + 1) →
      ∀ t, 1 ≤ t → t ≤ i → rng1 t % (t + 1) = rng2 t % (t + 1) := by
  intro i
  induction i with
  | zero => intro b _ _ t h1 h2; omega
  | succ i ih =>
    intro b hr heq t ht1 ht2
    have hj1 : rng1 (i + 1) % (i + 1 + 1) < i + 1 + 1 := Nat.mod_lt _ (Nat.succ_pos _)
    have hj2 : rng2 (i + 1) % (i + 1 + 1) < i + 1 + 1 := Nat.mod_lt _ (Nat.succ_pos _)
    simp only [blockShuffle] at heq
    -- the element that ends at position `i + 1`
    have hlast : b[rng1 (i + 1) % (i + 1 + 1)]? = b[rng2 (i + 1) % (i + 1 + 1)]? := by
      have h := congrArg (fun l => l[i + 1]?) heq
      simp only [List.getElem?_take, if_pos (Nat.lt_succ_self (i + 1))] at h
      rw [getElem?_blockShuffle_above rng1 i _ (i + 1) (Nat.lt_succ_self i),
        getElem?_blockShuffle_above rng2 i _ (i + 1) (Nat.lt_succ_self i),
        getElem?_blockSwap_last b (i + 1) _ hr hj1,
        getElem?_blockSwap_last b (i + 1) _ hr hj2] at h
      exact h
    have hj : rng1 (i + 1) % (i + 1 + 1) = rng2 (i + 1) % (i + 1 + 1) :=
      shuffleReady_inj (i + 1 + 1) b hr _ _ hj1 hj2 hlast
    by_cases hti : t = i + 1
    · rw [hti]; exact hj
    · rw [← hj] at heq
      have hr1 : ShuffleReady (i + 1) (blockSwap b (i + 1) (rng1 (i + 1) % (i + 1 + 1))) :=
        shuffleReady_pred _ _ (shuffleReady_swap _ b _ _ hr (Nat.lt_succ_self _) hj1)
      have heq1 : (blockShuffle rng1 i (blockSwap b (i + 1) (rng1 (i + 1) % (i + 1 + 1)))).take
            (i + 1) =
          (blockShuffle rng2 i (blockSwap b (i + 1) (rng1 (i + 1) % (i + 1 + 1)))).take
            (i + 1) := by
        have h := congrArg (List.take (i + 1)) heq
        simp only [List.take_take] at h
        have hmin : min (i + 1) (i + 1 + 1) = i + 1 := by omega
        rw [hmin] at h
        exact h
      exact ih _ hr1 heq1 t ht1 (by omega)

/-- Every order of the prefix is reached by some draws. -/
theorem blockShuffle_surjective :
    ∀ (i : Nat) (b : Block α), ShuffleReady (i + 1) b →
      ∀ l : List (Option α), l.Perm (b.take (i + 1)) →
      ∃ rng : Nat → Nat, (blockShuffle rng i b).take (i + 1) = l := by
  intro i
  induction i with
  | zero =>
    intro b hr l hl
    refine ⟨fun _ => 0, ?_⟩
    simp only [blockShuffle]
    have hlen : 0 < b.length := hr.1
    have h1 : b.take 1 = [b[0]] := by
      apply List.ext_getElem?
      intro k
      rw [List.getElem?_take]
      by_cases hk : k < 1
      · have : k = 0 := by omega
        subst this
        simp [List.getElem?_eq_getElem hlen]
      · rw [if_neg hk, List.getElem?_eq_none (by simp; omega)]
    rw [h1] at hl ⊢
    exact (List.perm_singleton.mp hl).symm
  | succ i ih =>
    intro b hr l hl
    have hblen : i + 1 + 1 ≤ b.length := hr.1
    have hllen : l.length = i + 1 + 1 := by
      rw [hl.length_eq, List.length_take]; omega
    -- the element `x` wanted at position `i + 1` sits at some position `j` of the prefix
    obtain ⟨x, hx⟩ : ∃ x, l[i + 1]? = some x :=
      ⟨l[i + 1], List.getElem?_eq_getElem (by omega)⟩
    obtain ⟨j, hj⟩ : ∃ j, (b.take (i + 1 + 1))[j]? = some x :=
      List.mem_iff_getElem?.mp ((hl.mem_iff).mp (List.getElem?_mem hx))
    have hjlt : j < i + 1 + 1 := by
      by_contra hlt
      rw [List.getElem?_take, if_neg hlt] at hj
      exact absurd hj (by simp)
    rw [List.getElem?_take, if_pos hjlt] at hj
    have hr1 := shuffleReady_swap _ b (i + 1) j hr (Nat.lt_succ_self _) hjlt
    have hlast : (blockSwap b (i + 1) j)[i + 1]? = some x := by
      rw [getElem?_blockSwap_last b (i + 1) j hr hjlt, hj]
    have h2 : l = l.take (i + 1) ++ [x] := by
      have h := @List.take_succ _ l (i + 1)
      rw [List.take_of_length_le (by omega), hx] at h
      exact h
    -- the rest of the prefix is a permutation of the rest of `l`
    have hperm : (l.take (i + 1)).Perm ((blockSwap b (i + 1) j).take (i + 1)) := by
      have h1 : ((blockSwap b (i + 1) j).take (i + 1 + 1)).Perm (b.take (i + 1 + 1)) := by
        rw [take_blockSwap b _ _ _ (Nat.lt_succ_self _) hjlt]
        exact blockSwap_perm _ _ _
      have h3 : (blockSwap b (i + 1) j).take (i + 1 + 1) =
          (blockSwap b (i + 1) j).take (i + 1) ++ [x] := by
        rw [List.take_succ, hlast]
        rfl
      have h4 : (l.take (i + 1) ++ [x]).Perm ((blockSwap b (i + 1) j).take (i + 1) ++ [x]) := by
        rw [← h2, ← h3]
        exact hl.trans h1.symm
      exact (List.perm_append_right_iff [x]).mp h4
    obtain ⟨rng0, hrng0⟩ := ih _ (shuffleReady_pred _ _ hr1) _ hperm
    refine ⟨fun t => if t = i + 1 then j else rng0 t, ?_⟩
    simp only [blockShuffle, if_true]
    rw [Nat.mod_eq_of_lt hjlt]
    rw [blockShuffle_congr (fun t => if t = i + 1 then j else rng0 t) rng0 i _
      (fun t _ ht2 => by
        have hne : ¬ t = i + 1 := by omega
        simp only [if_neg hne])]
    rw [List.take_succ, hrng0, getElem?_blockShuffle_above rng0 i _ (i + 1) (Nat.lt_succ_self i),
      hlast]
    exact h2.symm


theorem drawsOf_mod (n : Nat) (d : (i : Fin n) → Fin (i.val + 1)) (i : Nat) (h : i < n) :
    drawsOf n d i % (i + 1) = (d ⟨i, h⟩).val := by
  unfold drawsOf
  rw [dif_pos h]
  exact Nat.mod_eq_of_lt (d ⟨i, h⟩).isLt

theorem card_draws (n : Nat) :
    Fintype.card ((i : Fin n) → Fin (i.val + 1)) = n.factorial := by
  rw [Fintype.card_pi]
  simp only [Fintype.card_fin]
  rw [Fin.prod_univ_eq_prod_range (fun i => i + 1) n]
  exact Finset.prod_range_add_one_eq_factorial n

/-- The element sequence after `shuffle`, in terms of the slots of the block. -/
theorem elements_shuffle_block (s : State α) (hc : Container s)
    (hpos : 0 < s.self.elementCount) :
    ∃ b : Block α, elements s = b.take s.self.elementCount ∧
      s.self.elementCount ≤ b.length ∧
      (∀ k : Nat, (contents s)[k]? = b[k]?) ∧
      ∀ rng, elements (shuffle rng s) =
        (blockShuffle rng (s.self.elementCount - 1) b).take s.self.elementCount := by
  obtain ⟨b, hb, hlen⟩ := owns_load_eq s hc.1 (by have := hc.2; omega)
  have hcont : contents s = b := contents_of_load s b hb
  refine ⟨b, by rw [elements, hcont], by have := hc.2; omega, fun k => by rw [hcont], ?_⟩
  intro rng
  by_cases h1 : s.self.elementCount ≤ 1
  · have hr : shuffle rng s = s := by simp only [shuffle, if_pos h1]
    have h0 : s.self.elementCount - 1 = 0 := by omega
    rw [hr, h0, elements, hcont]
    rfl
  · unfold elements contents
    rw [shuffle_self, load_shuffle rng s h1, if_pos rfl, hb]
    rfl

theorem shuffleReady_contents (s : State α) (hlive : Constructed s)
    (hnd : (elements s).Nodup) (b : Block α) (hb : elements s = b.take s.self.elementCount)
    (hlen : s.self.elementCount ≤ b.length) (hget : ∀ k : Nat, (contents s)[k]? = b[k]?) :
    ShuffleReady s.self.elementCount b := by
  refine ⟨hlen, ?_, by rw [← hb]; exact hnd⟩
  intro k hk
  rw [← hget]
  exact constructed_contents s hlive k hk

theorem shuffle_injective (s : State α) (hc : Container s) (hlive : Constructed s)
    (hnd : (elements s).Nodup) (rng1 rng2 : Nat → Nat)
    (heq : elements (shuffle rng1 s) = elements (shuffle rng2 s)) :
    ∀ i, 1 ≤ i → i < s.self.elementCount → rng1 i % (i + 1) = rng2 i % (i + 1) := by
  intro i hi1 hi2
  obtain ⟨b, hb, hlen, hget, hsh⟩ := elements_shuffle_block s hc (by omega)
  have hr := shuffleReady_contents s hlive hnd b hb hlen hget
  rw [hsh rng1, hsh rng2] at heq
  obtain ⟨m, hm⟩ : ∃ m, s.self.elementCount = m + 1 := ⟨s.self.elementCount - 1, by omega⟩
  rw [hm] at hr heq
  rw [Nat.add_sub_cancel] at heq
  exact blockShuffle_injective rng1 rng2 m b hr heq i hi1 (by omega)

theorem shuffle_surjective (s : State α) (hc : Container s) (hlive : Constructed s)
    (hnd : (elements s).Nodup) (l : List (Option α)) (hl : l.Perm (elements s)) :
    ∃ rng, elements (shuffle rng s) = l := by
  by_cases h0 : s.self.elementCount = 0
  · refine ⟨fun _ => 0, ?_⟩
    have hr : shuffle (fun _ => 0) s = s := by
      simp only [shuffle, if_pos (by omega : s.self.elementCount ≤ 1)]
    have he : elements s = [] := by simp [elements, h0]
    rw [hr]
    rw [he] at hl ⊢
    exact (List.perm_nil.mp hl).symm
  · obtain ⟨b, hb, hlen, hget, hsh⟩ := elements_shuffle_block s hc (by omega)
    have hr := shuffleReady_contents s hlive hnd b hb hlen hget
    obtain ⟨m, hm⟩ : ∃ m, s.self.elementCount = m + 1 := ⟨s.self.elementCount - 1, by omega⟩
    rw [hb] at hl
    rw [hm] at hr hl
    obtain ⟨rng, hrng⟩ := blockShuffle_surjective m b hr l hl
    refine ⟨rng, ?_⟩
    rw [hsh rng, hm, Nat.add_sub_cancel]
    exact hrng

theorem shuffle_congr (s : State α) (hc : Container s) (rng1 rng2 : Nat → Nat)
    (h : ∀ i, 1 ≤ i → i < s.self.elementCount → rng1 i % (i + 1) = rng2 i % (i + 1)) :
    elements (shuffle rng1 s) = elements (shuffle rng2 s) := by
  by_cases h0 : s.self.elementCount = 0
  · have h1 : s.self.elementCount ≤ 1 := by omega
    simp only [shuffle, if_pos h1]
  · obtain ⟨b, _, _, _, hsh⟩ := elements_shuffle_block s hc (by omega)
    rw [hsh rng1, hsh rng2, blockShuffle_congr rng1 rng2 _ b
      (fun t h1 h2 => h t h1 (by omega))]

/-- Every order of the elements is produced by exactly one sequence of draws. -/
theorem shuffle_unique_draws (s : State α) (hc : Container s) (hlive : Constructed s)
    (hnd : (elements s).Nodup) (l : List (Option α)) (hl : l.Perm (elements s)) :
    ∃! d : (i : Fin s.self.elementCount) → Fin (i.val + 1),
      elements (shuffle (drawsOf s.self.elementCount d) s) = l := by
  obtain ⟨rng, hrng⟩ := shuffle_surjective s hc hlive hnd l hl
  refine ⟨fun i => ⟨rng i.val % (i.val + 1), Nat.mod_lt _ (Nat.succ_pos _)⟩, ?_, ?_⟩
  · show elements (shuffle (drawsOf s.self.elementCount _) s) = l
    rw [← hrng]
    apply shuffle_congr s hc
    intro i _ hi2
    rw [drawsOf_mod _ _ i hi2]
  · intro d hd
    have hinj := shuffle_injective s hc hlive hnd (drawsOf s.self.elementCount d) rng
      (by rw [hd, hrng])
    funext i
    apply Fin.ext
    show (d i).val = rng i.val % (i.val + 1)
    by_cases hi : i.val = 0
    · have h1 := (d i).isLt
      have h3 := Nat.mod_lt (rng i.val) (show 0 < i.val + 1 by omega)
      omega
    · have h2 := hinj i.val (by omega) i.isLt
      rw [drawsOf_mod _ d i.val i.isLt] at h2
      exact h2

/-- Among the `n!` sequences of draws exactly one produces a given order of the elements,
so under uniform independent draws each order has the probability `1 / n!`. -/
theorem shuffle_fibre_card [DecidableEq α] (s : State α) (hc : Container s)
    (hlive : Constructed s) (hnd : (elements s).Nodup) (l : List (Option α))
    (hl : l.Perm (elements s)) :
    (Finset.univ.filter (fun d : (i : Fin s.self.elementCount) → Fin (i.val + 1) =>
      elements (shuffle (drawsOf s.self.elementCount d) s) = l)).card = 1 := by
  obtain ⟨d0, hd0, huniq⟩ := shuffle_unique_draws s hc hlive hnd l hl
  rw [Finset.card_eq_one]
  refine ⟨d0, ?_⟩
  ext d
  simp only [Finset.mem_filter, Finset.mem_univ, true_and, Finset.mem_singleton]
  constructor
  · intro h; exact huniq d h
  · intro h; rw [h]; exact hd0

end shuffle_bijection

/-! ## Exclusive ownership of blocks in reachable worlds -/

section ownership_lemmas

variable {α : Type}

theorem cells_length_copy_loop (throwsAt : Nat → Bool) (src dst : Ptr) :
    ∀ (n i : Nat) (g : Heap α),
      (copy_loop throwsAt src dst n i g).1.cells.length = g.cells.length := by
  intro n
  induction n with
  | zero => intro i g; rfl
  | succ n ih =>
    intro i g
    simp only [copy_loop]
    split_ifs
    · rfl
    · rw [ih]; simp

theorem copy_ctor_block (throwsAt : Nat → Bool) (sz : Nat) (h : Heap α) (other : vector) :
    h.cells.length ≤ (copy_ctor throwsAt sz h other).1.cells.length ∧
    ∀ c, (copy_ctor throwsAt sz h other).2 = some c →
      c.block = none ∨
      (c.block = some h.cells.length ∧
        h.cells.length < (copy_ctor throwsAt sz h other).1.cells.length) := by
  by_cases h0 : other.blockSize = 0
  · simp only [copy_ctor, if_pos h0]
    refine ⟨le_refl _, ?_⟩
    intro c hc
    simp only [Option.some.injEq] at hc
    left
    rw [← hc]
  · simp only [copy_ctor, if_neg h0]
    split_ifs with h1
    · refine ⟨?_, ?_⟩
      · simp only [cells_length_dealloc]
        rw [cells_length_forLoop _ (fun i h => by simp), cells_length_copy_loop]
        simp
      · intro c hc
        simp at hc
    · refine ⟨?_, ?_⟩
      · simp only [cells_length_copy_loop]
        simp
      · intro c hc
        simp only [Option.some.injEq] at hc
        right
        rw [← hc]
        simp only [cells_length_copy_loop]
        simp

theorem cells_length_clear (s : State α) : (clear s).heap.cells.length = s.heap.cells.length := by
  have hw : Within s.self.block s.heap (clear s).heap :=
    within_trans _ _ _ _
      (within_forLoop _ _ (fun i h => within_destroy_at _ _ _) _ _ _) (within_dealloc _ _)
  exact hw.1


theorem getElem?_append_singleton {β : Type} (l : List β) (v x : β) (k : Nat)
    (h : (l ++ [v])[k]? = some x) :
    (k < l.length ∧ l[k]? = some x) ∨ (k = l.length ∧ x = v) := by
  rw [List.getElem?_append] at h
  by_cases hk : k < l.length
  · rw [if_pos hk] at h
    exact Or.inl ⟨hk, h⟩
  · rw [if_neg hk] at h
    right
    by_cases hk2 : k = l.length
    · subst hk2
      simp at h
      exact ⟨rfl, h.symm⟩
    · have : 1 ≤ k - l.length := by omega
      rw [List.getElem?_eq_none (by simp; omega)] at h
      exact absurd h (by simp)

theorem getElem?_set_cases {β : Type} (l : List β) (v x : β) (i k : Nat)
    (h : (l.set i v)[k]? = some x) :
    (k ≠ i ∧ l[k]? = some x) ∨ (k = i ∧ x = v) := by
  rw [List.getElem?_set] at h
  by_cases hk : i = k
  · rw [if_pos hk] at h
    right
    split_ifs at h
    · exact ⟨hk.symm, (Option.some.inj h).symm⟩
  · rw [if_neg hk] at h
    exact Or.inl ⟨fun e => hk e.symm, h⟩

/-- A step that leaves every block pointer at its container, or replaces the pointer of
one container `k0` by an address that was not allocated before, keeps the containers
exclusive. -/
theorem exclusive_of_fresh (w w2 : World α) (k0 : Nat) (hex : Exclusive w)
    (hobj : ∀ (k : Nat) (v2 : vector) (a : Nat), w2.objs[k]? = some v2 → v2.block = some a →
      a < w2.heap.cells.length ∧
      ((w.heap.cells.length ≤ a ∧ k = k0) ∨ ∃ v, w.objs[k]? = some v ∧ v.block = some a)) :
    Exclusive w2 := by
  obtain ⟨e1, e2⟩ := hex
  refine ⟨fun k v a hk ha => (hobj k v a hk ha).1, ?_⟩
  intro k j vk vj a hkj hk hj ha hja
  rcases (hobj k vk a hk ha).2 with ⟨hk1, hk2⟩ | ⟨v, hv1, hv2⟩
  · rcases (hobj j vj a hj hja).2 with ⟨hj1, hj2⟩ | ⟨u, hu1, hu2⟩
    · omega
    · have := e1 j u a hu1 hu2
      omega
  · rcases (hobj j vj a hj hja).2 with ⟨hj1, hj2⟩ | ⟨u, hu1, hu2⟩
    · have := e1 k v a hv1 hv2
      omega
    · exact e2 k j v u a hkj hv1 hu1 hv2 hu2


theorem exclusive_step (sz : Nat) (w w2 : World α) (hstep : Step sz w w2)
    (hex : Exclusive w) : Exclusive w2 := by
  have e1 := hex.1
  have e2 := hex.2
  cases hstep with
  | default_ctor =>
    apply exclusive_of_fresh w _ w.objs.length hex
    intro k v2 a hk ha
    simp only [default_ctor, alloc_snd, cells_length_alloc] at hk ha ⊢
    rcases getElem?_append_singleton _ _ _ _ hk with ⟨_, hold⟩ | ⟨hk2, hv⟩
    · exact ⟨by have := e1 k v2 a hold ha; omega, Or.inr ⟨v2, hold, ha⟩⟩
    · rw [hv] at ha
      simp only [Option.some.injEq] at ha
      exact ⟨by omega, Or.inl ⟨by omega, hk2⟩⟩
  | copy_ctor throwsAt j other c hj hc =>
    obtain ⟨hlen, hblock⟩ := copy_ctor_block throwsAt sz w.heap other
    apply exclusive_of_fresh w _ w.objs.length hex
    intro k v2 a hk ha
    simp only at hk ⊢
    rcases getElem?_append_singleton _ _ _ _ hk with ⟨_, hold⟩ | ⟨hk2, hv⟩
    · exact ⟨by have := e1 k v2 a hold ha; omega, Or.inr ⟨v2, hold, ha⟩⟩
    · rw [hv] at ha
      rcases hblock c hc with hnone | ⟨hb1, hb2⟩
      · rw [hnone] at ha; exact absurd ha (by simp)
      · rw [hb1] at ha
        simp only [Option.some.injEq] at ha
        exact ⟨by omega, Or.inl ⟨by omega, hk2⟩⟩
  | copy_ctor_throws throwsAt j other hj hc =>
    obtain ⟨hlen, _⟩ := copy_ctor_block throwsAt sz w.heap other
    apply exclusive_of_fresh w _ 0 hex
    intro k v2 a hk ha
    simp only at hk ⊢
    exact ⟨by have := e1 k v2 a hk ha; omega, Or.inr ⟨v2, hk, ha⟩⟩
  | move_ctor j other hj =>
    refine ⟨?_, ?_⟩
    · intro k v a hk ha
      simp only at hk ⊢
      rcases getElem?_append_singleton _ _ _ _ hk with ⟨_, hold⟩ | ⟨_, hv⟩
      · rcases getElem?_set_cases _ _ _ _ _ hold with ⟨_, h1⟩ | ⟨_, h1⟩
        · exact e1 k v a h1 ha
        · rw [h1] at ha; exact absurd ha (by simp [move_ctor])
      · rw [hv] at ha
        exact e1 j other a hj ha
    · intro k1 k2 v1 v2 a hne hk1 hk2 ha1 ha2
      simp only at hk1 hk2
      rcases getElem?_append_singleton _ _ _ _ hk1 with ⟨hlt1, hold1⟩ | ⟨hn1, hv1⟩
      · rcases getElem?_set_cases _ _ _ _ _ hold1 with ⟨hj1, h1⟩ | ⟨_, h1⟩
        · rcases getElem?_append_singleton _ _ _ _ hk2 with ⟨hlt2, hold2⟩ | ⟨hn2, hv2⟩
          · rcases getElem?_set_cases _ _ _ _ _ hold2 with ⟨hj2, h2⟩ | ⟨_, h2⟩
            · exact e2 k1 k2 v1 v2 a hne h1 h2 ha1 ha2
            · rw [h2] at ha2; exact absurd ha2 (by simp [move_ctor])
          · rw [hv2] at ha2
            exact e2 k1 j v1 other a hj1 h1 hj ha1 ha2
        · rw [h1] at ha1; exact absurd ha1 (by simp [move_ctor])
      · rw [hv1] at ha1
        rcases getElem?_append_singleton _ _ _ _ hk2 with ⟨hlt2, hold2⟩ | ⟨hn2, hv2⟩
        · rcases getElem?_set_cases _ _ _ _ _ hold2 with ⟨hj2, h2⟩ | ⟨_, h2⟩
          · exact e2 j k2 other v2 a (fun e => hj2 e.symm) hj h2 ha1 ha2
          · rw [h2] at ha2; exact absurd ha2 (by simp [move_ctor])
        · simp only [List.length_set] at hn1 hn2
          omega
  | call k0 self o hk0 hr =>
    have hbelow : Below { heap := w.heap, self := self } := fun a ha => e1 k0 self a hk0 ha
    obtain ⟨⟨f1, _, f3⟩, hb2⟩ := run_within sz o { heap := w.heap, self := self } hbelow
    have f1 : w.heap.cells.length ≤
        (o.run sz { heap := w.heap, self := self }).heap.cells.length := f1
    apply exclusive_of_fresh w _ k0 hex
    intro k v2 a hk ha
    simp only at hk ⊢
    rcases getElem?_set_cases _ _ _ _ _ hk with ⟨_, hold⟩ | ⟨hkk, hv⟩
    · exact ⟨by have := e1 k v2 a hold ha; omega, Or.inr ⟨v2, hold, ha⟩⟩
    · rw [hv] at ha
      refine ⟨hb2 a ha, ?_⟩
      rcases f3 a ha with h1 | h1
      · exact Or.inr ⟨self, by rw [hkk]; exact hk0, h1⟩
      · exact Or.inl ⟨h1, hkk⟩
  | copy_assign throwsAt k j =>
    unfold copy_assign
    split
    · rename_i self other hk hj
      split_ifs with hkj
      · exact hex
      · obtain ⟨hlen, hblock⟩ := copy_ctor_block throwsAt sz w.heap other
        simp only
        split
        · apply exclusive_of_fresh w _ 0 hex
          intro k1 v2 a hk1 ha
          simp only at hk1 ⊢
          exact ⟨by have := e1 k1 v2 a hk1 ha; omega, Or.inr ⟨v2, hk1, ha⟩⟩
        · rename_i tmp htmp
          apply exclusive_of_fresh w _ k hex
          intro k1 v2 a hk1 ha
          simp only [cells_length_clear] at hk1 ⊢
          rcases getElem?_set_cases _ _ _ _ _ hk1 with ⟨_, hold⟩ | ⟨hkk, hv⟩
          · exact ⟨by have := e1 k1 v2 a hold ha; omega, Or.inr ⟨v2, hold, ha⟩⟩
          · rw [hv] at ha
            have ha2 : tmp.block = some a := ha
            rcases hblock tmp htmp with hnone | ⟨hb1, hb2⟩
            · rw [hnone] at ha2; exact absurd ha2 (by simp)
            · rw [hb1] at ha2
              simp only [Option.some.injEq] at ha2
              exact ⟨by omega, Or.inl ⟨by omega, hkk⟩⟩
    · exact hex
  | move_assign k j =>
    unfold move_assign
    split
    · rename_i self other hk hj
      split_ifs with hkj
      · exact hex
      · refine ⟨?_, ?_⟩
        · intro k1 v a hk1 ha
          simp only [cells_length_clear] at hk1 ⊢
          rcases getElem?_set_cases _ _ _ _ _ hk1 with ⟨_, h1⟩ | ⟨_, h1⟩
          · rcases getElem?_set_cases _ _ _ _ _ h1 with ⟨_, h2⟩ | ⟨_, h2⟩
            · exact e1 k1 v a h2 ha
            · rw [h2] at ha
              exact e1 j other a hj ha
          · rw [h1] at ha; exact absurd ha (by simp)
        · intro k1 k2 v1 v2 a hne hk1 hk2 ha1 ha2
          simp only at hk1 hk2
          rcases getElem?_set_cases _ _ _ _ _ hk1 with ⟨hj1, h1⟩ | ⟨_, h1⟩
          · rcases getElem?_set_cases _ _ _ _ _ hk2 with ⟨hj2, h2⟩ | ⟨_, h2⟩
            · rcases getElem?_set_cases _ _ _ _ _ h1 with ⟨hk1', g1⟩ | ⟨hk1', g1⟩
              · rcases getElem?_set_cases _ _ _ _ _ h2 with ⟨hk2', g2⟩ | ⟨hk2', g2⟩
                · exact e2 k1 k2 v1 v2 a hne g1 g2 ha1 ha2
                · rw [g2] at ha2
                  exact e2 k1 j v1 other a hj1 g1 hj ha1 ha2
              · rw [g1] at ha1
                rcases getElem?_set_cases _ _ _ _ _ h2 with ⟨hk2', g2⟩ | ⟨hk2', g2⟩
                · exact e2 j k2 other v2 a (fun e => hj2 e.symm) hj g2 ha1 ha2
                · omega
            · rw [h2] at ha2; exact absurd ha2 (by simp)
          · rw [h1] at ha1; exact absurd ha1 (by simp)
    · exact hex

theorem reachable_exclusive (sz : Nat) (w : World α) (hr : Reachable sz w) : Exclusive w := by
  induction hr with
  | init =>
    refine ⟨?_, ?_⟩
    · intro k v a hk; simp at hk
    · intro k j vk vj a _ hk; simp at hk
  | step w w2 _ hstep ih => exact exclusive_step sz w w2 hstep ih

/-- In a reachable world two different containers never point to the same block. -/
theorem reachable_separate (sz : Nat) (w : World α) (hr : Reachable sz w) (k j : Nat)
    (b a : vector) (hkj : k ≠ j) (hk : w.objs[k]? = some b) (hj : w.objs[j]? = some a) :
    Separate a b := by
  obtain ⟨_, e2⟩ := reachable_exclusive sz w hr
  unfold Separate
  cases ha : a.block with
  | none => exact Or.inl rfl
  | some p =>
    right
    intro e
    exact e2 j k a b p (fun e => hkj e.symm) hj hk ha (by rw [← e])

end ownership_lemmas

/-! ## Copy assignment, with line 35 read as `std::swap(block, other.block)` -/

section copy_assign_lemmas

variable {α : Type}

theorem copy_assign_self (throwsAt : Nat → Bool) (sz k : Nat) (w : World α) :
    copy_assign throwsAt sz k k w = w := by
  unfold copy_assign
  split
  · rw [if_pos rfl]
  · rfl

theorem copy_assign_throws (throwsAt : Nat → Bool) (sz k j : Nat) (w : World α)
    (b a : vector) (hk : w.objs[k]? = some b) (hj : w.objs[j]? = some a) (hkj : k ≠ j)
    (hnone : (copy_ctor throwsAt sz w.heap a).2 = none) :
    copy_assign throwsAt sz k j w =
      { heap := (copy_ctor throwsAt sz w.heap a).1, objs := w.objs } := by
  simp only [copy_assign, hk, hj, if_neg hkj, hnone]

/-- Copy assignment between two containers that do not share a block, when no element
copy throws (line 35 read as the exchange of the block pointers). -/
theorem copy_assign_ok (throwsAt : Nat → Bool) (sz k j : Nat) (w : World α)
    (b a : vector) (hk : w.objs[k]? = some b) (hj : w.objs[j]? = some a) (hkj : k ≠ j)
    (hc : Container { heap := w.heap, self := a })
    (hbelow : Below { heap := w.heap, self := b }) (hsep : Separate a b)
    (hok : ∀ i, i < a.elementCount → throwsAt i = false) :
    ∃ b2, (copy_assign throwsAt sz k j w).objs[k]? = some b2 ∧
      (copy_assign throwsAt sz k j w).objs[j]? = some a ∧
      b2.elementCount = a.elementCount ∧ b2.blockSize = a.blockSize ∧
      (∀ i, i < a.elementCount →
        slot (copy_assign throwsAt sz k j w).heap b2.block i = slot w.heap a.block i) ∧
      load (copy_assign throwsAt sz k j w).heap a.block = load w.heap a.block := by
  obtain ⟨c, h1, h2, h3, h4, h5, h6, h7, h8⟩ := copy_ctor_spec throwsAt sz w.heap a hc hok
  have hklt : k < w.objs.length := by
    by_contra hlt
    rw [List.getElem?_eq_none (by omega)] at hk
    exact absurd hk (by simp)
  have hjk : ¬ k = j := hkj
  have hres : copy_assign throwsAt sz k j w =
      { heap := (clear { heap := (copy_ctor throwsAt sz w.heap a).1, self := (swap b c).2 }).heap
        objs := w.objs.set k (swap b c).1 } := by
    simp only [copy_assign, hk, hj, if_neg hkj, h1]
  rw [hres]
  have hcb : (swap b c).1 = c := rfl
  have hbb : (swap b c).2 = b := rfl
  rw [hcb, hbb]
  -- the block of the copy is not the block of the old target
  have hcne : c.block = none ∨ c.block ≠ b.block := by
    cases hcb2 : c.block with
    | none => exact Or.inl rfl
    | some p =>
      right
      intro e
      have hge := h8 p hcb2
      have hlt : p < w.heap.cells.length := hbelow p e.symm
      omega
  have hcl : ∀ r, (r = none ∨ r ≠ b.block) →
      load (clear { heap := (copy_ctor throwsAt sz w.heap a).1, self := b }).heap r =
        load (copy_ctor throwsAt sz w.heap a).1 r :=
    fun r hr => load_clear { heap := (copy_ctor throwsAt sz w.heap a).1, self := b } r hr
  have halloc : a.block = none ∨ ∃ bl, load w.heap a.block = some bl := by
    cases hp : a.block with
    | none => exact Or.inl rfl
    | some p =>
      right
      have ho := hc.1
      unfold Owns at ho
      simp only [hp] at ho
      cases hl : load w.heap (some p) with
      | none => simp [hl] at ho
      | some bl => exact ⟨bl, rfl⟩
  refine ⟨c, by simp [List.getElem?_set, hklt], ?_, h2, h3, ?_, ?_⟩
  · simp only [List.getElem?_set, if_neg hjk]
    exact hj
  · intro i hi
    rw [← h4 i hi]
    exact slot_congr _ _ _ _ i (hcl c.block hcne)
  · simp only
    rw [hcl a.block hsep]
    rcases halloc with hn | hsome
    · rw [hn]; rfl
    · exact h5 a.block hsome

end copy_assign_lemmas

/-! ## Capacity in the storage, released and fresh blocks -/

section storage_lemmas

variable {α : Type}

/-- After a `reserve` that grows, the old block is released. -/
theorem reserve_releases (sz n : Nat) (s : State α) (hn : s.self.blockSize < n) :
    Released (reserve sz n s).heap s.self := by
  intro a ha
  have h1 : ¬ n ≤ s.self.blockSize := by omega
  simp only [reserve, if_neg h1]
  rw [load_dealloc, if_pos ha.symm]

theorem reserve64_eq (sz n : Nat) (s : State α) (hsz : 0 < sz)
    (hle : s.self.elementCount ≤ s.self.blockSize)
    (hfit : n ≤ s.self.blockSize ∨ n * sz < 2 ^ 64) :
    reserve64 sz n s = reserve sz n s := by
  by_cases hn : n ≤ s.self.blockSize
  · simp only [reserve64, reserve, if_pos hn]
  · have hlt : n * sz < 2 ^ 64 := by
      rcases hfit with h | h
      · exact absurd h hn
      · exact h
    have h2 : ¬ n < s.self.elementCount := by omega
    simp only [reserve64, reserve, if_neg hn, if_neg h2, Nat.mod_eq_of_lt hlt,
      Nat.mul_div_cancel n hsz]

theorem hasCapacity_of_owns (s : State α) (ho : Owns s) : HasCapacity s s.self.blockSize :=
  ⟨ho, rfl, owns_length_contents s ho⟩

theorem reserve_owns (sz n : Nat) (s : State α) (hc : Container s) : Owns (reserve sz n s) := by
  by_cases hn : n ≤ s.self.blockSize
  · rw [reserve_noop sz n s hn]; exact hc.1
  · obtain ⟨h1, _, _, h4, _, _, b, hb, hlen, _, _⟩ := reserve_grows sz n s hc (by omega)
    exact owns_of_load _ b _ h4 hb (by rw [hlen, h1])

theorem shrink_to_fit_releases (sz : Nat) (s : State α) :
    Released (shrink_to_fit sz s).heap s.self := by
  intro a ha
  unfold shrink_to_fit
  split_ifs with h0
  · simp only
    rw [load_dealloc, if_pos ha.symm]
  · simp only
    rw [load_dealloc, if_pos ha.symm]

/-- An insertion into a full container whose argument refers to an element of the
container: `grow_if_needed()` has released the block the reference points into before
the element is read, so nothing is constructed in slot `size`. -/
theorem emplace_back_alias_full {β : Type} (sz : Nat) (mk : β → α) (j : Nat) (view : α → β)
    (s : State α) (hc : Container s) (hfull : s.self.blockSize ≤ s.self.elementCount) :
    size (emplace_back sz mk (Ref.element s.self.block j view) s) = size s + 1 ∧
    at_ (emplace_back sz mk (Ref.element s.self.block j view) s) (size s) = none := by
  have hn := grownCapacity_gt s.self.blockSize
  have hec : s.self.elementCount = s.self.blockSize := by have := hc.2; omega
  obtain ⟨_, h2, _, h4, _, _, b, hb, _, _, hhigh⟩ :=
    reserve_grows sz (grownCapacity s.self.blockSize) s hc hn
  have hdead : slot (reserve sz (grownCapacity s.self.blockSize) s).heap s.self.block j =
      none := by
    apply slot_of_load_none
    cases hp : s.self.block with
    | none => rfl
    | some a => exact reserve_releases sz _ s hn a hp
  have hheap : (emplace_back sz mk (Ref.element s.self.block j view) s).heap =
      record (reserve sz (grownCapacity s.self.blockSize) s).heap
        (Event.access s.self.block j false) := by
    simp only [emplace_back, grow_if_needed_full sz s hfull, construct_ref, hdead]
  have hblock : (emplace_back sz mk (Ref.element s.self.block j view) s).self.block =
      some s.heap.cells.length := by
    simp only [emplace_back, grow_if_needed_full sz s hfull]
    exact h4
  refine ⟨?_, ?_⟩
  · show (grow_if_needed sz s).self.elementCount + 1 = s.self.elementCount + 1
    rw [grow_if_needed_elementCount]
  · unfold at_ size
    rw [hblock, hheap]
    have hl : load (record (reserve sz (grownCapacity s.self.blockSize) s).heap
        (Event.access s.self.block j false)) (some s.heap.cells.length) = some b := by
      rw [load_record]; exact hb
    rw [slot_of_load _ _ _ b hl, hhigh s.self.elementCount (le_refl _) (by omega)]
    rfl

theorem copy_ctor_capacity (throwsAt : Nat → Bool) (sz : Nat) (h : Heap α) (other : vector)
    (hc : Container { heap := h, self := other })
    (hok : ∀ i, i < other.elementCount → throwsAt i = false) (c : vector)
    (hres : (copy_ctor throwsAt sz h other).2 = some c) :
    HasCapacity { heap := (copy_ctor throwsAt sz h other).1, self := c } other.blockSize ∧
    FreshBlock h c := by
  by_cases hbs : other.blockSize = 0
  · have hr : copy_ctor throwsAt sz h other =
        (h, some { totalMemoryInUse := 0, blockSize := 0, elementCount := 0,
                   block := none }) := by
      simp only [copy_ctor, if_pos hbs]
    rw [hr] at hres ⊢
    simp only [Option.some.injEq] at hres
    subst hres
    refine ⟨⟨rfl, hbs.symm, ?_⟩, ?_⟩
    · rw [hbs]; rfl
    · intro a ha; exact absurd ha (by simp)
  · obtain ⟨h1, _, _, b, hb, hlen, _⟩ := copy_ctor_ok throwsAt sz h other hc hok hbs
    have e := Option.some.inj (h1.symm.trans hres)
    have hcb : c.block = some h.cells.length := by rw [← e]
    have hcs : c.blockSize = other.blockSize := by rw [← e]
    have ho : Owns { heap := (copy_ctor throwsAt sz h other).1, self := c } :=
      owns_of_load _ b h.cells.length hcb hb (by rw [hlen]; exact hcs.symm)
    refine ⟨⟨ho, hcs, ?_⟩, ?_⟩
    · rw [owns_length_contents _ ho]; exact hcs
    · intro a ha
      rw [hcb] at ha
      simp only [Option.some.injEq] at ha
      subst ha
      refine ⟨?_, le_refl _⟩
      cases hl : load h (some h.cells.length) with
      | none => rfl
      | some b2 => exact absurd (load_lt _ _ _ hl) (lt_irrefl _)

/-- The capacity after an insertion is the one of the growth policy, in the storage: the
container owns a block of that many slots; it keeps its block when there was room, and
otherwise has a new block and the old one is released. -/
theorem emplace_back_capacity {β : Type} (sz : Nat) (mk : β → α) (x : Ref α β)
    (s : State α) (hc : Container s) :
    HasCapacity (emplace_back sz mk x s)
      (policyCapacity s.self.elementCount s.self.blockSize) ∧
    (s.self.elementCount < s.self.blockSize →
      (emplace_back sz mk x s).self.block = s.self.block) ∧
    (s.self.elementCount = s.self.blockSize →
      FreshBlock s.heap (emplace_back sz mk x s).self ∧
      Released (emplace_back sz mk x s).heap s.self) := by
  have hcont := emplace_back_container sz mk x s hc
  have hbs : (emplace_back sz mk x s).self.blockSize =
      policyCapacity s.self.elementCount s.self.blockSize :=
    emplace_back_blockSize sz mk x s hc.2
  refine ⟨⟨hcont.1, hbs, ?_⟩, ?_, ?_⟩
  · rw [owns_length_contents _ hcont.1]; exact hbs
  · intro hroom
    show (grow_if_needed sz s).self.block = s.self.block
    rw [grow_if_needed_room sz s hroom]
  · intro hfull
    have hn := grownCapacity_gt s.self.blockSize
    have hg := grow_if_needed_full sz s (by omega : s.self.elementCount ≥ s.self.blockSize)
    obtain ⟨_, _, _, h4, _, _, _⟩ := reserve_grows sz (grownCapacity s.self.blockSize) s hc hn
    have hblock : (emplace_back sz mk x s).self.block = some s.heap.cells.length := by
      show (grow_if_needed sz s).self.block = _
      rw [hg]; exact h4
    refine ⟨?_, ?_⟩
    · intro a ha
      rw [hblock] at ha
      simp only [Option.some.injEq] at ha
      subst ha
      refine ⟨?_, le_refl _⟩
      cases hl : load s.heap (some s.heap.cells.length) with
      | none => rfl
      | some b2 => exact absurd (load_lt _ _ _ hl) (lt_irrefl _)
    · intro a ha
      have hne : (some a : Ptr) ≠ (grow_if_needed sz s).self.block := by
        rw [hg, h4, ← ha]
        exact owns_ne_fresh s hc.1
      show load (construct_ref (grow_if_needed sz s).heap (grow_if_needed sz s).self.block
        (grow_if_needed sz s).self.elementCount mk x) (some a) = none
      rw [load_construct_ref _ _ _ _ _ _ hne, hg]
      exact reserve_releases sz _ s hn a ha

end storage_lemmas

/-! ## The examples of the specification, evaluated -/

section examples

theorem erase_index_example :
    elements (erase 1 (sample 8 [1, 2, 3, 4])) = [some 1, some 3, some 4] := by decide

theorem erase_range_example :
    elements (erase_range 1 3 (sample 8 [1, 2, 3, 4, 5])) = [some 1, some 4, some 5] := by
  decide

theorem reverse_example :
    elements (reverse (sample 8 [1, 2, 3, 4])) = [some 4, some 3, some 2, some 1] := by
  decide

theorem shuffle_example :
    elements (shuffle (fun i => i + 1) (sample 8 [1, 2, 3, 4, 5])) =
      [some 2, some 3, some 4, some 5, some 1] := by
  decide

theorem reallocations_example :
    reallocations 8 (fun i => i) 13 0 (default_ctor 8 Heap.empty) = 3 := by
  decide

end examples

/-! ## The claims -/

section claims

variable {α : Type}

/-- C1, at `c.push_back(c[0])` on `c = [10, 20, 30, 40]` with size 4 and capacity 4. The
argument is a reference to slot 0 of the block of `c`. `grow_if_needed()` moves the
elements into a new block and releases the old one before line 156 reads the argument:
the read is of a released block (the last event of the log, an invalid access), nothing
is constructed in slot 4, and the container reports size 5 without holding the value 10
at index 4. The same happens with `push_back(std::move(c[0]))` and `emplace_back(c[0])`.
With room (`[10, 20, 30]` in capacity 4) the same call does append 10. -/
theorem C1_insertion_reads_released_block :
    Container (sample 8 [10, 20, 30, 40]) ∧
    size (sample 8 [10, 20, 30, 40]) = 4 ∧ (sample 8 [10, 20, 30, 40]).self.blockSize = 4 ∧
    at_ (sample 8 [10, 20, 30, 40]) 0 = some 10 ∧
    size (push_back 8 (Ref.element (sample 8 [10, 20, 30, 40]).self.block 0 (fun x => x))
      (sample 8 [10, 20, 30, 40])) = 5 ∧
    at_ (push_back 8 (Ref.element (sample 8 [10, 20, 30, 40]).self.block 0 (fun x => x))
      (sample 8 [10, 20, 30, 40])) 4 = none ∧
    (push_back 8 (Ref.element (sample 8 [10, 20, 30, 40]).self.block 0 (fun x => x))
      (sample 8 [10, 20, 30, 40])).heap.log.getLast? = some (Event.access (some 0) 0 false) ∧
    ¬ Appends (sample 8 [10, 20, 30, 40])
      (push_back 8 (Ref.element (sample 8 [10, 20, 30, 40]).self.block 0 (fun x => x))
        (sample 8 [10, 20, 30, 40])) 10 ∧
    at_ (push_back_move 8 (Ref.element (sample 8 [10, 20, 30, 40]).self.block 0 (fun x => x))
      (sample 8 [10, 20, 30, 40])) 4 = none ∧
    at_ (emplace_back 8 (fun x : Nat => x)
      (Ref.element (sample 8 [10, 20, 30, 40]).self.block 0 (fun x => x))
      (sample 8 [10, 20, 30, 40])) 4 = none ∧
    Appends (sample 8 [10, 20, 30])
      (push_back 8 (Ref.element (sample 8 [10, 20, 30]).self.block 0 (fun x => x))
        (sample 8 [10, 20, 30])) 10 := by
  refine ⟨⟨rfl, by decide⟩, by decide, by decide, by decide, by decide, by decide,
    by decide, ?_, by decide, by decide, ?_⟩
  · intro h
    exact absurd h.2.2.1 (by decide)
  · unfold Appends
    decide

/-- C7: growth policy. On a container with `size <= capacity` whose capacity is in the
range where `capacity + capacity / 2` does not overflow `size_t`, an insertion
(`push_back` by copy or by move, `emplace_back`, whatever the argument refers to) leaves
a container whose capacity is the one of the policy, in the member `blockSize` and in the
number of slots of the block it owns: the old capacity when `size < capacity`, with the
block kept, and when `size == capacity` the value `capacity + capacity / 2` that `size_t`
arithmetic computes, except that capacity 0 grows to 1 and capacity 1 grows to 2, in a
newly allocated block, the old block being released. -/
theorem C7_growth_policy {β : Type} (sz : Nat) (v : Ref α α) (mk : β → α) (args : Ref α β)
    (s : State α) (hc : Container s)
    (hno : s.self.blockSize + s.self.blockSize / 2 < 2 ^ 64) :
    (s.self.elementCount = s.self.blockSize →
      policyCapacity s.self.elementCount s.self.blockSize =
        grownCapacity64 s.self.blockSize) ∧
    (HasCapacity (push_back sz v s) (policyCapacity s.self.elementCount s.self.blockSize) ∧
     HasCapacity (push_back_move sz v s)
       (policyCapacity s.self.elementCount s.self.blockSize) ∧
     HasCapacity (emplace_back sz mk args s)
       (policyCapacity s.self.elementCount s.self.blockSize)) ∧
    (s.self.elementCount < s.self.blockSize →
      (push_back sz v s).self.block = s.self.block ∧
      (push_back_move sz v s).self.block = s.self.block ∧
      (emplace_back sz mk args s).self.block = s.self.block) ∧
    (s.self.elementCount = s.self.blockSize →
      (FreshBlock s.heap (push_back sz v s).self ∧
        Released (push_back sz v s).heap s.self) ∧
      (FreshBlock s.heap (push_back_move sz v s).self ∧
        Released (push_back_move sz v s).heap s.self) ∧
      (FreshBlock s.heap (emplace_back sz mk args s).self ∧
        Released (emplace_back sz mk args s).heap s.self)) := by
  obtain ⟨p1, p2, p3⟩ := emplace_back_capacity sz (fun x : α => x) v s hc
  obtain ⟨e1, e2, e3⟩ := emplace_back_capacity sz mk args s hc
  refine ⟨?_, ⟨p1, p1, e1⟩, fun h => ⟨p2 h, p2 h, e2 h⟩, fun h => ⟨p3 h, p3 h, e3 h⟩⟩
  intro hfull
  rw [grownCapacity64_eq _ hno]
  unfold policyCapacity grownCapacity
  split_ifs <;> omega

theorem C7_growth_policy_witness :
    Container (sample 8 [10, 20, 30, 40]) ∧
    (sample 8 [10, 20, 30, 40]).self.blockSize +
      (sample 8 [10, 20, 30, 40]).self.blockSize / 2 < 2 ^ 64 ∧
    ((sample 8 [10, 20, 30, 40]).self.elementCount =
        (sample 8 [10, 20, 30, 40]).self.blockSize →
      policyCapacity (sample 8 [10, 20, 30, 40]).self.elementCount
          (sample 8 [10, 20, 30, 40]).self.blockSize =
        grownCapacity64 (sample 8 [10, 20, 30, 40]).self.blockSize) ∧
    (HasCapacity (push_back 8 (Ref.object 50) (sample 8 [10, 20, 30, 40]))
        (policyCapacity (sample 8 [10, 20, 30, 40]).self.elementCount
          (sample 8 [10, 20, 30, 40]).self.blockSize) ∧
     HasCapacity (push_back_move 8 (Ref.object 50) (sample 8 [10, 20, 30, 40]))
        (policyCapacity (sample 8 [10, 20, 30, 40]).self.elementCount
          (sample 8 [10, 20, 30, 40]).self.blockSize) ∧
     HasCapacity
        (emplace_back 8 (fun n : Nat => n + 1) (Ref.object 49) (sample 8 [10, 20, 30, 40]))
        (policyCapacity (sample 8 [10, 20, 30, 40]).self.elementCount
          (sample 8 [10, 20, 30, 40]).self.blockSize)) ∧
    ((sample 8 [10, 20, 30, 40]).self.elementCount <
        (sample 8 [10, 20, 30, 40]).self.blockSize →
      (push_back 8 (Ref.object 50) (sample 8 [10, 20, 30, 40])).self.block =
        (sample 8 [10, 20, 30, 40]).self.block ∧
      (push_back_move 8 (Ref.object 50) (sample 8 [10, 20, 30, 40])).self.block =
        (sample 8 [10, 20, 30, 40]).self.block ∧
      (emplace_back 8 (fun n : Nat => n + 1) (Ref.object 49)
          (sample 8 [10, 20, 30, 40])).self.block =
        (sample 8 [10, 20, 30, 40]).self.block) ∧
    ((sample 8 [10, 20, 30, 40]).self.elementCount =
        (sample 8 [10, 20, 30, 40]).self.blockSize →
      (FreshBlock (sample 8 [10, 20, 30, 40]).heap
          (push_back 8 (Ref.object 50) (sample 8 [10, 20, 30, 40])).self ∧
        Released (push_back 8 (Ref.object 50) (sample 8 [10, 20, 30, 40])).heap
          (sample 8 [10, 20, 30, 40]).self) ∧
      (FreshBlock (sample 8 [10, 20, 30, 40]).heap
          (push_back_move 8 (Ref.object 50) (sample 8 [10, 20, 30, 40])).self ∧
        Released (push_back_move 8 (Ref.object 50) (sample 8 [10, 20, 30, 40])).heap
          (sample 8 [10, 20, 30, 40]).self) ∧
      (FreshBlock (sample 8 [10, 20, 30, 40]).heap
          (emplace_back 8 (fun n : Nat => n + 1) (Ref.object 49)
            (sample 8 [10, 20, 30, 40])).self ∧
        Released
          (emplace_back 8 (fun n : Nat => n + 1) (Ref.object 49)
            (sample 8 [10, 20, 30, 40])).heap
          (sample 8 [10, 20, 30, 40]).self)) :=
  have hc : Container (sample 8 [10, 20, 30, 40]) := ⟨rfl, by decide⟩
  ⟨hc, by decide,
    C7_growth_policy 8 (Ref.object 50) (fun n : Nat => n + 1) (Ref.object 49)
      (sample 8 [10, 20, 30, 40]) hc (by decide)⟩

/-- C8, amended: on a container with `size <= capacity`, with `sizeof(T) >= 1` and for
every `n` such that `n <= capacity` or `n * sizeof(T)` is representable in `size_t`,
`reserve(n)` changes nothing at all when `n <= capacity`; otherwise the capacity becomes
exactly `n`, in the member `blockSize` and in the number of slots of the newly allocated
block the container owns, `total_memory()` is `n * sizeof(T)` and the old block is
released. In both cases the size and the element sequence are unchanged and the
resulting capacity is not below the size. For such `n` the function in 64-bit arithmetic
is the function `reserve` on natural numbers that the insertions call. -/
theorem C8_reserve (sz n : Nat) (s : State α) (hc : Container s) (hsz : 0 < sz)
    (hfit : n ≤ s.self.blockSize ∨ n * sz < 2 ^ 64) :
    (n ≤ s.self.blockSize → reserve64 sz n s = s) ∧
    (s.self.blockSize < n →
      HasCapacity (reserve64 sz n s) n ∧ total_memory (reserve64 sz n s) = n * sz ∧
      FreshBlock s.heap (reserve64 sz n s).self ∧
      Released (reserve64 sz n s).heap s.self) ∧
    size (reserve64 sz n s) = size s ∧
    elements (reserve64 sz n s) = elements s ∧
    size s ≤ (reserve64 sz n s).self.blockSize ∧
    Container (reserve64 sz n s) ∧
    reserve64 sz n s = reserve sz n s := by
  rw [reserve64_eq sz n s hsz hc.2 hfit]
  have ho := reserve_owns sz n s hc
  have hsize : size (reserve sz n s) = size s := by
    by_cases hn : n ≤ s.self.blockSize
    · rw [reserve_noop sz n s hn]
    · exact (reserve_grows sz n s hc (by omega)).2.1
  have hcap : size s ≤ (reserve sz n s).self.blockSize := by
    by_cases hn : n ≤ s.self.blockSize
    · rw [reserve_noop sz n s hn]; exact hc.2
    · rw [(reserve_grows sz n s hc (by omega)).1]
      have := hc.2
      show s.self.elementCount ≤ n
      omega
  refine ⟨reserve_noop sz n s, ?_, hsize, elements_reserve sz n s hc, hcap, ⟨ho, ?_⟩, rfl⟩
  · intro hn
    obtain ⟨h1, _, h3, h4, _, _, _⟩ := reserve_grows sz n s hc hn
    refine ⟨⟨ho, h1, ?_⟩, h3, ?_, reserve_releases sz n s hn⟩
    · rw [owns_length_contents _ ho]; exact h1
    · intro a ha
      rw [h4] at ha
      simp only [Option.some.injEq] at ha
      subst ha
      refine ⟨?_, le_refl _⟩
      cases hl : load s.heap (some s.heap.cells.length) with
      | none => rfl
      | some b2 => exact absurd (load_lt _ _ _ hl) (lt_irrefl _)
  · have : (reserve sz n s).self.elementCount ≤ (reserve sz n s).self.blockSize := by
      have h := hsize
      unfold size at h
      rw [h]
      exact hcap
    exact this

theorem C8_reserve_witness :
    Container (sample 8 [10, 20, 30]) ∧ 0 < 8 ∧
    (6 ≤ (sample 8 [10, 20, 30]).self.blockSize ∨ 6 * 8 < 2 ^ 64) ∧
    ((6 ≤ (sample 8 [10, 20, 30]).self.blockSize →
        reserve64 8 6 (sample 8 [10, 20, 30]) = sample 8 [10, 20, 30]) ∧
     ((sample 8 [10, 20, 30]).self.blockSize < 6 →
        HasCapacity (reserve64 8 6 (sample 8 [10, 20, 30])) 6 ∧
        total_memory (reserve64 8 6 (sample 8 [10, 20, 30])) = 6 * 8 ∧
        FreshBlock (sample 8 [10, 20, 30]).heap (reserve64 8 6 (sample 8 [10, 20, 30])).self ∧
        Released (reserve64 8 6 (sample 8 [10, 20, 30])).heap (sample 8 [10, 20, 30]).self) ∧
     size (reserve64 8 6 (sample 8 [10, 20, 30])) = size (sample 8 [10, 20, 30]) ∧
     elements (reserve64 8 6 (sample 8 [10, 20, 30])) = elements (sample 8 [10, 20, 30]) ∧
     size (sample 8 [10, 20, 30]) ≤ (reserve64 8 6 (sample 8 [10, 20, 30])).self.blockSize ∧
     Container (reserve64 8 6 (sample 8 [10, 20, 30])) ∧
     reserve64 8 6 (sample 8 [10, 20, 30]) = reserve 8 6 (sample 8 [10, 20, 30])) :=
  have hc : Container (sample 8 [10, 20, 30]) := ⟨rfl, by decide⟩
  ⟨hc, by decide, Or.inr (by decide),
    C8_reserve 8 6 (sample 8 [10, 20, 30]) hc (by decide) (Or.inr (by decide))⟩

/-- C8 as stated fails at `reserve(329406144173384851)` on the container `[1]` of capacity
4 with `sizeof(T) == 56`: the product `n * sizeof(T)` is 40 modulo `2^64`, so the block
requested has no room for one element. Afterwards the member `blockSize` is `n` and
`total_memory()` is 40, while the block the container points to has 0 slots, fewer than
the size 1, and the element sequence is no longer `[1]`. -/
theorem C8_reserve_counterexample :
    Container (sample 56 [1]) ∧ size (sample 56 [1]) = 1 ∧
    (sample 56 [1]).self.blockSize = 4 ∧
    329406144173384851 * 56 % 2 ^ 64 = 40 ∧
    (reserve64 56 329406144173384851 (sample 56 [1])).self.blockSize =
      329406144173384851 ∧
    total_memory (reserve64 56 329406144173384851 (sample 56 [1])) = 40 ∧
    (contents (reserve64 56 329406144173384851 (sample 56 [1]))).length = 0 ∧
    size (reserve64 56 329406144173384851 (sample 56 [1])) = 1 ∧
    ¬ HasCapacity (reserve64 56 329406144173384851 (sample 56 [1])) 329406144173384851 ∧
    elements (reserve64 56 329406144173384851 (sample 56 [1])) ≠ elements (sample 56 [1]) := by
  refine ⟨⟨rfl, by decide⟩, by decide, by decide, by decide, by decide, by decide,
    by decide, by decide, ?_, by decide⟩
  intro h
  exact absurd h.2.2 (by decide)

/-- C2: on a container with `size <= capacity` and for `index < size`, `erase(index)`
leaves the old elements `[0, index)` followed by the old elements `(index, size)`, in
order; the size decreases by exactly one and the capacity is unchanged. -/
theorem C2_erase_index (index : Nat) (s : State α) (hc : Container s)
    (hi : index < size s) :
    elements (erase index s) = (elements s).take index ++ (elements s).drop (index + 1) ∧
    size (erase index s) + 1 = size s ∧
    (erase index s).self.blockSize = s.self.blockSize := by
  refine ⟨?_, ?_, rfl⟩
  · rw [elements_erase index s hc hi, List.eraseIdx_eq_take_drop_succ]
  · show s.self.elementCount - 1 + 1 = s.self.elementCount
    have : index < s.self.elementCount := hi
    omega

theorem C2_erase_index_witness :
    Container (sample 8 [1, 2, 3, 4]) ∧ 1 < size (sample 8 [1, 2, 3, 4]) ∧
    (elements (erase 1 (sample 8 [1, 2, 3, 4])) =
        (elements (sample 8 [1, 2, 3, 4])).take 1 ++
          (elements (sample 8 [1, 2, 3, 4])).drop (1 + 1) ∧
     size (erase 1 (sample 8 [1, 2, 3, 4])) + 1 = size (sample 8 [1, 2, 3, 4]) ∧
     (erase 1 (sample 8 [1, 2, 3, 4])).self.blockSize =
       (sample 8 [1, 2, 3, 4]).self.blockSize) :=
  have hc : Container (sample 8 [1, 2, 3, 4]) := ⟨rfl, by decide⟩
  ⟨hc, by decide, C2_erase_index 1 (sample 8 [1, 2, 3, 4]) hc (by decide)⟩

/-- C3: on a container with `size <= capacity` and for `start < end <= size`,
`erase(start, end)` leaves the old elements `[0, start)` followed by the old elements
`[end, size)`, in order, and the size decreases by `end - start`, whatever the tail
length `size - end` is. -/
theorem C3_erase_range (start end_ : Nat) (s : State α) (hc : Container s)
    (hse : start < end_) (hes : end_ ≤ size s) :
    elements (erase_range start end_ s) =
      (elements s).take start ++ (elements s).drop end_ ∧
    size (erase_range start end_ s) + (end_ - start) = size s := by
  refine ⟨elements_erase_range start end_ s hc hse hes, ?_⟩
  show s.self.elementCount - (end_ - start) + (end_ - start) = s.self.elementCount
  have : end_ ≤ s.self.elementCount := hes
  omega

theorem C3_erase_range_witness :
    Container (sample 8 [1, 2, 3, 4, 5]) ∧ 1 < 3 ∧ 3 ≤ size (sample 8 [1, 2, 3, 4, 5]) ∧
    (elements (erase_range 1 3 (sample 8 [1, 2, 3, 4, 5])) =
        (elements (sample 8 [1, 2, 3, 4, 5])).take 1 ++
          (elements (sample 8 [1, 2, 3, 4, 5])).drop 3 ∧
     size (erase_range 1 3 (sample 8 [1, 2, 3, 4, 5])) + (3 - 1) =
       size (sample 8 [1, 2, 3, 4, 5])) :=
  have hc : Container (sample 8 [1, 2, 3, 4, 5]) := ⟨rfl, by decide⟩
  ⟨hc, by decide, by decide, C3_erase_range 1 3 (sample 8 [1, 2, 3, 4, 5]) hc (by decide)
    (by decide)⟩

/-- C4: in every world reachable from the empty one through default, copy and move
construction, the member functions called with in-range arguments, copy assignment and
move assignment, every container has `0 <= size <= capacity`. -/
theorem C4_size_le_capacity (sz : Nat) (w : World α) (hr : Reachable sz w) :
    ∀ v, v ∈ w.objs → 0 ≤ v.elementCount ∧ v.elementCount ≤ v.blockSize :=
  fun v hv => ⟨Nat.zero_le _, reachable_le sz w hr v hv⟩

theorem C4_size_le_capacity_witness :
    Reachable 8 (demo_world 8) ∧
    ∀ v, v ∈ (demo_world 8).objs → 0 ≤ v.elementCount ∧ v.elementCount ≤ v.blockSize :=
  ⟨demo_world_reachable 8, C4_size_le_capacity 8 (demo_world 8) (demo_world_reachable 8)⟩

/-- C5, at `[1, 2, 3, 4].erase(0, 3)`: the container satisfies the slot invariant before
the call and the arguments are in range, but afterwards the size is 1 while slots 1 and
2 still hold the constructed elements 2 and 3, so the invariant is broken. -/
theorem C5_erase_range_leaves_constructed :
    SlotInv (sample 8 [1, 2, 3, 4]) ∧
    (0 < 3 ∧ 3 ≤ size (sample 8 [1, 2, 3, 4])) ∧
    size (erase_range 0 3 (sample 8 [1, 2, 3, 4])) = 1 ∧
    contents (erase_range 0 3 (sample 8 [1, 2, 3, 4])) = [some 4, some 2, some 3, none] ∧
    ¬ SlotInv (erase_range 0 3 (sample 8 [1, 2, 3, 4])) := by
  refine ⟨?_, by decide, by decide, by decide, ?_⟩
  · unfold SlotInv
    decide
  · unfold SlotInv
    decide

/-- C6, after `clear()` on a default-constructed container: the world is reachable, the
capacity is 0, and `total_memory()` still reports the `4 * sizeof(T)` of the released
block. -/
theorem C6_total_memory_after_clear (sz : Nat) :
    Reachable sz (cleared_world sz) ∧
    ∃ v, v ∈ (cleared_world sz).objs ∧ v.blockSize = 0 ∧ v.totalMemoryInUse = 4 * sz :=
  ⟨cleared_world_reachable sz,
    (clear (default_ctor sz (Heap.empty : Heap Nat))).self, List.mem_singleton.mpr rfl, rfl,
    Nat.zero_add _⟩

/-- C9: on a container with `size <= capacity`, after `shrink_to_fit()` the capacity
equals the size, in the member `blockSize` and in the number of slots of the block the
container owns, and `total_memory()` equals `size * sizeof(T)`; the block the container
had is released, and an empty container is left with no block. The size and the element
sequence are unchanged, and a second `shrink_to_fit()` gives the same capacity, size,
`total_memory()` and slots as the first. In the scenario of `main`, 13 insertions and 5
`pop_back` give `size() == 8`, and `shrink_to_fit()` then gives
`total_memory() == 8 * sizeof(T)`. -/
theorem C9_shrink_to_fit (sz : Nat) (s : State α) (hc : Container s) :
    (HasCapacity (shrink_to_fit sz s) (size s) ∧
     total_memory (shrink_to_fit sz s) = size s * sz ∧
     size (shrink_to_fit sz s) = size s ∧
     elements (shrink_to_fit sz s) = elements s ∧
     Released (shrink_to_fit sz s).heap s.self ∧
     (size s = 0 → (shrink_to_fit sz s).self.block = none) ∧
     (size s ≠ 0 → FreshBlock s.heap (shrink_to_fit sz s).self)) ∧
    (HasCapacity (shrink_to_fit sz (shrink_to_fit sz s)) (size s) ∧
     (shrink_to_fit sz (shrink_to_fit sz s)).self.blockSize =
       (shrink_to_fit sz s).self.blockSize ∧
     size (shrink_to_fit sz (shrink_to_fit sz s)) = size (shrink_to_fit sz s) ∧
     total_memory (shrink_to_fit sz (shrink_to_fit sz s)) =
       total_memory (shrink_to_fit sz s) ∧
     contents (shrink_to_fit sz (shrink_to_fit sz s)) = contents (shrink_to_fit sz s)) ∧
    (size (popped 5 (filled sz 13)) = 8 ∧
     total_memory (shrink_to_fit sz (popped 5 (filled sz 13))) = 8 * sz) := by
  obtain ⟨h1, h2, h3, h4, h5, _⟩ := shrink_to_fit_spec sz s hc
  obtain ⟨g1, g2⟩ := scenario_container sz
  have hc2 : Container (shrink_to_fit sz s) := ⟨h1, by rw [h2, h3]⟩
  obtain ⟨k1, k2, _, _, k5, _⟩ := shrink_to_fit_spec sz (shrink_to_fit sz s) hc2
  refine ⟨⟨⟨h1, h2, h5⟩, h4, h3, elements_shrink_to_fit sz s hc,
      shrink_to_fit_releases sz s, ?_, ?_⟩,
    ⟨⟨k1, by rw [k2]; exact h3, by rw [k5]; exact h3⟩, shrink_to_fit_twice sz s hc⟩, g2, ?_⟩
  · intro h0
    have h0b : s.self.elementCount = 0 := h0
    simp only [shrink_to_fit, if_pos h0b]
  · intro h0
    have h0b : ¬ s.self.elementCount = 0 := h0
    intro a ha
    simp only [shrink_to_fit, if_neg h0b, alloc_snd, Option.some.injEq] at ha
    subst ha
    refine ⟨?_, le_refl _⟩
    cases hl : load s.heap (some s.heap.cells.length) with
    | none => rfl
    | some b2 => exact absurd (load_lt _ _ _ hl) (lt_irrefl _)
  · have g4 := (shrink_to_fit_spec sz (popped 5 (filled sz 13)) g1).2.2.2.1
    have g5 : (popped 5 (filled sz 13)).self.elementCount = 8 := g2
    show (shrink_to_fit sz (popped 5 (filled sz 13))).self.totalMemoryInUse = 8 * sz
    rw [g4, g5]

theorem C9_shrink_to_fit_witness :
    Container (sample 8 [10, 20, 30]) ∧
    ((HasCapacity (shrink_to_fit 8 (sample 8 [10, 20, 30])) (size (sample 8 [10, 20, 30])) ∧
      total_memory (shrink_to_fit 8 (sample 8 [10, 20, 30])) =
        size (sample 8 [10, 20, 30]) * 8 ∧
      size (shrink_to_fit 8 (sample 8 [10, 20, 30])) = size (sample 8 [10, 20, 30]) ∧
      elements (shrink_to_fit 8 (sample 8 [10, 20, 30])) =
        elements (sample 8 [10, 20, 30]) ∧
      Released (shrink_to_fit 8 (sample 8 [10, 20, 30])).heap (sample 8 [10, 20, 30]).self ∧
      (size (sample 8 [10, 20, 30]) = 0 →
        (shrink_to_fit 8 (sample 8 [10, 20, 30])).self.block = none) ∧
      (size (sample 8 [10, 20, 30]) ≠ 0 →
        FreshBlock (sample 8 [10, 20, 30]).heap
          (shrink_to_fit 8 (sample 8 [10, 20, 30])).self)) ∧
     (HasCapacity (shrink_to_fit 8 (shrink_to_fit 8 (sample 8 [10, 20, 30])))
        (size (sample 8 [10, 20, 30])) ∧
      (shrink_to_fit 8 (shrink_to_fit 8 (sample 8 [10, 20, 30]))).self.blockSize =
        (shrink_to_fit 8 (sample 8 [10, 20, 30])).self.blockSize ∧
      size (shrink_to_fit 8 (shrink_to_fit 8 (sample 8 [10, 20, 30]))) =
        size (shrink_to_fit 8 (sample 8 [10, 20, 30])) ∧
      total_memory (shrink_to_fit 8 (shrink_to_fit 8 (sample 8 [10, 20, 30]))) =
        total_memory (shrink_to_fit 8 (sample 8 [10, 20, 30])) ∧
      contents (shrink_to_fit 8 (shrink_to_fit 8 (sample 8 [10, 20, 30]))) =
        contents (shrink_to_fit 8 (sample 8 [10, 20, 30]))) ∧
     (size (popped 5 (filled 8 13)) = 8 ∧
      total_memory (shrink_to_fit 8 (popped 5 (filled 8 13))) = 8 * 8)) :=
  have hc : Container (sample 8 [10, 20, 30]) := ⟨rfl, by decide⟩
  ⟨hc, C9_shrink_to_fit 8 (sample 8 [10, 20, 30]) hc⟩

/-- C10: copy construction from a container with `size <= capacity`, when no element copy
throws, yields a container with the size and the capacity of the source, the capacity
being the member `blockSize` and the number of slots of the block the copy owns, a block
that was not allocated before, and with element
`i` equal to element `i` of the source for every `i < size`; the source has the same
elements after the copy, and after any later sequence of member function calls (with
in-range arguments) on the copy the source still has the same size and elements. -/
theorem C10_copy_construction (throwsAt : Nat → Bool) (sz : Nat) (h : Heap α)
    (other : vector) (hc : Container { heap := h, self := other })
    (hok : ∀ i, i < other.elementCount → throwsAt i = false) :
    ∃ c, (copy_ctor throwsAt sz h other).2 = some c ∧
      c.elementCount = other.elementCount ∧ c.blockSize = other.blockSize ∧
      HasCapacity { heap := (copy_ctor throwsAt sz h other).1, self := c } other.blockSize ∧
      FreshBlock h c ∧
      (∀ i, i < other.elementCount →
        at_ { heap := (copy_ctor throwsAt sz h other).1, self := c } i =
          at_ { heap := h, self := other } i) ∧
      elements { heap := (copy_ctor throwsAt sz h other).1, self := other } =
        elements { heap := h, self := other } ∧
      ∀ os : List (Op α),
        opsInRange sz os { heap := (copy_ctor throwsAt sz h other).1, self := c } →
        size { heap := (runOps sz os
            { heap := (copy_ctor throwsAt sz h other).1, self := c }).heap, self := other } =
          size { heap := h, self := other } ∧
        elements { heap := (runOps sz os
            { heap := (copy_ctor throwsAt sz h other).1, self := c }).heap, self := other } =
          elements { heap := h, self := other } := by
  obtain ⟨c, h1, h2, h3, h4, h5, h6, h7, h8⟩ := copy_ctor_spec throwsAt sz h other hc hok
  have hsrc : ∀ h2 : Heap α,
      (∀ a, other.block = some a → load h2 (some a) = load h (some a)) →
      load h2 other.block = load h other.block := by
    intro h2 hh
    cases hp : other.block with
    | none => rfl
    | some a => exact hh a hp
  have halloc : ∀ a, other.block = some a → ∃ b, load h (some a) = some b := by
    intro a ha
    have ho := hc.1
    unfold Owns at ho
    simp only [ha] at ho
    cases hl : load h (some a) with
    | none => simp [hl] at ho
    | some b => exact ⟨b, rfl⟩
  obtain ⟨hcap, hfresh⟩ := copy_ctor_capacity throwsAt sz h other hc hok c h1
  refine ⟨c, h1, h2, h3, hcap, hfresh, h4, ?_, ?_⟩
  · apply elements_of_load
    exact hsrc _ (fun a ha => h5 (some a) (halloc a ha))
  · intro os _
    refine ⟨rfl, ?_⟩
    apply elements_of_load
    apply hsrc
    intro a ha
    have hlt : a < h.cells.length := by
      obtain ⟨b, hb⟩ := halloc a ha
      exact load_lt _ _ _ hb
    rw [runOps_frame sz a os _ h7 ?_ (by simp only; omega)]
    · exact h5 (some a) (halloc a ha)
    · intro e
      have := h8 a e.symm
      omega

theorem C10_copy_construction_witness :
    Container { heap := (sample 8 [1, 2, 3]).heap, self := (sample 8 [1, 2, 3]).self } ∧
    (∀ i, i < (sample 8 [1, 2, 3]).self.elementCount → (fun _ : Nat => false) i = false) ∧
    ∃ c, (copy_ctor (fun _ => false) 8 (sample 8 [1, 2, 3]).heap
        (sample 8 [1, 2, 3]).self).2 = some c ∧
      c.elementCount = (sample 8 [1, 2, 3]).self.elementCount ∧
      c.blockSize = (sample 8 [1, 2, 3]).self.blockSize ∧
      HasCapacity { heap := (copy_ctor (fun _ => false) 8 (sample 8 [1, 2, 3]).heap
                (sample 8 [1, 2, 3]).self).1, self := c }
        (sample 8 [1, 2, 3]).self.blockSize ∧
      FreshBlock (sample 8 [1, 2, 3]).heap c ∧
      (∀ i, i < (sample 8 [1, 2, 3]).self.elementCount →
        at_ { heap := (copy_ctor (fun _ => false) 8 (sample 8 [1, 2, 3]).heap
                (sample 8 [1, 2, 3]).self).1, self := c } i =
          at_ { heap := (sample 8 [1, 2, 3]).heap, self := (sample 8 [1, 2, 3]).self } i) ∧
      elements { heap := (copy_ctor (fun _ => false) 8 (sample 8 [1, 2, 3]).heap
                (sample 8 [1, 2, 3]).self).1, self := (sample 8 [1, 2, 3]).self } =
        elements { heap := (sample 8 [1, 2, 3]).heap, self := (sample 8 [1, 2, 3]).self } ∧
      ∀ os : List (Op Nat),
        opsInRange 8 os { heap := (copy_ctor (fun _ => false) 8 (sample 8 [1, 2, 3]).heap
                (sample 8 [1, 2, 3]).self).1, self := c } →
        size { heap := (runOps 8 os
            { heap := (copy_ctor (fun _ => false) 8 (sample 8 [1, 2, 3]).heap
                (sample 8 [1, 2, 3]).self).1, self := c }).heap,
               self := (sample 8 [1, 2, 3]).self } =
          size { heap := (sample 8 [1, 2, 3]).heap, self := (sample 8 [1, 2, 3]).self } ∧
        elements { heap := (runOps 8 os
            { heap := (copy_ctor (fun _ => false) 8 (sample 8 [1, 2, 3]).heap
                (sample 8 [1, 2, 3]).self).1, self := c }).heap,
                   self := (sample 8 [1, 2, 3]).self } =
          elements { heap := (sample 8 [1, 2, 3]).heap, self := (sample 8 [1, 2, 3]).self } :=
  have hc : Container
      { heap := (sample 8 [1, 2, 3]).heap, self := (sample 8 [1, 2, 3]).self } :=
    ⟨rfl, by decide⟩
  ⟨hc, fun _ _ => rfl,
    C10_copy_construction (fun _ => false) 8 (sample 8 [1, 2, 3]).heap
      (sample 8 [1, 2, 3]).self hc (fun _ _ => rfl)⟩

/-- C14: `pop_back()` on an empty container changes nothing and leaves `size() == 0`; on a
non-empty container (with `size <= capacity`) the element sequence loses exactly its
last element, the size decreases by one and the capacity is unchanged. The function is
total: no call raises an error. -/
theorem C14_pop_back (s : State α) (hc : Container s) :
    (size s = 0 → pop_back s = s ∧ size (pop_back s) = 0) ∧
    (0 < size s →
      elements (pop_back s) = (elements s).dropLast ∧
      size (pop_back s) + 1 = size s ∧
      (pop_back s).self.blockSize = s.self.blockSize) := by
  refine ⟨?_, ?_⟩
  · intro h0
    rw [pop_back_empty s h0]
    exact ⟨rfl, h0⟩
  · intro hpos
    have h0 : s.self.elementCount ≠ 0 := by
      have : 0 < s.self.elementCount := hpos
      omega
    refine ⟨elements_pop_back s hc h0, ?_, ?_⟩
    · show (pop_back s).self.elementCount + 1 = s.self.elementCount
      simp only [pop_back, if_neg h0]
      omega
    · simp only [pop_back, if_neg h0]

theorem C14_pop_back_witness :
    Container (sample 8 [1, 2, 3]) ∧
    ((size (sample 8 [1, 2, 3]) = 0 →
        pop_back (sample 8 [1, 2, 3]) = sample 8 [1, 2, 3] ∧
        size (pop_back (sample 8 [1, 2, 3])) = 0) ∧
     (0 < size (sample 8 [1, 2, 3]) →
        elements (pop_back (sample 8 [1, 2, 3])) = (elements (sample 8 [1, 2, 3])).dropLast ∧
        size (pop_back (sample 8 [1, 2, 3])) + 1 = size (sample 8 [1, 2, 3]) ∧
        (pop_back (sample 8 [1, 2, 3])).self.blockSize =
          (sample 8 [1, 2, 3]).self.blockSize)) :=
  have hc : Container (sample 8 [1, 2, 3]) := ⟨rfl, by decide⟩
  ⟨hc, C14_pop_back (sample 8 [1, 2, 3]) hc⟩

/-- C20: on every state with `size <= capacity` (capacity 0 and 1 included) for which
`capacity + capacity / 2` does not overflow `size_t`, the new capacity computed in
`size_t` arithmetic is the one computed on natural numbers, `grow_if_needed()` ends with
the same size and `size < capacity` in a block of `capacity` slots, so the slot that
`push_back` and `emplace_back` construct lies inside the allocated block, and the
container they leave has `size <= capacity`, whatever their arguments refer to. -/
theorem C20_grow_if_needed_room {β : Type} (sz : Nat) (v : Ref α α) (mk : β → α)
    (args : Ref α β) (s : State α) (hc : Container s)
    (hno : s.self.blockSize + s.self.blockSize / 2 < 2 ^ 64) :
    grownCapacity64 s.self.blockSize = grownCapacity s.self.blockSize ∧
    size (grow_if_needed sz s) = size s ∧
    size (grow_if_needed sz s) < (grow_if_needed sz s).self.blockSize ∧
    (contents (grow_if_needed sz s)).length = (grow_if_needed sz s).self.blockSize ∧
    size (grow_if_needed sz s) < (contents (grow_if_needed sz s)).length ∧
    Container (push_back sz v s) ∧ Container (push_back_move sz v s) ∧
    Container (emplace_back sz mk args s) := by
  obtain ⟨_, h2, h3, _, h5⟩ := grow_if_needed_spec sz s hc
  refine ⟨grownCapacity64_eq _ hno, h2, ?_, h5, ?_, push_back_container sz v s hc,
    push_back_container sz v s hc, emplace_back_container sz mk args s hc⟩
  · show (grow_if_needed sz s).self.elementCount < (grow_if_needed sz s).self.blockSize
    omega
  · show (grow_if_needed sz s).self.elementCount < (contents (grow_if_needed sz s)).length
    omega

theorem C20_grow_if_needed_room_witness :
    Container (clear (sample 8 [1])) ∧
    (clear (sample 8 [1])).self.blockSize + (clear (sample 8 [1])).self.blockSize / 2
      < 2 ^ 64 ∧
    (grownCapacity64 (clear (sample 8 [1])).self.blockSize =
        grownCapacity (clear (sample 8 [1])).self.blockSize ∧
     size (grow_if_needed 8 (clear (sample 8 [1]))) = size (clear (sample 8 [1])) ∧
     size (grow_if_needed 8 (clear (sample 8 [1]))) <
       (grow_if_needed 8 (clear (sample 8 [1]))).self.blockSize ∧
     (contents (grow_if_needed 8 (clear (sample 8 [1])))).length =
       (grow_if_needed 8 (clear (sample 8 [1]))).self.blockSize ∧
     size (grow_if_needed 8 (clear (sample 8 [1]))) <
       (contents (grow_if_needed 8 (clear (sample 8 [1])))).length ∧
     Container (push_back 8 (Ref.object 5) (clear (sample 8 [1]))) ∧
     Container (push_back_move 8 (Ref.object 5) (clear (sample 8 [1]))) ∧
     Container (emplace_back 8 (fun n : Nat => n + 1) (Ref.object 4)
       (clear (sample 8 [1])))) :=
  have hc : Container (clear (sample 8 [1])) := ⟨rfl, by decide⟩
  ⟨hc, by decide,
    C20_grow_if_needed_room 8 (Ref.object 5) (fun n : Nat => n + 1) (Ref.object 4)
      (clear (sample 8 [1])) hc (by decide)⟩

/-- C11: move construction of `B` from `A` leaves `B` with the size, capacity,
`total_memory()` and elements of `A` and leaves `A` emptied (size 0, capacity 0, no
storage, `total_memory()` 0). Move assignment of `A` (object `j`) into a distinct `B`
(object `k`) that does not share the block of `A` does the same; two different
containers of a reachable world never share a block (`reachable_separate`). -/
theorem C11_move (w : World α) (k j : Nat) (b a : vector)
    (hk : w.objs[k]? = some b) (hj : w.objs[j]? = some a) (hkj : k ≠ j)
    (hsep : Separate a b) :
    (SameAs w.heap (move_ctor a).1 w.heap a ∧ Emptied (move_ctor a).2) ∧
    ∃ b2 a2, (move_assign k j w).objs[k]? = some b2 ∧
      (move_assign k j w).objs[j]? = some a2 ∧
      SameAs (move_assign k j w).heap b2 w.heap a ∧ Emptied a2 := by
  obtain ⟨h1, h2, h3⟩ := move_assign_spec k j w b a hk hj hkj hsep
  refine ⟨⟨⟨rfl, rfl, rfl, rfl⟩, rfl, rfl, rfl, rfl⟩, a, _, h1, h2, ?_, rfl, rfl, rfl, rfl⟩
  exact ⟨rfl, rfl, rfl, elements_of_load _ _ a h3⟩

theorem C11_move_witness :
    (pair_world 8).objs[0]? =
      some (push_back 8 (Ref.object 9) (default_ctor 8 (sample 8 [1, 2, 3]).heap)).self ∧
    (pair_world 8).objs[1]? = some (sample 8 [1, 2, 3]).self ∧ 0 ≠ 1 ∧
    Separate (sample 8 [1, 2, 3]).self
      (push_back 8 (Ref.object 9) (default_ctor 8 (sample 8 [1, 2, 3]).heap)).self ∧
    ((SameAs (pair_world 8).heap (move_ctor (sample 8 [1, 2, 3]).self).1 (pair_world 8).heap
        (sample 8 [1, 2, 3]).self ∧
      Emptied (move_ctor (sample 8 [1, 2, 3]).self).2) ∧
     ∃ b2 a2, (move_assign 0 1 (pair_world 8)).objs[0]? = some b2 ∧
       (move_assign 0 1 (pair_world 8)).objs[1]? = some a2 ∧
       SameAs (move_assign 0 1 (pair_world 8)).heap b2 (pair_world 8).heap
         (sample 8 [1, 2, 3]).self ∧
       Emptied a2) :=
  ⟨rfl, rfl, by decide, Or.inr (by decide),
    C11_move (pair_world 8) 0 1 _ _ rfl rfl (by decide) (Or.inr (by decide))⟩

/-- C13: copy construction from a container (`size <= capacity`, slots `[0, size)`
constructed) in which the copy of element `i` is the first to throw: the constructor is
left by the exception and produces no container; the events on the free store are
exactly the construction of elements `0, ..., i - 1` in the new block, one destruction
of each of them, and the release of the new block, all of them valid; the new block is
no longer allocated and every other block, the one of the source included, is
unchanged. -/
theorem C13_copy_failure (throwsAt : Nat → Bool) (sz : Nat) (h : Heap α) (other : vector)
    (hc : Container { heap := h, self := other })
    (hlive : Constructed { heap := h, self := other })
    (i : Nat) (hi : i < other.elementCount) (hthrow : throwsAt i = true)
    (hok : ∀ k, k < i → throwsAt k = false) :
    (copy_ctor throwsAt sz h other).2 = none ∧
    (copy_ctor throwsAt sz h other).1.log =
      h.log ++ copyFailureEvents other.block (some h.cells.length) i ∧
    load (copy_ctor throwsAt sz h other).1 (some h.cells.length) = none ∧
    (∀ r, r ≠ some h.cells.length → load (copy_ctor throwsAt sz h other).1 r = load h r) ∧
    elements { heap := (copy_ctor throwsAt sz h other).1, self := other } =
      elements { heap := h, self := other } := by
  obtain ⟨h1, h2, h3, h4⟩ := copy_ctor_fails throwsAt sz h other hc hlive i hi hthrow hok
  refine ⟨h1, h2, h3, h4, ?_⟩
  apply elements_of_load
  exact h4 _ (owns_ne_fresh { heap := h, self := other } hc.1)

theorem C13_copy_failure_witness :
    Container { heap := (sample 8 [1, 2, 3]).heap, self := (sample 8 [1, 2, 3]).self } ∧
    Constructed { heap := (sample 8 [1, 2, 3]).heap, self := (sample 8 [1, 2, 3]).self } ∧
    2 < (sample 8 [1, 2, 3]).self.elementCount ∧
    (fun k : Nat => k == 2) 2 = true ∧
    (∀ k, k < 2 → (fun k : Nat => k == 2) k = false) ∧
    ((copy_ctor (fun k : Nat => k == 2) 8 (sample 8 [1, 2, 3]).heap
        (sample 8 [1, 2, 3]).self).2 = none ∧
     (copy_ctor (fun k : Nat => k == 2) 8 (sample 8 [1, 2, 3]).heap
        (sample 8 [1, 2, 3]).self).1.log =
       (sample 8 [1, 2, 3]).heap.log ++
         copyFailureEvents (sample 8 [1, 2, 3]).self.block
           (some (sample 8 [1, 2, 3]).heap.cells.length) 2 ∧
     load (copy_ctor (fun k : Nat => k == 2) 8 (sample 8 [1, 2, 3]).heap
        (sample 8 [1, 2, 3]).self).1 (some (sample 8 [1, 2, 3]).heap.cells.length) = none ∧
     (∀ r, r ≠ some (sample 8 [1, 2, 3]).heap.cells.length →
       load (copy_ctor (fun k : Nat => k == 2) 8 (sample 8 [1, 2, 3]).heap
         (sample 8 [1, 2, 3]).self).1 r = load (sample 8 [1, 2, 3]).heap r) ∧
     elements { heap := (copy_ctor (fun k : Nat => k == 2) 8 (sample 8 [1, 2, 3]).heap
         (sample 8 [1, 2, 3]).self).1, self := (sample 8 [1, 2, 3]).self } =
       elements { heap := (sample 8 [1, 2, 3]).heap, self := (sample 8 [1, 2, 3]).self }) :=
  have hc : Container
      { heap := (sample 8 [1, 2, 3]).heap, self := (sample 8 [1, 2, 3]).self } :=
    ⟨rfl, by decide⟩
  have hlive : Constructed
      { heap := (sample 8 [1, 2, 3]).heap, self := (sample 8 [1, 2, 3]).self } := by
    unfold Constructed
    decide
  ⟨hc, hlive, by decide, rfl, by decide,
    C13_copy_failure (fun k : Nat => k == 2) 8 (sample 8 [1, 2, 3]).heap
      (sample 8 [1, 2, 3]).self hc hlive 2 (by decide) rfl (by decide)⟩

/-- C17, at `[1, 2, 3].erase(0, 1)` (tail 2, one element removed) and at
`[1, 2, 3, 4].erase(0, 3)` (tail 1, three elements removed): the arguments are in range
and all elements are constructed before the call. In the first call the second iteration
destructs slot 1, which the first iteration has already destructed (the event is
flagged invalid). In the second call the only destructions are those of slots 0 and 3,
so the removed elements in slots 1 and 2 are never destructed. -/
theorem C17_erase_range_destructions :
    (Constructed (sample 8 [1, 2, 3]) ∧ 0 < 1 ∧ 1 ≤ size (sample 8 [1, 2, 3])) ∧
    (erase_range 0 1 (sample 8 [1, 2, 3])).heap.log =
      (sample 8 [1, 2, 3]).heap.log ++
        [Event.destroy (some 0) 0 true, Event.access (some 0) 1 true,
         Event.construct (some 0) 0 true, Event.destroy (some 0) 1 true,
         Event.destroy (some 0) 1 false, Event.access (some 0) 2 true,
         Event.construct (some 0) 1 true, Event.destroy (some 0) 2 true] ∧
    (Constructed (sample 8 [1, 2, 3, 4]) ∧ 0 < 3 ∧ 3 ≤ size (sample 8 [1, 2, 3, 4])) ∧
    (erase_range 0 3 (sample 8 [1, 2, 3, 4])).heap.log =
      (sample 8 [1, 2, 3, 4]).heap.log ++
        [Event.destroy (some 0) 0 true, Event.access (some 0) 3 true,
         Event.construct (some 0) 0 true, Event.destroy (some 0) 3 true] := by
  refine ⟨⟨?_, by decide, by decide⟩, by decide, ⟨?_, by decide, by decide⟩, by decide⟩
  · unfold Constructed
    decide
  · unfold Constructed
    decide

/-- C15: on a container (`size <= capacity`, slots `[0, size)` constructed), `reverse()`
leaves size and capacity unchanged, makes the element sequence the reversal of the old
one, so the element at index `i` is the old element at index `size - 1 - i` for every
`i < size`, and changes nothing at all on 0 or 1 elements. -/
theorem C15_reverse (s : State α) (hc : Container s) (hlive : Constructed s) :
    size (reverse s) = size s ∧
    (reverse s).self.blockSize = s.self.blockSize ∧
    elements (reverse s) = (elements s).reverse ∧
    (∀ i, i < size s → at_ (reverse s) i = at_ s (size s - 1 - i)) ∧
    (size s ≤ 1 → reverse s = s) := by
  have hself := reverse_self s
  have hrev := elements_reverse s hc hlive
  have hlen : (elements s).length = s.self.elementCount := by
    unfold elements
    rw [List.length_take, owns_length_contents s hc.1]
    have := hc.2
    omega
  refine ⟨by simp only [size, hself], by rw [hself], hrev, ?_, ?_⟩
  · intro i hi
    have hi2 : i < s.self.elementCount := hi
    show at_ (reverse s) i = at_ s (s.self.elementCount - 1 - i)
    rw [at_eq_elements (reverse s) i (by rw [hself]; exact hi2), hrev,
      List.getElem?_reverse (by rw [hlen]; exact hi2), hlen,
      at_eq_elements s _ (by omega)]
  · intro h1
    have h2 : s.self.elementCount ≤ 1 := h1
    simp only [reverse, if_pos h2]

theorem C15_reverse_witness :
    Container (sample 8 [1, 2, 3, 4]) ∧ Constructed (sample 8 [1, 2, 3, 4]) ∧
    (size (reverse (sample 8 [1, 2, 3, 4])) = size (sample 8 [1, 2, 3, 4]) ∧
     (reverse (sample 8 [1, 2, 3, 4])).self.blockSize =
       (sample 8 [1, 2, 3, 4]).self.blockSize ∧
     elements (reverse (sample 8 [1, 2, 3, 4])) = (elements (sample 8 [1, 2, 3, 4])).reverse ∧
     (∀ i, i < size (sample 8 [1, 2, 3, 4]) →
       at_ (reverse (sample 8 [1, 2, 3, 4])) i =
         at_ (sample 8 [1, 2, 3, 4]) (size (sample 8 [1, 2, 3, 4]) - 1 - i)) ∧
     (size (sample 8 [1, 2, 3, 4]) ≤ 1 →
       reverse (sample 8 [1, 2, 3, 4]) = sample 8 [1, 2, 3, 4])) :=
  have hc : Container (sample 8 [1, 2, 3, 4]) := ⟨rfl, by decide⟩
  have hlive : Constructed (sample 8 [1, 2, 3, 4]) := by
    unfold Constructed
    decide
  ⟨hc, hlive, C15_reverse (sample 8 [1, 2, 3, 4]) hc hlive⟩

/-- C16: for every container and every outcome of the draws (the draw for index `i` is
`rng i % (i + 1)`, a value in `[0, i]`), `shuffle()` leaves size and capacity unchanged
and permutes the element sequence, so every value occurs as often after the call as
before; for `size <= 1` it changes nothing at all. -/
theorem C16_shuffle_permutes [DecidableEq α] (rng : Nat → Nat) (s : State α) :
    (∀ i, rng i % (i + 1) ≤ i) ∧
    size (shuffle rng s) = size s ∧
    (shuffle rng s).self.blockSize = s.self.blockSize ∧
    (elements (shuffle rng s)).Perm (elements s) ∧
    (∀ x : α, (elements (shuffle rng s)).countP (fun y => decide (y = some x)) =
      (elements s).countP (fun y => decide (y = some x))) ∧
    (size s ≤ 1 → shuffle rng s = s) := by
  have hself := shuffle_self rng s
  refine ⟨fun i => Nat.lt_succ_iff.mp (Nat.mod_lt _ (Nat.succ_pos i)),
    by simp only [size, hself], by rw [hself], elements_shuffle_perm rng s,
    fun x => (elements_shuffle_perm rng s).countP_eq _, ?_⟩
  intro h1
  have h2 : s.self.elementCount ≤ 1 := h1
  simp only [shuffle, if_pos h2]

/-- C18: starting from a default-constructed container (capacity 4, size 0), the number
of reallocations among `N` consecutive `push_back` calls is at most `2 * (1 + log2 N)`
for every `N` (the constant is 2), and the first 4 calls cause none. -/
theorem C18_reallocations_logarithmic (sz : Nat) (x : Nat → α) (h : Heap α) (N : Nat) :
    (default_ctor sz h).self.blockSize = 4 ∧ size (default_ctor sz h) = 0 ∧
    reallocations sz x N 0 (default_ctor sz h) ≤ 2 * (1 + Nat.log 2 N) ∧
    reallocations sz x 4 0 (default_ctor sz h) = 0 := by
  refine ⟨rfl, rfl, ?_, reallocations_first_four sz x h⟩
  have := reallocations_log sz x h N
  omega

/-- C19: on a container (`size <= capacity`, slots `[0, size)` constructed) of `n` pairwise
distinct elements, every sequence of draws (a draw in `[0, i]` for each index `i`) makes
`shuffle()` produce an ordering of the elements, and every ordering is produced by
exactly one sequence of draws; there are `n!` sequences of draws and `n!` orderings. So
when the draws are independent and uniform, each ordering has the probability `1 / n!`. -/
theorem C19_shuffle_uniform (s : State α) (hc : Container s) (hlive : Constructed s)
    (hnd : (elements s).Nodup) :
    (∀ d : (i : Fin (size s)) → Fin (i.val + 1),
      (elements (shuffle (drawsOf (size s) d) s)).Perm (elements s)) ∧
    (∀ l, l.Perm (elements s) →
      ∃! d : (i : Fin (size s)) → Fin (i.val + 1),
        elements (shuffle (drawsOf (size s) d) s) = l) ∧
    Fintype.card ((i : Fin (size s)) → Fin (i.val + 1)) = (size s).factorial ∧
    (elements s).permutations.length = (size s).factorial ∧
    (∀ l, l ∈ (elements s).permutations ↔ l.Perm (elements s)) := by
  have hlen : (elements s).length = size s := by
    unfold elements size
    rw [List.length_take, owns_length_contents s hc.1]
    have := hc.2
    omega
  refine ⟨fun d => elements_shuffle_perm _ s,
    fun l hl => shuffle_unique_draws s hc hlive hnd l hl, card_draws _, ?_,
    fun l => List.mem_permutations⟩
  rw [List.length_permutations, hlen]

theorem C19_shuffle_uniform_witness :
    Container (sample 8 [1, 2, 3]) ∧ Constructed (sample 8 [1, 2, 3]) ∧
    (elements (sample 8 [1, 2, 3])).Nodup ∧
    ((∀ d : (i : Fin (size (sample 8 [1, 2, 3]))) → Fin (i.val + 1),
       (elements (shuffle (drawsOf (size (sample 8 [1, 2, 3])) d) (sample 8 [1, 2, 3]))).Perm
         (elements (sample 8 [1, 2, 3]))) ∧
     (∀ l, l.Perm (elements (sample 8 [1, 2, 3])) →
       ∃! d : (i : Fin (size (sample 8 [1, 2, 3]))) → Fin (i.val + 1),
         elements (shuffle (drawsOf (size (sample 8 [1, 2, 3])) d) (sample 8 [1, 2, 3])) = l) ∧
     Fintype.card ((i : Fin (size (sample 8 [1, 2, 3]))) → Fin (i.val + 1)) =
       (size (sample 8 [1, 2, 3])).factorial ∧
     (elements (sample 8 [1, 2, 3])).permutations.length =
       (size (sample 8 [1, 2, 3])).factorial ∧
     (∀ l, l ∈ (elements (sample 8 [1, 2, 3])).permutations ↔
       l.Perm (elements (sample 8 [1, 2, 3])))) :=
  have hc : Container (sample 8 [1, 2, 3]) := ⟨rfl, by decide⟩
  have hlive : Constructed (sample 8 [1, 2, 3]) := by
    unfold Constructed
    decide
  have hnd : (elements (sample 8 [1, 2, 3])).Nodup := by decide
  ⟨hc, hlive, hnd, C19_shuffle_uniform (sample 8 [1, 2, 3]) hc hlive hnd⟩

end claims

end MyVector
